import Mathlib

/-!
Verification of the duplicate-file finder in src/finddups.c.

The development shallowly embeds the two components of the program:
the size-indexed red-black tree built by insertR/insert, and the
duplicate resolver chkForDups with its per-bucket comparison ledger
and skip-ahead inference.  File names are modelled as natural numbers
and the filesystem as a map from names to disk files (content plus
success flags for the open/lseek/read system calls).  The comparison
chunk size BUFSIZE is a parameter B.
-/

namespace Finddups

/-- Model of the C struct fe: one file entry holding a path name and the
device and inode identifiers (its next pointer becomes list structure). -/
structure Fe where
  name : Nat
  dev : Nat
  inode : Nat
  deriving DecidableEq, Repr, Inhabited

/-- The fields of the C struct stat that finddups.c reads. -/
structure StatRec where
  st_size : Nat
  st_dev : Nat
  st_ino : Nat
  deriving DecidableEq, Repr, Inhabited

/-- Model of newFileNode: build a file entry from a path and its stat data. -/
def newFileNode (name : Nat) (st : StatRec) : Fe :=
  { name := name, dev := st.st_dev, inode := st.st_ino }

/-- Model of the C struct dupNode: one duplicate group, a size together
with the file entries of the group (the chain pointer becomes a list). -/
structure DupNode where
  size : Nat
  files : List Fe
  deriving DecidableEq, Repr, Inhabited

/-- Model of addDupNode: prepend a copy of the file entry to the group,
creating the group when it does not exist yet. -/
def addDupNode (size : Nat) (file : Fe) : Option DupNode → DupNode
  | none => { size := size, files := [file] }
  | some d => { d with files := file :: d.files }

/-- One file on disk: its byte content together with flags telling whether
the open, lseek and read system calls succeed on it. -/
structure DiskFile where
  content : List Nat
  openOk : Bool
  seekOk : Bool
  readOk : Bool
  deriving DecidableEq, Repr, Inhabited

/-- A fully healthy disk file with the given content. -/
def okFile (content : List Nat) : DiskFile :=
  { content := content, openOk := true, seekOk := true, readOk := true }

/-- The filesystem seen by the resolver: a map from path names to files. -/
def FSys : Type := Nat → DiskFile

/-- The file operation that failed, for the error_exit diagnostic. -/
inductive FileOp where
  | fopen
  | fseek
  | fread
  deriving DecidableEq, Repr

/-- A fatal I/O diagnostic: the failing operation and the path it names,
as passed to error_exit (which syslogs the message and calls exit(1)). -/
structure IOErr where
  op : FileOp
  path : Nat
  deriving DecidableEq, Repr

/-- Model of one read system call: at most B bytes of the content,
starting at offset pos. -/
def readChunk (B : Nat) (content : List Nat) (pos : Nat) : List Nat :=
  (content.drop pos).take B

theorem readChunk_length (B : Nat) (content : List Nat) (pos : Nat) :
    (readChunk B content pos).length = min B (content.length - pos) := by
  simp [readChunk]

/-- The inner read-and-compare loop of chkForDups for one pair of files,
reading lockstep chunks from offset pos with ledger accumulator acc.
Returns the final accumulator together with true exactly when end of file
was reached with every chunk pair equal (the pair is a duplicate). -/
def cmpLoop (B : Nat) (ci cj : List Nat) (pos acc : Nat) : Nat × Bool :=
  if (readChunk B ci pos).length ≠ (readChunk B cj pos).length then (acc, false)
  else if readChunk B ci pos ≠ readChunk B cj pos then (acc, false)
  else if h : (readChunk B ci pos).length = 0 then (acc, true)
  else cmpLoop B ci cj (pos + (readChunk B ci pos).length)
    (acc + (readChunk B ci pos).length)
termination_by ci.length - pos
decreasing_by
  simp only [readChunk_length] at h ⊢
  omega

/-- Comparing a file with an identical one always reaches end of file and
accumulates exactly the bytes from the start offset to the end. -/
theorem cmpLoop_self (B : Nat) (ci : List Nat) (pos acc : Nat) (hB : 0 < B) :
    cmpLoop B ci ci pos acc = (acc + (ci.length - pos), true) := by
  induction pos, acc using cmpLoop.induct B ci ci with
  | case1 pos acc hne => simp at hne
  | case2 pos acc hlen hne => simp at hne
  | case3 pos acc hlen hne hz =>
      rw [cmpLoop, if_neg hlen, if_neg hne, dif_pos hz]
      simp only [readChunk_length] at hz
      have h0 : ci.length - pos = 0 := by omega
      rw [h0]
      simp
  | case4 pos acc hlen hne hz ih =>
      rw [cmpLoop, if_neg hlen, if_neg hne, dif_neg hz, ih]
      simp only [readChunk_length] at hz ⊢
      congr 1
      omega

/-- Main specification of the read loop: the accumulator only grows, grows by
at most the bytes remaining in the first file, the two files agree on the
bytes the loop confirmed, and a duplicate verdict means both remaining
suffixes are equal. -/
theorem cmpLoop_spec (B : Nat) (ci cj : List Nat) (pos acc : Nat) (hB : 0 < B) :
    acc ≤ (cmpLoop B ci cj pos acc).1 ∧
    (cmpLoop B ci cj pos acc).1 - acc ≤ ci.length - pos ∧
    (ci.drop pos).take ((cmpLoop B ci cj pos acc).1 - acc)
      = (cj.drop pos).take ((cmpLoop B ci cj pos acc).1 - acc) ∧
    ((cmpLoop B ci cj pos acc).2 = true → ci.drop pos = cj.drop pos) := by
  induction pos, acc using cmpLoop.induct B ci cj with
  | case1 pos acc hne =>
      rw [cmpLoop, if_pos hne]
      simp
  | case2 pos acc hlen hne =>
      rw [cmpLoop, if_neg hlen, if_pos hne]
      simp
  | case3 pos acc hlen hne hz =>
      rw [cmpLoop, if_neg hlen, if_neg hne, dif_pos hz]
      push_neg at hlen
      rw [hz] at hlen
      simp only [readChunk_length] at hz hlen
      refine ⟨le_rfl, by simp, by simp, fun _ => ?_⟩
      have hi : ci.length ≤ pos := by omega
      have hj : cj.length ≤ pos := by omega
      rw [List.drop_eq_nil_of_le hi, List.drop_eq_nil_of_le hj]
  | case4 pos acc hlen hne hz ih =>
      rw [cmpLoop, if_neg hlen, if_neg hne, dif_neg hz]
      push_neg at hlen hne
      obtain ⟨ih1, ih2, ih3, ih4⟩ := ih
      set k := (readChunk B ci pos).length with hk
      set r := cmpLoop B ci cj (pos + k) (acc + k) with hr
      have hklen : k = min B (ci.length - pos) := by rw [hk, readChunk_length]
      have hchunk : (ci.drop pos).take k = (cj.drop pos).take k := by
        have h1 : (ci.drop pos).take k = readChunk B ci pos := by
          rw [hk, readChunk_length, readChunk]
          refine List.take_eq_take.mpr ?_
          simp only [List.length_drop]
          omega
        have h2 : (cj.drop pos).take k = readChunk B cj pos := by
          have hkj : k = min B (cj.length - pos) := by rw [hlen, readChunk_length]
          rw [hkj, readChunk]
          refine List.take_eq_take.mpr ?_
          simp only [List.length_drop]
          omega
        rw [h1, h2, hne]
      refine ⟨by omega, by omega, ?_, fun hdup => ?_⟩
      · have hsplit : r.1 - acc = k + (r.1 - (acc + k)) := by omega
        rw [hsplit, List.take_add, List.take_add, hchunk]
        congr 1
        rw [List.drop_drop, List.drop_drop]
        exact ih3
      · have hs := ih4 hdup
        have e1 : ci.drop pos = (ci.drop pos).take k ++ ci.drop (pos + k) := by
          rw [← List.drop_drop]
          exact (List.take_append_drop k (ci.drop pos)).symm
        have e2 : cj.drop pos = (cj.drop pos).take k ++ cj.drop (pos + k) := by
          rw [← List.drop_drop]
          exact (List.take_append_drop k (cj.drop pos)).symm
        rw [e1, e2, hchunk, hs]

/-- A duplicate verdict for a pair whose skipped prefix is also known equal
means the two files are equal in full. -/
theorem cmpLoop_dup_eq (B : Nat) (ci cj : List Nat) (pos acc : Nat) (hB : 0 < B)
    (hpre : ci.take pos = cj.take pos)
    (hdup : (cmpLoop B ci cj pos acc).2 = true) : ci = cj := by
  have h := (cmpLoop_spec B ci cj pos acc hB).2.2.2 hdup
  calc ci = ci.take pos ++ ci.drop pos := (List.take_append_drop pos ci).symm
    _ = cj.take pos ++ cj.drop pos := by rw [hpre, h]
    _ = cj := List.take_append_drop pos cj

/-- The pr scan of chkForDups that computes maxToSkip for pair (i, j):
starting from row pr with running maximum acc, return -1 as soon as some row
shows different ledger column values for i and j, otherwise the maximum
recorded column value. -/
def maxToSkipLoop (ar : Nat → Nat) (cnt i j : Nat) (pr : Nat) (acc : Int) : Int :=
  if pr < i then
    if (ar (pr * cnt + i) : Int) ≠ (ar (pr * cnt + j) : Int) then -1
    else maxToSkipLoop ar cnt i j (pr + 1) (max acc (ar (pr * cnt + i) : Int))
  else acc
termination_by i - pr

/-- Specification of the maxToSkip scan: a negative result exhibits a first
differing row, and a non-negative result means every scanned row agrees,
bounds every scanned column value, and is either the initial accumulator or
one of the scanned column values. -/
theorem maxToSkipLoop_spec (ar : Nat → Nat) (cnt i j : Nat) (pr : Nat) (acc : Int)
    (hacc : 0 ≤ acc) :
    (maxToSkipLoop ar cnt i j pr acc < 0 →
      ∃ r, pr ≤ r ∧ r < i ∧ ar (r * cnt + i) ≠ ar (r * cnt + j) ∧
        ∀ q, pr ≤ q → q < r → ar (q * cnt + i) = ar (q * cnt + j)) ∧
    (0 ≤ maxToSkipLoop ar cnt i j pr acc →
      (∀ r, pr ≤ r → r < i → ar (r * cnt + i) = ar (r * cnt + j)) ∧
      (∀ r, pr ≤ r → r < i →
        (ar (r * cnt + i) : Int) ≤ maxToSkipLoop ar cnt i j pr acc) ∧
      acc ≤ maxToSkipLoop ar cnt i j pr acc ∧
      (maxToSkipLoop ar cnt i j pr acc = acc ∨
        ∃ r, pr ≤ r ∧ r < i ∧
          (ar (r * cnt + i) : Int) = maxToSkipLoop ar cnt i j pr acc)) := by
  induction pr, acc using maxToSkipLoop.induct ar cnt i j with
  | case1 pr acc hpr hne =>
      rw [maxToSkipLoop, if_pos hpr, if_pos hne]
      refine ⟨fun _ => ⟨pr, le_rfl, hpr, ?_, fun q hq1 hq2 => by omega⟩, fun hc => by omega⟩
      exact_mod_cast hne
  | case2 pr acc hpr hne ih =>
      rw [maxToSkipLoop, if_pos hpr, if_neg hne]
      push_neg at hne
      have hne0 : ar (pr * cnt + i) = ar (pr * cnt + j) := by exact_mod_cast hne
      have hacc2 : (0 : Int) ≤ max acc (ar (pr * cnt + i) : Int) := le_max_of_le_left hacc
      obtain ⟨ihn, ihp⟩ := ih hacc2
      constructor
      · intro hneg
        obtain ⟨r, hr1, hr2, hr3, hr4⟩ := ihn hneg
        refine ⟨r, by omega, hr2, hr3, fun q hq1 hq2 => ?_⟩
        rcases Nat.eq_or_lt_of_le hq1 with heq | hlt
        · rw [← heq]; exact hne0
        · exact hr4 q hlt hq2
      · intro hpos
        obtain ⟨ih1, ih2, ih3, ih4⟩ := ihp hpos
        refine ⟨fun r hr1 hr2 => ?_, fun r hr1 hr2 => ?_, le_trans (le_max_left _ _) ih3, ?_⟩
        · rcases Nat.eq_or_lt_of_le hr1 with heq | hlt
          · rw [← heq]; exact hne0
          · exact ih1 r hlt hr2
        · rcases Nat.eq_or_lt_of_le hr1 with heq | hlt
          · rw [← heq]
            exact le_trans (le_max_right _ _) ih3
          · exact ih2 r hlt hr2
        · rcases ih4 with heq | ⟨r, hr1, hr2, hr3⟩
          · rcases max_cases acc (ar (pr * cnt + i) : Int) with ⟨hm, _⟩ | ⟨hm, _⟩
            · left; rw [heq, hm]
            · right; exact ⟨pr, le_rfl, hpr, by rw [heq, hm]⟩
          · right; exact ⟨r, by omega, hr2, hr3⟩
  | case3 pr acc hpr =>
      rw [maxToSkipLoop, if_neg hpr]
      push_neg at hpr
      exact ⟨fun hneg => by omega,
        fun _ => ⟨fun r hr1 hr2 => by omega, fun r hr1 hr2 => by omega, le_rfl, Or.inl rfl⟩⟩

/-- The flattened ledger index of the pair (p, q). -/
def key (cnt p q : Nat) : Nat := p * cnt + q

theorem key_inj {cnt p q r s : Nat} (hq : q < cnt) (hs : s < cnt)
    (h : key cnt p q = key cnt r s) : p = r ∧ q = s := by
  unfold key at h
  have hcnt : 0 < cnt := by omega
  have hmq : (p * cnt + q) % cnt = q := by
    rw [Nat.add_comm, Nat.add_mul_mod_self_right, Nat.mod_eq_of_lt hq]
  have hms : (r * cnt + s) % cnt = s := by
    rw [Nat.add_comm, Nat.add_mul_mod_self_right, Nat.mod_eq_of_lt hs]
  have hqs : q = s := by rw [← hmq, h, hms]
  subst hqs
  have hpr : p * cnt = r * cnt := by omega
  exact ⟨Nat.eq_of_mul_eq_mul_right hcnt hpr, rfl⟩

theorem key_ne {cnt p q i j : Nat} (hq : q < cnt) (hj : j < cnt)
    (hne : ¬ (p = i ∧ q = j)) : key cnt p q ≠ key cnt i j :=
  fun h => hne (key_inj hq hj h)

theorem key_ne_raw (cnt p q i j : Nat) (hq : q < cnt) (hj : j < cnt)
    (hne : ¬ (p = i ∧ q = j)) : p * cnt + q ≠ key cnt i j :=
  fun h => hne (key_inj hq hj h)

/-- The per-bucket state threaded through the pair loops of chkForDups.
The ledger ar (keyed by the flattened index i * cnt + j), the output flags
fflags, the group under construction dn and the accumulated output chain
out are the C variables; recorded, seekRec and skipped are ghost
instrumentation marking which pairs were actually compared, from which seek
offset, and which pairs the skip-ahead inference skipped; evs logs the name
pair of every comparison that actually opens the two files. -/
structure BSt where
  ar : Nat → Nat
  fflags : Nat → Bool
  dn : Option DupNode
  out : List DupNode
  recorded : Nat → Bool
  seekRec : Nat → Nat
  skipped : Nat → Bool
  evs : List (Nat × Nat)

/-- Process one pair (i, j) of the bucket whose column j is unflagged: run
the pr scan; on a negative result skip the pair, otherwise open both files,
seek to the skip offset when it is positive, and run the lockstep read
loop, updating the ledger and, on a duplicate verdict, the group under
construction and the flags, exactly as chkForDups does. -/
def procPair (fs : FSys) (B : Nat) (files : List Fe) (cnt size i j : Nat)
    (st : BSt) : Except IOErr BSt :=
  let fi := files.getD i default
  let fj := files.getD j default
  let m := maxToSkipLoop st.ar cnt i j 0 0
  if m < 0 then
    Except.ok { st with
      skipped := fun k => if k = key cnt i j then true else st.skipped k }
  else if (fs fi.name).openOk = false then Except.error ⟨.fopen, fi.name⟩
  else if (fs fj.name).openOk = false then Except.error ⟨.fopen, fj.name⟩
  else if 0 < m ∧ (fs fi.name).seekOk = false then Except.error ⟨.fseek, fi.name⟩
  else if 0 < m ∧ (fs fj.name).seekOk = false then Except.error ⟨.fseek, fj.name⟩
  else if (fs fi.name).readOk = false then Except.error ⟨.fread, fi.name⟩
  else if (fs fj.name).readOk = false then Except.error ⟨.fread, fj.name⟩
  else
    let res := cmpLoop B (fs fi.name).content (fs fj.name).content m.toNat 0
    let st1 : BSt := { st with
      ar := fun k => if k = key cnt i j then st.ar k + res.1 else st.ar k,
      recorded := fun k => if k = key cnt i j then true else st.recorded k,
      seekRec := fun k => if k = key cnt i j then m.toNat else st.seekRec k,
      evs := (fi.name, fj.name) :: st.evs }
    if res.2 then
      Except.ok { st1 with
        dn := some (addDupNode size fj
          (if st.fflags i = false then some (addDupNode size fi st.dn) else st.dn)),
        fflags := fun k => if k = i then true else if k = j then true else st.fflags k }
    else Except.ok st1

/-- The inner j loop of chkForDups for row i, from column j upward:
columns already flagged as output are skipped. -/
def jLoop (fs : FSys) (B : Nat) (files : List Fe) (cnt size i : Nat)
    (j : Nat) (st : BSt) : Except IOErr BSt :=
  if j < cnt then
    if st.fflags j then jLoop fs B files cnt size i (j + 1) st
    else
      match procPair fs B files cnt size i j st with
      | .error e => .error e
      | .ok st1 => jLoop fs B files cnt size i (j + 1) st1
  else .ok st
termination_by cnt - j

/-- End-of-row bookkeeping: when a chain of duplicates of file i was built,
prepend it to the output chain and reset the group under construction. -/
def finishRow (st : BSt) : BSt :=
  match st.dn with
  | some d => { st with dn := none, out := d :: st.out }
  | none => st

/-- The outer i loop of chkForDups: rows already flagged as output are
skipped entirely; every other row runs the j loop and then finalizes the
group it may have built. -/
def iLoop (fs : FSys) (B : Nat) (files : List Fe) (cnt size : Nat)
    (i : Nat) (st : BSt) : Except IOErr BSt :=
  if i < cnt - 1 then
    if st.fflags i then iLoop fs B files cnt size (i + 1) st
    else
      match jLoop fs B files cnt size i (i + 1) st with
      | .error e => .error e
      | .ok st1 => iLoop fs B files cnt size (i + 1) (finishRow st1)
  else .ok st
termination_by cnt - 1 - i

/-- The all-zero initial per-bucket state (ar and fflags are calloc'ed). -/
def initBSt (out : List DupNode) (evs : List (Nat × Nat)) : BSt :=
  { ar := fun _ => 0, fflags := fun _ => false, dn := none, out := out,
    recorded := fun _ => false, seekRec := fun _ => 0,
    skipped := fun _ => false, evs := evs }

/-- Process one tree node's bucket, as the body of chkForDups does: fewer
than two files produce nothing, a bucket of nonzero size runs the pair
loops, and a bucket of size zero trivially groups all its files without
touching the filesystem. -/
def processNode (fs : FSys) (B : Nat) (size : Nat) (files : List Fe)
    (out : List DupNode) (evs : List (Nat × Nat)) :
    Except IOErr (List DupNode × List (Nat × Nat)) :=
  if files.length < 2 then Except.ok (out, evs)
  else if size ≠ 0 then
    match iLoop fs B files files.length size 0 (initBSt out evs) with
    | .error e => .error e
    | .ok st => .ok (st.out, st.evs)
  else Except.ok ({ size := 0, files := files } :: out, evs)

/-- Model of the C struct Node: the red-black tree node of the size index
(color true is red; the never-read field c is kept for fidelity). -/
inductive Tree where
  | nil : Tree
  | node (size : Nat) (c : Nat) (files : List Fe) (left : Tree)
      (right : Tree) (color : Bool) : Tree
  deriving DecidableEq, Repr, Inhabited

/-- Model of chkForDups: in-order traversal over the size index, threading
the duplicate chain (and the ghost event log) through every bucket; any
I/O failure aborts the whole traversal. -/
def chkForDups (fs : FSys) (B : Nat) :
    Tree → List DupNode × List (Nat × Nat) →
    Except IOErr (List DupNode × List (Nat × Nat))
  | .nil, acc => .ok acc
  | .node size _ files l r _, acc =>
    match chkForDups fs B l acc with
    | .error e => .error e
    | .ok acc1 =>
      match processNode fs B size files acc1.1 acc1.2 with
      | .error e => .error e
      | .ok acc2 => chkForDups fs B r acc2

/-- Model of isRed: nil nodes are black. -/
def isRed : Tree → Bool
  | .nil => false
  | .node _ _ _ _ _ color => color

/-- The left child of a node (nil for nil). -/
def leftOf : Tree → Tree
  | .nil => .nil
  | .node _ _ _ l _ _ => l

/-- Recolor the root of a subtree black (the second half of colorFlip, and
the root = black step of insert). -/
def blacken : Tree → Tree
  | .nil => .nil
  | .node size c files l r _ => .node size c files l r false

/-- Model of rotateLeft. -/
def rotateLeft : Tree → Tree
  | .node size c files l (.node rs rc rf rl rr _) color =>
      .node rs rc rf (.node size c files l rl true) rr color
  | t => t

/-- Model of rotateRight. -/
def rotateRight : Tree → Tree
  | .node size c files (.node ls lc lf ll lr _) r color =>
      .node ls lc lf ll (.node size c files lr r true) color
  | t => t

/-- The two conditional rotations at the end of an insertR step. -/
def balance (t : Tree) : Tree :=
  match t with
  | .nil => .nil
  | .node size c files l r color =>
    match (if isRed r && !isRed l then rotateLeft (.node size c files l r color)
           else .node size c files l r color) with
    | .nil => .nil
    | .node size1 c1 files1 l1 r1 color1 =>
      if isRed l1 && isRed (leftOf l1) then
        rotateRight (.node size1 c1 files1 l1 r1 color1)
      else .node size1 c1 files1 l1 r1 color1

/-- Number of nodes of a tree (termination measure for insertR). -/
def nodeCount : Tree → Nat
  | .nil => 0
  | .node _ _ _ l r _ => nodeCount l + nodeCount r + 1

theorem nodeCount_blacken (t : Tree) : nodeCount (blacken t) = nodeCount t := by
  cases t <;> simp [blacken, nodeCount]

/-- Model of insertR: recursive insert into the size index.  A new size
makes a fresh red singleton bucket; an existing size either discards the
file (some bucket entry already has its device and inode: a hard link) or
prepends it to the bucket; otherwise flip colors when both children are
red, recurse into the proper child and rebalance with the two conditional
rotations. -/
def insertR (t : Tree) (name : Nat) (st : StatRec) : Tree :=
  match t with
  | .nil => .node st.st_size 1 [newFileNode name st] .nil .nil true
  | .node size c files l r color =>
    if st.st_size = size then
      if files.any (fun fp => fp.dev == st.st_dev && fp.inode == st.st_ino) then
        .node size c files l r color
      else .node size c (newFileNode name st :: files) l r color
    else if st.st_size < size then
      balance (.node size c files
        (insertR (if isRed l && isRed r then blacken l else l) name st)
        (if isRed l && isRed r then blacken r else r)
        (if isRed l && isRed r then true else color))
    else
      balance (.node size c files
        (if isRed l && isRed r then blacken l else l)
        (insertR (if isRed l && isRed r then blacken r else r) name st)
        (if isRed l && isRed r then true else color))
termination_by nodeCount t
decreasing_by
  all_goals
    split <;> simp [nodeCount, nodeCount_blacken] <;> omega

/-- Model of insert: insert at the root, then force the root black. -/
def insert (t : Tree) (name : Nat) (st : StatRec) : Tree :=
  blacken (insertR t name st)

/-- The size index built from a stream of traversal visits, starting from
the null root. -/
def buildTree (calls : List (Nat × StatRec)) : Tree :=
  calls.foldl (fun t p => insert t p.1 p.2) .nil

/-- In-order association list of the size index: one (size, bucket) pair
per node. -/
def toList : Tree → List (Nat × List Fe)
  | .nil => []
  | .node size _ files l r _ => toList l ++ (size, files) :: toList r

/-- The sizes present in a tree, in order. -/
def sizes (t : Tree) : List Nat := (toList t).map Prod.fst

/-- The bucket a given size is filed under, found by binary search as
insertR finds it. -/
def bucketOf : Tree → Nat → List Fe
  | .nil, _ => []
  | .node size _ files l r _, sz =>
    if sz = size then files
    else if sz < size then bucketOf l sz
    else bucketOf r sz

/-- The binary-search-tree ordering invariant of the size index. -/
def BST : Tree → Prop
  | .nil => True
  | .node size _ _ l r _ =>
    BST l ∧ BST r ∧ (∀ s ∈ sizes l, s < size) ∧ (∀ s ∈ sizes r, size < s)

/-! Specification-side machinery for one bucket: content classes and the
expected groups, used to state the loop invariant of the pair loops. -/

/-- The content of the k-th file of the bucket, as read through the
filesystem map. -/
def cAt (fs : FSys) (files : List Fe) (k : Nat) : List Nat :=
  (fs ((files.getD k default).name)).content

/-- The ascending list of bucket indices whose content equals that of x. -/
def classList (fs : FSys) (files : List Fe) (x : Nat) : List Nat :=
  (List.range files.length).filter (fun k => decide (cAt fs files k = cAt fs files x))

/-- The least bucket index with the same content as x (the class minimum). -/
def classMin (fs : FSys) (files : List Fe) (x : Nat) : Nat :=
  (classList fs files x).headD files.length

/-- The flag value the resolver has assigned to index x by the time row i
starts: set exactly when the class of x has at least two members and was
grouped in an earlier row (its minimum is below i). -/
def flagB (fs : FSys) (files : List Fe) (i x : Nat) : Bool :=
  decide (classMin fs files x < i) && decide (2 ≤ (classList fs files x).length)

/-- The group the resolver builds for a class, identified by its minimum m:
the class members in descending index order (the build prepends). -/
def specGroup (fs : FSys) (files : List Fe) (size m : Nat) : DupNode :=
  { size := size,
    files := ((classList fs files m).map (fun k => files.getD k default)).reverse }

/-- The class minima below i whose classes have at least two members, in
ascending order: the rows that finalize a group. -/
def specMins (fs : FSys) (files : List Fe) (i : Nat) : List Nat :=
  (List.range i).filter (fun m =>
    decide (classMin fs files m = m) && decide (2 ≤ (classList fs files m).length))

/-- The output chain after the rows below i have run: the groups of the
finalized classes, most recent first, on top of the chain passed in. -/
def specOut (fs : FSys) (files : List Fe) (size i : Nat) (out0 : List DupNode) :
    List DupNode :=
  ((specMins fs files i).map (specGroup fs files size)).reverse ++ out0

/-- The class members of row i strictly between i and j: the columns of the
current row that have already been matched into the group in progress. -/
def rowMembers (fs : FSys) (files : List Fe) (i j : Nat) : List Nat :=
  (classList fs files i).filter (fun y => decide (i < y) && decide (y < j))

theorem mem_classList {fs : FSys} {files : List Fe} {x k : Nat} :
    k ∈ classList fs files x ↔ k < files.length ∧ cAt fs files k = cAt fs files x := by
  simp [classList, List.mem_filter, List.mem_range]

theorem classList_sorted (fs : FSys) (files : List Fe) (x : Nat) :
    (classList fs files x).Pairwise (· < ·) :=
  List.Pairwise.sublist (List.filter_sublist _) (List.pairwise_lt_range _)

theorem self_mem_classList {fs : FSys} {files : List Fe} {x : Nat}
    (hx : x < files.length) : x ∈ classList fs files x :=
  mem_classList.mpr ⟨hx, rfl⟩

theorem classList_congr {fs : FSys} {files : List Fe} {x y : Nat}
    (hxy : cAt fs files x = cAt fs files y) :
    classList fs files x = classList fs files y := by
  unfold classList
  congr 1
  funext k
  rw [hxy]

theorem classMin_mem {fs : FSys} {files : List Fe} {x : Nat}
    (hx : x < files.length) : classMin fs files x ∈ classList fs files x := by
  unfold classMin
  have hne : classList fs files x ≠ [] := List.ne_nil_of_mem (self_mem_classList hx)
  cases hcl : classList fs files x with
  | nil => exact absurd hcl hne
  | cons a l => simp

theorem classMin_le {fs : FSys} {files : List Fe} {x k : Nat}
    (hk : k ∈ classList fs files x) : classMin fs files x ≤ k := by
  have hs := classList_sorted fs files x
  unfold classMin
  cases hcl : classList fs files x with
  | nil => rw [hcl] at hk; simp at hk
  | cons a l =>
      rw [hcl] at hk hs
      simp only [List.headD_cons]
      rcases List.mem_cons.mp hk with h | h
      · omega
      · exact le_of_lt ((List.pairwise_cons.mp hs).1 k h)

theorem classMin_lt_length {fs : FSys} {files : List Fe} {x : Nat}
    (hx : x < files.length) : classMin fs files x < files.length :=
  (mem_classList.mp (classMin_mem hx)).1

theorem classMin_content {fs : FSys} {files : List Fe} {x : Nat}
    (hx : x < files.length) :
    cAt fs files (classMin fs files x) = cAt fs files x :=
  (mem_classList.mp (classMin_mem hx)).2

theorem classMin_congr {fs : FSys} {files : List Fe} {x y : Nat}
    (hxy : cAt fs files x = cAt fs files y) :
    classMin fs files x = classMin fs files y := by
  unfold classMin
  rw [classList_congr hxy]

theorem flagB_congr {fs : FSys} {files : List Fe} {i x y : Nat}
    (hxy : cAt fs files x = cAt fs files y) :
    flagB fs files i x = flagB fs files i y := by
  unfold flagB
  rw [classMin_congr hxy, classList_congr hxy]

theorem classMin_le_self {fs : FSys} {files : List Fe} {x : Nat}
    (hx : x < files.length) : classMin fs files x ≤ x :=
  classMin_le (self_mem_classList hx)

/-- When x is its own class minimum, the class splits as x followed by the
later members. -/
theorem classList_eq_cons {fs : FSys} {files : List Fe} {x : Nat}
    (hx : x < files.length) (hmin : classMin fs files x = x) :
    classList fs files x = x :: rowMembers fs files x files.length := by
  have hs := classList_sorted fs files x
  have hxm := @self_mem_classList fs _ _ hx
  cases hcl : classList fs files x with
  | nil => rw [hcl] at hxm; simp at hxm
  | cons a l =>
      have ha : a = x := by
        have hm := hmin
        unfold classMin at hm
        rw [hcl] at hm
        simpa using hm
      subst ha
      rw [hcl] at hs
      have hl : ∀ y ∈ l, a < y := (List.pairwise_cons.mp hs).1
      congr 1
      unfold rowMembers
      rw [hcl, List.filter_cons]
      have hfl : List.filter (fun y => decide (a < y) && decide (y < files.length)) l
          = l := by
        rw [List.filter_eq_self]
        intro y hy
        simp only [Bool.and_eq_true, decide_eq_true_eq]
        refine ⟨hl y hy, ?_⟩
        exact (mem_classList.mp (by rw [hcl]; exact List.mem_cons_of_mem _ hy)).1
      simp [hfl]

/-- Hypotheses under which the pair loops of a nonzero-size bucket run: a
positive chunk size, a nonzero recorded size, file contents whose length is
the recorded size (the traversal recorded true sizes), and files on which
every open, seek and read succeeds. -/
structure BucketHyp (fs : FSys) (B : Nat) (files : List Fe) (size : Nat) : Prop where
  hB : 0 < B
  hsize : size ≠ 0
  hlen : ∀ k, k < files.length → (cAt fs files k).length = size
  hopen : ∀ k, k < files.length → (fs ((files.getD k default).name)).openOk = true
  hseek : ∀ k, k < files.length → (fs ((files.getD k default).name)).seekOk = true
  hread : ∀ k, k < files.length → (fs ((files.getD k default).name)).readOk = true

/-- The ledger part of the loop invariant, relative to the set of pairs the
loops have already visited (described by done). -/
structure LedgerInv (fs : FSys) (B : Nat) (files : List Fe)
    (done : Nat → Nat → Prop) (st : BSt) : Prop where
  notDone : ∀ p q, p < q → q < files.length → ¬ done p q →
    st.recorded (key files.length p q) = false ∧
    st.ar (key files.length p q) = 0 ∧
    st.skipped (key files.length p q) = false
  sound : ∀ p q, p < q → q < files.length →
    st.recorded (key files.length p q) = true →
    (cAt fs files p).take (st.seekRec (key files.length p q) +
        st.ar (key files.length p q))
      = (cAt fs files q).take (st.seekRec (key files.length p q) +
        st.ar (key files.length p q)) ∧
    st.seekRec (key files.length p q) + st.ar (key files.length p q)
      ≤ (cAt fs files p).length ∧
    st.seekRec (key files.length p q) + st.ar (key files.length p q)
      ≤ (cAt fs files q).length
  unrec : ∀ p q, p < q → q < files.length →
    st.recorded (key files.length p q) = false →
    st.ar (key files.length p q) = 0 ∧ st.seekRec (key files.length p q) = 0
  symm : ∀ p x y, p < x → p < y → x < files.length → y < files.length →
    done p x → done p y → cAt fs files x = cAt fs files y →
    st.ar (key files.length p x) = st.ar (key files.length p y) ∧
    st.recorded (key files.length p x) = st.recorded (key files.length p y) ∧
    st.seekRec (key files.length p x) = st.seekRec (key files.length p y)
  skipC : ∀ p q, p < q → q < files.length →
    st.skipped (key files.length p q) = true →
    cAt fs files p ≠ cAt fs files q ∧
    ∃ r, r < p ∧ st.recorded (key files.length r p) = true ∧
      st.recorded (key files.length r q) = true ∧
      st.ar (key files.length r p) ≠ st.ar (key files.length r q)
  recScan : ∀ p q, p < q → q < files.length →
    st.recorded (key files.length p q) = true →
    ∀ r, r < p → st.ar (key files.length r p) = st.ar (key files.length r q)
  recRow : ∀ p q, p < q → q < files.length →
    st.recorded (key files.length p q) = true → flagB fs files p p = false
  recCol : ∀ p q, p < q → q < files.length →
    st.recorded (key files.length p q) = true → flagB fs files p q = false
  recVal : ∀ p q, p < q → q < files.length →
    st.recorded (key files.length p q) = true →
    st.seekRec (key files.length p q)
      = (maxToSkipLoop st.ar files.length p q 0 0).toNat ∧
    st.ar (key files.length p q)
      = (cmpLoop B (cAt fs files p) (cAt fs files q)
          (st.seekRec (key files.length p q)) 0).1
  procd : ∀ p q, p < q → q < files.length → done p q →
    st.recorded (key files.length p q) = false →
    flagB fs files p p = true ∨ flagB fs files p q = true ∨
    st.skipped (key files.length p q) = true

/-- Loop invariant while row i is processing and the columns below j are
finished (a row boundary is the case j = i + 1). -/
structure MidInv (fs : FSys) (B : Nat) (files : List Fe) (size : Nat)
    (out0 : List DupNode) (i j : Nat) (st : BSt) : Prop where
  hij : i < j
  hjc : j ≤ files.length
  rowUnflagged : flagB fs files i i = false
  ledger : LedgerInv fs B files (fun p q => p < i ∨ (p = i ∧ q < j)) st
  flags : ∀ x, st.fflags x =
    (decide (x < files.length) &&
      (flagB fs files i x ||
       (decide (x = i) && decide (rowMembers fs files i j ≠ [])) ||
       (decide (cAt fs files x = cAt fs files i) && decide (i < x) && decide (x < j))))
  dnEq : st.dn = (if rowMembers fs files i j = [] then none
    else some (DupNode.mk size (((files.getD i default) ::
        (rowMembers fs files i j).map (fun k => files.getD k default)).reverse)))
  outEq : st.out = specOut fs files size i out0

/-- Loop invariant at a row boundary: the rows below i are complete. -/
structure RowInv (fs : FSys) (B : Nat) (files : List Fe) (size : Nat)
    (out0 : List DupNode) (i : Nat) (st : BSt) : Prop where
  ledger : LedgerInv fs B files (fun p q => p < i) st
  flags : ∀ x, st.fflags x = (decide (x < files.length) && flagB fs files i x)
  dnEq : st.dn = none
  outEq : st.out = specOut fs files size i out0

theorem take_eq_of_take_eq {a b : List Nat} {m n : Nat} (h : m ≤ n)
    (he : a.take n = b.take n) : a.take m = b.take m := by
  have ha : a.take m = (a.take n).take m := by
    rw [List.take_take, Nat.min_eq_left h]
  have hb : b.take m = (b.take n).take m := by
    rw [List.take_take, Nat.min_eq_left h]
  rw [ha, hb, he]

theorem take_add_of_agree {a b : List Nat} {m k : Nat}
    (h1 : a.take m = b.take m) (h2 : (a.drop m).take k = (b.drop m).take k) :
    a.take (m + k) = b.take (m + k) := by
  rw [List.take_add, List.take_add, h1, h2]

/-- One unfolding step of the pr scan. -/
theorem maxToSkipLoop_step (ar : Nat → Nat) (cnt i j pr : Nat) (acc : Int) :
    maxToSkipLoop ar cnt i j pr acc =
      if pr < i then
        if (ar (pr * cnt + i) : Int) ≠ (ar (pr * cnt + j) : Int) then -1
        else maxToSkipLoop ar cnt i j (pr + 1) (max acc (ar (pr * cnt + i) : Int))
      else acc := by
  conv_lhs => rw [maxToSkipLoop]

/-- The scan result only depends on the ledger columns it reads. -/
theorem maxToSkipLoop_congr (ar : Nat → Nat) (cnt i x j : Nat)
    (h : ∀ r, r < i → ar (r * cnt + x) = ar (r * cnt + j)) :
    ∀ pr acc, maxToSkipLoop ar cnt i x pr acc = maxToSkipLoop ar cnt i j pr acc := by
  have main : ∀ n pr acc, i - pr ≤ n →
      maxToSkipLoop ar cnt i x pr acc = maxToSkipLoop ar cnt i j pr acc := by
    intro n
    induction n with
    | zero =>
        intro pr acc hle
        rw [maxToSkipLoop_step ar cnt i x pr acc, maxToSkipLoop_step ar cnt i j pr acc,
          if_neg (by omega), if_neg (by omega)]
    | succ n ih =>
        intro pr acc hle
        by_cases hpr : pr < i
        · rw [maxToSkipLoop_step ar cnt i x pr acc, maxToSkipLoop_step ar cnt i j pr acc,
            if_pos hpr, if_pos hpr, h pr hpr]
          by_cases hne : (ar (pr * cnt + i) : Int) ≠ (ar (pr * cnt + j) : Int)
          · rw [if_pos hne, if_pos hne]
          · rw [if_neg hne, if_neg hne, ih (pr + 1) _ (by omega)]
        · rw [maxToSkipLoop_step ar cnt i x pr acc, maxToSkipLoop_step ar cnt i j pr acc,
            if_neg hpr, if_neg hpr]
  intro pr acc
  exact main (i - pr) pr acc le_rfl

/-- Appending the next column index to the processed window of a sorted
list of members. -/
theorem filter_window_succ (l : List Nat) (hs : l.Pairwise (· < ·)) (i j : Nat) :
    l.filter (fun y => decide (i < y) && decide (y < j + 1)) =
    l.filter (fun y => decide (i < y) && decide (y < j)) ++
      (if i < j ∧ j ∈ l then [j] else []) := by
  induction l with
  | nil => simp
  | cons a l ih =>
      have hal : ∀ y ∈ l, a < y := (List.pairwise_cons.mp hs).1
      have htail := ih (List.pairwise_cons.mp hs).2
      rcases Nat.lt_trichotomy a j with hlt | rfl | hgt
      · rw [List.filter_cons, List.filter_cons, htail]
        have hm : (i < j ∧ j ∈ a :: l) ↔ (i < j ∧ j ∈ l) := by
          constructor
          · rintro ⟨h1, h2⟩
            rcases List.mem_cons.mp h2 with h3 | h3
            · omega
            · exact ⟨h1, h3⟩
          · rintro ⟨h1, h2⟩
            exact ⟨h1, List.mem_cons_of_mem _ h2⟩
        have hcond : (decide (i < a) && decide (a < j + 1))
            = (decide (i < a) && decide (a < j)) := by
          have c1 : decide (a < j + 1) = true := by
            simp only [decide_eq_true_eq]
            omega
          have c2 : decide (a < j) = true := by
            simp only [decide_eq_true_eq]
            omega
          rw [c1, c2]
        rw [hcond]
        simp only [hm]
        by_cases hc : (decide (i < a) && decide (a < j)) = true
        · rw [if_pos hc, if_pos hc, List.cons_append]
        · rw [if_neg hc, if_neg hc]
      · have hz1 : l.filter (fun y => decide (i < y) && decide (y < a + 1)) = [] := by
          rw [List.filter_eq_nil_iff]
          intro y hy
          have hay := hal y hy
          simp only [Bool.and_eq_true, decide_eq_true_eq]
          omega
        have hz2 : l.filter (fun y => decide (i < y) && decide (y < a)) = [] := by
          rw [List.filter_eq_nil_iff]
          intro y hy
          have hay := hal y hy
          simp only [Bool.and_eq_true, decide_eq_true_eq]
          omega
        rw [List.filter_cons, List.filter_cons, hz1, hz2]
        have hmem : (i < a ∧ a ∈ a :: l) ↔ i < a :=
          ⟨fun h => h.1, fun h => ⟨h, List.mem_cons_self a l⟩⟩
        simp only [hmem]
        have hcb : (decide (i < a) && decide (a < a)) = false := by
          simp only [Bool.and_eq_false_iff, decide_eq_false_iff_not]
          right
          omega
        rw [hcb]
        by_cases hia : i < a
        · have hca : (decide (i < a) && decide (a < a + 1)) = true := by
            simp only [Bool.and_eq_true, decide_eq_true_eq]
            omega
          rw [hca]
          simp [hia]
        · have hca : (decide (i < a) && decide (a < a + 1)) = false := by
            simp only [Bool.and_eq_false_iff, decide_eq_false_iff_not]
            left
            omega
          rw [hca]
          simp [hia]
      · have htl : ∀ j1 : Nat, j1 ≤ j + 1 →
            l.filter (fun y => decide (i < y) && decide (y < j1)) = [] := by
          intro j1 hj1
          rw [List.filter_eq_nil_iff]
          intro y hy
          have hay := hal y hy
          simp only [Bool.and_eq_true, decide_eq_true_eq]
          omega
        have hc1 : (decide (i < a) && decide (a < j + 1)) = false := by
          simp only [Bool.and_eq_false_iff, decide_eq_false_iff_not]
          right
          omega
        have hc2 : (decide (i < a) && decide (a < j)) = false := by
          simp only [Bool.and_eq_false_iff, decide_eq_false_iff_not]
          right
          omega
        have hnm : ¬ (i < j ∧ j ∈ a :: l) := by
          rintro ⟨h1, h2⟩
          rcases List.mem_cons.mp h2 with h3 | h3
          · omega
          · have hj := hal j h3
            omega
        rw [List.filter_cons, List.filter_cons, hc1, hc2,
          htl (j + 1) le_rfl, htl j (by omega), if_neg hnm]
        simp

/-- Extending the processed window of row i by one column. -/
theorem rowMembers_succ (fs : FSys) (files : List Fe) (i j : Nat) :
    rowMembers fs files i (j + 1) = rowMembers fs files i j ++
      (if i < j ∧ j ∈ classList fs files i then [j] else []) :=
  filter_window_succ _ (classList_sorted fs files i) i j

/-- The groups finalized below i + 1 are those below i, plus the group of
row i when i is a class minimum with company. -/
theorem specOut_succ (fs : FSys) (files : List Fe) (size i : Nat)
    (out0 : List DupNode) :
    specOut fs files size (i + 1) out0 =
      (if classMin fs files i = i ∧ 2 ≤ (classList fs files i).length
       then specGroup fs files size i :: specOut fs files size i out0
       else specOut fs files size i out0) := by
  unfold specOut specMins
  rw [List.range_succ, List.filter_append]
  by_cases hc : classMin fs files i = i ∧ 2 ≤ (classList fs files i).length
  · rw [if_pos hc]
    have : List.filter (fun m => decide (classMin fs files m = m) &&
        decide (2 ≤ (classList fs files m).length)) [i] = [i] := by
      simp [hc.1, hc.2]
    rw [this, List.map_append, List.reverse_append]
    simp
  · rw [if_neg hc]
    have : List.filter (fun m => decide (classMin fs files m = m) &&
        decide (2 ≤ (classList fs files m).length)) [i] = [] := by
      rcases Decidable.not_and_iff_or_not.mp hc with h | h <;> simp [h] <;> tauto
    rw [this, List.append_nil]

theorem flagB_mono {fs : FSys} {files : List Fe} {r r1 x : Nat} (h : r ≤ r1)
    (hf : flagB fs files r x = true) : flagB fs files r1 x = true := by
  unfold flagB at hf ⊢
  simp only [Bool.and_eq_true, decide_eq_true_eq] at hf ⊢
  omega

section StepLemmas

variable {fs : FSys} {B : Nat} {files : List Fe} {size : Nat}
  {out0 : List DupNode} {i j : Nat} {st : BSt}

/-- Columns with equal content see the same scan result at row i. -/
theorem col_scan_eq (hmid : MidInv fs B files size out0 i j st)
    {x : Nat} (hix : i < x) (hxj : x ≤ j) (hj : j < files.length)
    (hcx : cAt fs files x = cAt fs files j) :
    maxToSkipLoop st.ar files.length i x 0 0
      = maxToSkipLoop st.ar files.length i j 0 0 := by
  apply maxToSkipLoop_congr
  intro r hr
  exact (hmid.ledger.symm r x j (by omega) (by omega) (by omega) hj
    (Or.inl hr) (Or.inl hr) hcx).1

/-- When the scan of pair (i, j) is non-negative, every earlier column of
row i with the content of column j was actually compared. -/
theorem col_rec_of_scan_nonneg (hmid : MidInv fs B files size out0 i j st)
    (hj : j < files.length) (hgate : flagB fs files i j = false)
    (hpos : 0 ≤ maxToSkipLoop st.ar files.length i j 0 0)
    {x : Nat} (hix : i < x) (hxj : x < j)
    (hcx : cAt fs files x = cAt fs files j) :
    st.recorded (key files.length i x) = true := by
  by_contra hrec
  have hrec2 : st.recorded (key files.length i x) = false := by
    cases hr : st.recorded (key files.length i x)
    · rfl
    · exact absurd hr hrec
  have hall := ((maxToSkipLoop_spec st.ar files.length i j 0 0 le_rfl).2 hpos).1
  rcases hmid.ledger.procd i x hix (by omega) (Or.inr ⟨rfl, hxj⟩) hrec2 with
    hfi | hfx | hskip
  · rw [hmid.rowUnflagged] at hfi
    exact Bool.false_ne_true hfi
  · rw [flagB_congr hcx, hgate] at hfx
    exact Bool.false_ne_true hfx
  · obtain ⟨hne, r, hr, hrp, hrq, harne⟩ := hmid.ledger.skipC i x hix (by omega) hskip
    have hsy := (hmid.ledger.symm r x j (by omega) (by omega) (by omega) hj
      (Or.inl (by omega)) (Or.inl (by omega)) hcx).1
    have hall_r := hall r (by omega) (by omega)
    unfold key at harne hsy
    omega

/-- When the scan of pair (i, j) is negative, no earlier column of row i
with the content of column j was compared. -/
theorem col_unrec_of_scan_neg (hmid : MidInv fs B files size out0 i j st)
    (hj : j < files.length)
    (hneg : maxToSkipLoop st.ar files.length i j 0 0 < 0)
    {x : Nat} (hix : i < x) (hxj : x < j)
    (hcx : cAt fs files x = cAt fs files j) :
    st.recorded (key files.length i x) = false := by
  obtain ⟨r, hr0, hri, hrne, hrmin⟩ :=
    (maxToSkipLoop_spec st.ar files.length i j 0 0 le_rfl).1 hneg
  cases hr : st.recorded (key files.length i x)
  · rfl
  · exfalso
    have hscan := hmid.ledger.recScan i x hix (by omega) hr
    have hsy := (hmid.ledger.symm r x j (by omega) (by omega) (by omega) hj
      (Or.inl hri) (Or.inl hri) hcx).1
    have hscan_r := hscan r hri
    unfold key at hsy hscan_r
    omega

/-- A negative scan for an unflagged pair means the contents differ and the
first differing row has recorded entries for both columns. -/
theorem skip_cause (hmid : MidInv fs B files size out0 i j st)
    (hj : j < files.length) (hij : i < j) (hgate : flagB fs files i j = false)
    (hneg : maxToSkipLoop st.ar files.length i j 0 0 < 0) :
    cAt fs files i ≠ cAt fs files j ∧
    ∃ r, r < i ∧ st.recorded (key files.length r i) = true ∧
      st.recorded (key files.length r j) = true ∧
      st.ar (key files.length r i) ≠ st.ar (key files.length r j) := by
  obtain ⟨r, hr0, hri, hrne, hrmin⟩ :=
    (maxToSkipLoop_spec st.ar files.length i j 0 0 le_rfl).1 hneg
  have hcne : cAt fs files i ≠ cAt fs files j := by
    intro hceq
    have hsy := (hmid.ledger.symm r i j (by omega) (by omega) (by omega) hj
      (Or.inl hri) (Or.inl hri) hceq).1
    unfold key at hsy
    exact hrne hsy
  refine ⟨hcne, r, hri, ?_⟩
  cases hreci : st.recorded (key files.length r i) with
  | true =>
      cases hrecj : st.recorded (key files.length r j) with
      | true => exact ⟨rfl, rfl, hrne⟩
      | false =>
        exfalso
        have harj : st.ar (key files.length r j) = 0 :=
          (hmid.ledger.unrec r j (by omega) hj hrecj).1
        rcases hmid.ledger.procd r j (by omega) hj (Or.inl hri) hrecj with
          hf1 | hf2 | hskip
        · have := hmid.ledger.recRow r i hri (by omega) hreci
          rw [this] at hf1
          exact Bool.false_ne_true hf1
        · have := flagB_mono (le_of_lt hri) hf2
          rw [hgate] at this
          exact Bool.false_ne_true this
        · obtain ⟨_, q, hq, hq1, hq2, hq3⟩ :=
            hmid.ledger.skipC r j (by omega) hj hskip
          have hscan := hmid.ledger.recScan r i hri (by omega) hreci q hq
          have hmin_q := hrmin q (by omega) (by omega)
          unfold key at hq3 hscan
          omega
  | false =>
      exfalso
      have hari : st.ar (key files.length r i) = 0 :=
        (hmid.ledger.unrec r i hri (by omega) hreci).1
      have hrecj : st.recorded (key files.length r j) = true := by
        cases hrj : st.recorded (key files.length r j) with
        | true => rfl
        | false =>
            exfalso
            have harj : st.ar (key files.length r j) = 0 :=
              (hmid.ledger.unrec r j (by omega) hj hrj).1
            unfold key at hari harj
            omega
      rcases hmid.ledger.procd r i hri (by omega) (Or.inl hri) hreci with
        hf1 | hf2 | hskip
      · have := hmid.ledger.recRow r j (by omega) hj hrecj
        rw [this] at hf1
        exact Bool.false_ne_true hf1
      · have := flagB_mono (le_of_lt hri) hf2
        rw [hmid.rowUnflagged] at this
        exact Bool.false_ne_true this
      · obtain ⟨_, q, hq, hq1, hq2, hq3⟩ :=
          hmid.ledger.skipC r i hri (by omega) hskip
        have hscan := hmid.ledger.recScan r j (by omega) hj hrecj q hq
        have hmin_q := hrmin q (by omega) (by omega)
        unfold key at hq3 hscan
        omega

/-- A non-negative scan result is a sound number of bytes to skip: both
files are known to agree on that prefix, which fits inside both. -/
theorem seek_sound (hmid : MidInv fs B files size out0 i j st)
    (hj : j < files.length) (hij : i < j)
    (hpos : 0 ≤ maxToSkipLoop st.ar files.length i j 0 0) :
    (cAt fs files i).take (maxToSkipLoop st.ar files.length i j 0 0).toNat
      = (cAt fs files j).take (maxToSkipLoop st.ar files.length i j 0 0).toNat ∧
    (maxToSkipLoop st.ar files.length i j 0 0).toNat ≤ (cAt fs files i).length ∧
    (maxToSkipLoop st.ar files.length i j 0 0).toNat ≤ (cAt fs files j).length := by
  obtain ⟨hall, hbnd, hge, hcases⟩ :=
    (maxToSkipLoop_spec st.ar files.length i j 0 0 le_rfl).2 hpos
  rcases hcases with hzero | ⟨r, hr0, hri, hrv⟩
  · rw [hzero]
    simp
  · have hri2 : (i : Nat) < files.length := by omega
    by_cases hm0 : maxToSkipLoop st.ar files.length i j 0 0 = 0
    · rw [hm0]
      simp
    · have hial : 0 < st.ar (r * files.length + i) := by
        have hgt : 0 < maxToSkipLoop st.ar files.length i j 0 0 := by omega
        omega
      have hreci : st.recorded (key files.length r i) = true := by
        cases hrc : st.recorded (key files.length r i) with
        | true => rfl
        | false =>
            exfalso
            have := (hmid.ledger.unrec r i hri hri2 hrc).1
            unfold key at this
            omega
      have harij : st.ar (r * files.length + i) = st.ar (r * files.length + j) :=
        hall r (by omega) hri
      have hrecj : st.recorded (key files.length r j) = true := by
        cases hrc : st.recorded (key files.length r j) with
        | true => rfl
        | false =>
            exfalso
            have := (hmid.ledger.unrec r j (by omega) hj hrc).1
            unfold key at this
            omega
      obtain ⟨hti, hbi1, hbi2⟩ := hmid.ledger.sound r i hri hri2 hreci
      obtain ⟨htj, hbj1, hbj2⟩ := hmid.ledger.sound r j (by omega) hj hrecj
      have hmn : (maxToSkipLoop st.ar files.length i j 0 0).toNat
          = st.ar (key files.length r i) := by
        unfold key
        omega
      rw [hmn]
      have hle_i : st.ar (key files.length r i)
          ≤ st.seekRec (key files.length r i) + st.ar (key files.length r i) := by
        omega
      have hle_j : st.ar (key files.length r j)
          ≤ st.seekRec (key files.length r j) + st.ar (key files.length r j) := by
        omega
      have t1 : (cAt fs files r).take (st.ar (key files.length r i))
          = (cAt fs files i).take (st.ar (key files.length r i)) :=
        take_eq_of_take_eq hle_i hti
      have t2 : (cAt fs files r).take (st.ar (key files.length r j))
          = (cAt fs files j).take (st.ar (key files.length r j)) :=
        take_eq_of_take_eq hle_j htj
      have harkey : st.ar (key files.length r i) = st.ar (key files.length r j) := by
        unfold key
        omega
      refine ⟨?_, by omega, ?_⟩
      · rw [← t1, harkey, t2]
      · rw [harkey]
        omega

end StepLemmas

/-- Unfolding of procPair on a skipped pair. -/
theorem procPair_skip_eq (fs : FSys) (B : Nat) (files : List Fe)
    (cnt size i j : Nat) (st : BSt)
    (hm : maxToSkipLoop st.ar cnt i j 0 0 < 0) :
    procPair fs B files cnt size i j st = Except.ok { st with
      skipped := fun k => if k = key cnt i j then true else st.skipped k } := by
  unfold procPair
  rw [if_pos hm]

/-- The state produced by comparing pair (i, j): ledger, record ghosts and
the event log updated. -/
def cmpState (fs : FSys) (B : Nat) (files : List Fe) (cnt i j : Nat)
    (st : BSt) : BSt :=
  { st with
    ar := fun k => if k = key cnt i j then
        st.ar k + (cmpLoop B (cAt fs files i) (cAt fs files j)
          (maxToSkipLoop st.ar cnt i j 0 0).toNat 0).1
      else st.ar k,
    recorded := fun k => if k = key cnt i j then true else st.recorded k,
    seekRec := fun k => if k = key cnt i j then
        (maxToSkipLoop st.ar cnt i j 0 0).toNat else st.seekRec k,
    evs := ((files.getD i default).name, (files.getD j default).name)
      :: st.evs }

/-- The state produced when the comparison of (i, j) reaches end of file:
as cmpState, plus the group under construction and the flags. -/
def dupState (fs : FSys) (B : Nat) (files : List Fe) (cnt size i j : Nat)
    (st : BSt) : BSt :=
  { cmpState fs B files cnt i j st with
    dn := some (addDupNode size (files.getD j default)
      (if st.fflags i = false then
         some (addDupNode size (files.getD i default) st.dn) else st.dn)),
    fflags := fun k => if k = i then true else if k = j then true
      else st.fflags k }

/-- Unfolding of procPair on a compared pair, when every file operation
succeeds. -/
theorem procPair_cmp_eq (fs : FSys) (B : Nat) (files : List Fe)
    (cnt size i j : Nat) (st : BSt)
    (hm : ¬ maxToSkipLoop st.ar cnt i j 0 0 < 0)
    (ho1 : (fs ((files.getD i default).name)).openOk = true)
    (ho2 : (fs ((files.getD j default).name)).openOk = true)
    (hs1 : (fs ((files.getD i default).name)).seekOk = true)
    (hs2 : (fs ((files.getD j default).name)).seekOk = true)
    (hr1 : (fs ((files.getD i default).name)).readOk = true)
    (hr2 : (fs ((files.getD j default).name)).readOk = true) :
    procPair fs B files cnt size i j st =
      (if (cmpLoop B (cAt fs files i) (cAt fs files j)
            (maxToSkipLoop st.ar cnt i j 0 0).toNat 0).2 then
        Except.ok (dupState fs B files cnt size i j st)
      else
        Except.ok (cmpState fs B files cnt i j st)) := by
  unfold procPair dupState cmpState cAt
  rw [if_neg hm, if_neg (by rw [ho1]; simp), if_neg (by rw [ho2]; simp),
    if_neg (by rw [hs1]; simp), if_neg (by rw [hs2]; simp),
    if_neg (by rw [hr1]; simp), if_neg (by rw [hr2]; simp)]

/-- The ledger invariant only looks at four fields of the state. -/
theorem LedgerInv_congr {fs : FSys} {B : Nat} {files : List Fe}
    {done : Nat → Nat → Prop} {st st2 : BSt}
    (h1 : st.ar = st2.ar) (h2 : st.recorded = st2.recorded)
    (h3 : st.seekRec = st2.seekRec) (h4 : st.skipped = st2.skipped)
    (hL : LedgerInv fs B files done st) : LedgerInv fs B files done st2 := by
  obtain ⟨l1, l2, l3, l4, l5, l6, l7, l8, l9, l10⟩ := hL
  simp only [h1, h2, h3, h4] at l1 l2 l3 l4 l5 l6 l7 l8 l9 l10
  exact ⟨l1, l2, l3, l4, l5, l6, l7, l8, l9, l10⟩

/-- The scan result only depends on the ledger entries it reads. -/
theorem maxToSkipLoop_congr_ar (ar1 ar2 : Nat → Nat) (cnt i j : Nat)
    (h : ∀ r, r < i → ar1 (r * cnt + i) = ar2 (r * cnt + i) ∧
      ar1 (r * cnt + j) = ar2 (r * cnt + j)) :
    ∀ pr acc, maxToSkipLoop ar1 cnt i j pr acc = maxToSkipLoop ar2 cnt i j pr acc := by
  have main : ∀ n pr acc, i - pr ≤ n →
      maxToSkipLoop ar1 cnt i j pr acc = maxToSkipLoop ar2 cnt i j pr acc := by
    intro n
    induction n with
    | zero =>
        intro pr acc hle
        rw [maxToSkipLoop_step ar1 cnt i j pr acc, maxToSkipLoop_step ar2 cnt i j pr acc,
          if_neg (by omega), if_neg (by omega)]
    | succ n ih =>
        intro pr acc hle
        by_cases hpr : pr < i
        · rw [maxToSkipLoop_step ar1 cnt i j pr acc, maxToSkipLoop_step ar2 cnt i j pr acc,
            if_pos hpr, if_pos hpr, (h pr hpr).1, (h pr hpr).2]
          by_cases hne : (ar2 (pr * cnt + i) : Int) ≠ (ar2 (pr * cnt + j) : Int)
          · rw [if_pos hne, if_pos hne]
          · rw [if_neg hne, if_neg hne, ih (pr + 1) _ (by omega)]
        · rw [maxToSkipLoop_step ar1 cnt i j pr acc, maxToSkipLoop_step ar2 cnt i j pr acc,
            if_neg hpr, if_neg hpr]
  intro pr acc
  exact main (i - pr) pr acc le_rfl

section StepProof

variable {fs : FSys} {B : Nat} {files : List Fe} {size : Nat}
  {out0 : List DupNode} {i j : Nat} {st : BSt}

/-- Skipping pair (i, j) by inference preserves the row invariant. -/
theorem midInv_skip (hmid : MidInv fs B files size out0 i j st)
    (hj : j < files.length) (hgate : flagB fs files i j = false)
    (hm : maxToSkipLoop st.ar files.length i j 0 0 < 0) :
    MidInv fs B files size out0 i (j + 1)
      { st with skipped := fun k =>
          if k = key files.length i j then true else st.skipped k } := by
  obtain ⟨hcne, r0, hr0i, hrec0i, hrec0j, har0ne⟩ :=
    skip_cause hmid hj hmid.hij hgate hm
  have hij := hmid.hij
  have hcnei : cAt fs files j ≠ cAt fs files i := fun h => hcne h.symm
  have hrow : rowMembers fs files i (j + 1) = rowMembers fs files i j := by
    rw [rowMembers_succ]
    have hnm : ¬ (i < j ∧ j ∈ classList fs files i) := by
      rintro ⟨_, hmem⟩
      exact hcnei (mem_classList.mp hmem).2
    rw [if_neg hnm, List.append_nil]
  have hzj : st.recorded (key files.length i j) = false ∧
      st.ar (key files.length i j) = 0 ∧
      st.seekRec (key files.length i j) = 0 := by
    have h1 := hmid.ledger.notDone i j hij hj (by omega)
    exact ⟨h1.1, h1.2.1, (hmid.ledger.unrec i j hij hj h1.1).2⟩
  have hcolzero : ∀ z, i < z → z < j → cAt fs files z = cAt fs files j →
      st.recorded (key files.length i z) = false ∧
      st.ar (key files.length i z) = 0 ∧
      st.seekRec (key files.length i z) = 0 := by
    intro z h1 h2 h3
    have hr := col_unrec_of_scan_neg hmid hj hm h1 h2 h3
    exact ⟨hr, (hmid.ledger.unrec i z h1 (by omega) hr).1,
      (hmid.ledger.unrec i z h1 (by omega) hr).2⟩
  refine ⟨by omega, by omega, hmid.rowUnflagged,
    ⟨?_, ?_, ?_, ?_, ?_, ?_, ?_, ?_, ?_, ?_⟩, ?_, ?_, ?_⟩
  · -- notDone
    intro p q hpq hq hnd
    have hnotij : ¬ (p = i ∧ q = j) := by
      rintro ⟨rfl, rfl⟩
      exact hnd (Or.inr ⟨rfl, by omega⟩)
    have hold := hmid.ledger.notDone p q hpq hq (by
      intro hone
      rcases hone with h1 | ⟨h1, h2⟩
      · exact hnd (Or.inl h1)
      · exact hnd (Or.inr ⟨h1, by omega⟩))
    refine ⟨hold.1, hold.2.1, ?_⟩
    show (if key files.length p q = key files.length i j then true
      else st.skipped (key files.length p q)) = false
    rw [if_neg (key_ne hq hj hnotij)]
    exact hold.2.2
  · -- sound
    exact hmid.ledger.sound
  · -- unrec
    exact hmid.ledger.unrec
  · -- symm
    intro p x y hpx hpy hx hy hdx hdy hcxy
    have hcx : (x = j ∧ p = i) ∨ (p < i ∨ (p = i ∧ x < j)) := by
      rcases hdx with h1 | ⟨h1, h2⟩
      · exact Or.inr (Or.inl h1)
      · by_cases hxj : x < j
        · exact Or.inr (Or.inr ⟨h1, hxj⟩)
        · exact Or.inl ⟨by omega, h1⟩
    have hcy : (y = j ∧ p = i) ∨ (p < i ∨ (p = i ∧ y < j)) := by
      rcases hdy with h1 | ⟨h1, h2⟩
      · exact Or.inr (Or.inl h1)
      · by_cases hyj : y < j
        · exact Or.inr (Or.inr ⟨h1, hyj⟩)
        · exact Or.inl ⟨by omega, h1⟩
    rcases hcx with ⟨hxj, hpi⟩ | hdx2
    · rcases hcy with ⟨hyj, _⟩ | hdy2
      · subst hxj
        subst hyj
        exact ⟨rfl, rfl, rfl⟩
      · subst hxj
        subst hpi
        rcases hdy2 with h1 | ⟨_, h2⟩
        · omega
        · have hz := hcolzero y (by omega) h2 hcxy.symm
          refine ⟨?_, ?_, ?_⟩
          · show st.ar _ = st.ar _
            rw [hzj.2.1, hz.2.1]
          · show st.recorded _ = st.recorded _
            rw [hzj.1, hz.1]
          · show st.seekRec _ = st.seekRec _
            rw [hzj.2.2, hz.2.2]
    · rcases hcy with ⟨hyj, hpi⟩ | hdy2
      · subst hyj
        subst hpi
        rcases hdx2 with h1 | ⟨_, h2⟩
        · omega
        · have hz := hcolzero x (by omega) h2 hcxy
          refine ⟨?_, ?_, ?_⟩
          · show st.ar _ = st.ar _
            rw [hzj.2.1, hz.2.1]
          · show st.recorded _ = st.recorded _
            rw [hzj.1, hz.1]
          · show st.seekRec _ = st.seekRec _
            rw [hzj.2.2, hz.2.2]
      · exact hmid.ledger.symm p x y hpx hpy hx hy hdx2 hdy2 hcxy
  · -- skipC
    intro p q hpq hq hsk
    by_cases hpij : p = i ∧ q = j
    · obtain ⟨rfl, rfl⟩ := hpij
      exact ⟨hcne, r0, hr0i, hrec0i, hrec0j, har0ne⟩
    · have hsk2 : st.skipped (key files.length p q) = true := by
        have hif : (if key files.length p q = key files.length i j then true
            else st.skipped (key files.length p q)) = true := hsk
        rw [if_neg (key_ne hq hj hpij)] at hif
        exact hif
      exact hmid.ledger.skipC p q hpq hq hsk2
  · -- recScan
    exact hmid.ledger.recScan
  · -- recRow
    exact hmid.ledger.recRow
  · -- recCol
    exact hmid.ledger.recCol
  · -- recVal
    exact hmid.ledger.recVal
  · -- procd
    intro p q hpq hq hdone hrec
    by_cases hpij : p = i ∧ q = j
    · obtain ⟨rfl, rfl⟩ := hpij
      right
      right
      show (if key files.length p q = key files.length p q then true
        else st.skipped _) = true
      rw [if_pos rfl]
    · have hdone2 : p < i ∨ (p = i ∧ q < j) := by
        rcases hdone with h1 | ⟨h1, h2⟩
        · exact Or.inl h1
        · right
          refine ⟨h1, ?_⟩
          rcases Nat.lt_or_ge q j with h3 | h3
          · exact h3
          · exfalso
            exact hpij ⟨h1, by omega⟩
      rcases hmid.ledger.procd p q hpq hq hdone2 hrec with h1 | h1 | h1
      · exact Or.inl h1
      · exact Or.inr (Or.inl h1)
      · right
        right
        show (if key files.length p q = key files.length i j then true
          else st.skipped (key files.length p q)) = true
        rw [if_neg (key_ne hq hj hpij)]
        exact h1
  · -- flags
    intro x
    have hfx : st.fflags x = _ := hmid.flags x
    show st.fflags x = _
    rw [hfx, hrow]
    by_cases hxj : x = j
    · subst hxj
      have hcd : decide (cAt fs files x = cAt fs files i) = false := by
        simp [hcnei]
      rw [hcd]
      simp
    · have hlt : decide (x < j) = decide (x < j + 1) := by
        simp only [decide_eq_decide]
        omega
      rw [hlt]
  · -- dnEq
    show st.dn = _
    rw [hmid.dnEq, hrow]
  · -- outEq
    exact hmid.outEq

theorem cmpState_ar_at (fs : FSys) (B : Nat) (files : List Fe)
    (cnt i j : Nat) (st : BSt) (k : Nat) :
    (cmpState fs B files cnt i j st).ar k =
      if k = key cnt i j then
        st.ar k + (cmpLoop B (cAt fs files i) (cAt fs files j)
          (maxToSkipLoop st.ar cnt i j 0 0).toNat 0).1
      else st.ar k := rfl

theorem cmpState_recorded_at (fs : FSys) (B : Nat) (files : List Fe)
    (cnt i j : Nat) (st : BSt) (k : Nat) :
    (cmpState fs B files cnt i j st).recorded k =
      if k = key cnt i j then true else st.recorded k := rfl

theorem cmpState_seekRec_at (fs : FSys) (B : Nat) (files : List Fe)
    (cnt i j : Nat) (st : BSt) (k : Nat) :
    (cmpState fs B files cnt i j st).seekRec k =
      if k = key cnt i j then (maxToSkipLoop st.ar cnt i j 0 0).toNat
      else st.seekRec k := rfl

theorem cmpState_skipped (fs : FSys) (B : Nat) (files : List Fe)
    (cnt i j : Nat) (st : BSt) :
    (cmpState fs B files cnt i j st).skipped = st.skipped := rfl

theorem cmpState_fflags (fs : FSys) (B : Nat) (files : List Fe)
    (cnt i j : Nat) (st : BSt) :
    (cmpState fs B files cnt i j st).fflags = st.fflags := rfl

theorem cmpState_dn (fs : FSys) (B : Nat) (files : List Fe)
    (cnt i j : Nat) (st : BSt) :
    (cmpState fs B files cnt i j st).dn = st.dn := rfl

theorem cmpState_out (fs : FSys) (B : Nat) (files : List Fe)
    (cnt i j : Nat) (st : BSt) :
    (cmpState fs B files cnt i j st).out = st.out := rfl

/-- Comparing pair (i, j) (scan non-negative, all file operations fine)
re-establishes the ledger invariant with the window advanced past j. -/
theorem cmp_ledger (hyp : BucketHyp fs B files size)
    (hmid : MidInv fs B files size out0 i j st)
    (hj : j < files.length) (hgate : flagB fs files i j = false)
    (hm : ¬ maxToSkipLoop st.ar files.length i j 0 0 < 0) :
    LedgerInv fs B files (fun p q => p < i ∨ (p = i ∧ q < j + 1))
      (cmpState fs B files files.length i j st) := by
  have hij := hmid.hij
  have hicnt : i < files.length := by omega
  have hpos : 0 ≤ maxToSkipLoop st.ar files.length i j 0 0 := by omega
  obtain ⟨htake, hbi, hbj⟩ := seek_sound hmid hj hij hpos
  obtain ⟨hall, hbnd, hge0, hcases⟩ :=
    (maxToSkipLoop_spec st.ar files.length i j 0 0 le_rfl).2 hpos
  obtain ⟨hs1, hs2, hs3, hs4⟩ := cmpLoop_spec B (cAt fs files i) (cAt fs files j)
    (maxToSkipLoop st.ar files.length i j 0 0).toNat 0 hyp.hB
  simp only [Nat.sub_zero] at hs2 hs3
  have hE2 : (cAt fs files i).take
        ((maxToSkipLoop st.ar files.length i j 0 0).toNat +
          (cmpLoop B (cAt fs files i) (cAt fs files j)
            (maxToSkipLoop st.ar files.length i j 0 0).toNat 0).1)
      = (cAt fs files j).take
        ((maxToSkipLoop st.ar files.length i j 0 0).toNat +
          (cmpLoop B (cAt fs files i) (cAt fs files j)
            (maxToSkipLoop st.ar files.length i j 0 0).toNat 0).1) :=
    take_add_of_agree htake hs3
  have hleni : (cAt fs files i).length = size := hyp.hlen i hicnt
  have hlenj : (cAt fs files j).length = size := hyp.hlen j hj
  have hzj := hmid.ledger.notDone i j hij hj (by omega)
  have hzjseek := (hmid.ledger.unrec i j hij hj hzj.1).2
  have hcolrec : ∀ z, i < z → z < j → cAt fs files z = cAt fs files j →
      st.recorded (key files.length i z) = true ∧
      st.seekRec (key files.length i z)
        = (maxToSkipLoop st.ar files.length i j 0 0).toNat ∧
      st.ar (key files.length i z)
        = (cmpLoop B (cAt fs files i) (cAt fs files j)
            (maxToSkipLoop st.ar files.length i j 0 0).toNat 0).1 := by
    intro z h1 h2 h3
    have hrec := col_rec_of_scan_nonneg hmid hj hgate hpos h1 h2 h3
    obtain ⟨hsv, hav⟩ := hmid.ledger.recVal i z h1 (by omega) hrec
    have hscan := col_scan_eq hmid h1 (by omega) hj h3
    refine ⟨hrec, ?_, ?_⟩
    · rw [hsv, hscan]
    · rw [hav, hsv, hscan, h3]
  have harnew : (cmpState fs B files files.length i j st).ar
        (key files.length i j)
      = (cmpLoop B (cAt fs files i) (cAt fs files j)
          (maxToSkipLoop st.ar files.length i j 0 0).toNat 0).1 := by
    rw [cmpState_ar_at, if_pos rfl, hzj.2.1]
    exact Nat.zero_add _
  have hseeknew : (cmpState fs B files files.length i j st).seekRec
        (key files.length i j)
      = (maxToSkipLoop st.ar files.length i j 0 0).toNat := by
    rw [cmpState_seekRec_at, if_pos rfl]
  have hrecnew : (cmpState fs B files files.length i j st).recorded
      (key files.length i j) = true := by
    rw [cmpState_recorded_at, if_pos rfl]
  refine ⟨?_, ?_, ?_, ?_, ?_, ?_, ?_, ?_, ?_, ?_⟩
  · -- notDone
    intro p q hpq hq hnd
    have hne : ¬ (p = i ∧ q = j) := by
      rintro ⟨rfl, rfl⟩
      exact hnd (Or.inr ⟨rfl, by omega⟩)
    have hold := hmid.ledger.notDone p q hpq hq (by
      intro hone
      rcases hone with h1 | ⟨h1, h2⟩
      · exact hnd (Or.inl h1)
      · exact hnd (Or.inr ⟨h1, by omega⟩))
    refine ⟨?_, ?_, ?_⟩
    · rw [cmpState_recorded_at, if_neg (key_ne hq hj hne)]
      exact hold.1
    · rw [cmpState_ar_at, if_neg (key_ne hq hj hne)]
      exact hold.2.1
    · rw [cmpState_skipped]
      exact hold.2.2
  · -- sound
    intro p q hpq hq hrec
    by_cases hne : p = i ∧ q = j
    · obtain ⟨rfl, rfl⟩ := hne
      rw [harnew, hseeknew]
      refine ⟨hE2, ?_, ?_⟩
      · omega
      · omega
    · rw [cmpState_recorded_at, if_neg (key_ne hq hj hne)] at hrec
      rw [cmpState_ar_at, if_neg (key_ne hq hj hne),
        cmpState_seekRec_at, if_neg (key_ne hq hj hne)]
      exact hmid.ledger.sound p q hpq hq hrec
  · -- unrec
    intro p q hpq hq hrec
    by_cases hne : p = i ∧ q = j
    · obtain ⟨rfl, rfl⟩ := hne
      rw [hrecnew] at hrec
      exact absurd hrec (by simp)
    · rw [cmpState_recorded_at, if_neg (key_ne hq hj hne)] at hrec
      rw [cmpState_ar_at, if_neg (key_ne hq hj hne),
        cmpState_seekRec_at, if_neg (key_ne hq hj hne)]
      exact hmid.ledger.unrec p q hpq hq hrec
  · -- symm
    intro p x y hpx hpy hx hy hdx hdy hcxy
    have hcx : (x = j ∧ p = i) ∨ (p < i ∨ (p = i ∧ x < j)) := by
      rcases hdx with h1 | ⟨h1, h2⟩
      · exact Or.inr (Or.inl h1)
      · by_cases hxj : x < j
        · exact Or.inr (Or.inr ⟨h1, hxj⟩)
        · exact Or.inl ⟨by omega, h1⟩
    have hcy : (y = j ∧ p = i) ∨ (p < i ∨ (p = i ∧ y < j)) := by
      rcases hdy with h1 | ⟨h1, h2⟩
      · exact Or.inr (Or.inl h1)
      · by_cases hyj : y < j
        · exact Or.inr (Or.inr ⟨h1, hyj⟩)
        · exact Or.inl ⟨by omega, h1⟩
    rcases hcx with ⟨hxj, hpi⟩ | hdx2
    · rcases hcy with ⟨hyj, _⟩ | hdy2
      · subst hxj
        subst hyj
        exact ⟨rfl, rfl, rfl⟩
      · subst hxj
        subst hpi
        rcases hdy2 with h1 | ⟨_, h2⟩
        · omega
        · have hz := hcolrec y (by omega) h2 hcxy.symm
          have hney : ¬ (p = p ∧ y = x) := by
            rintro ⟨_, rfl⟩
            omega
          refine ⟨?_, ?_, ?_⟩
          · rw [harnew, cmpState_ar_at, if_neg (key_ne hy hj hney), hz.2.2]
          · rw [hrecnew, cmpState_recorded_at, if_neg (key_ne hy hj hney), hz.1]
          · rw [hseeknew, cmpState_seekRec_at, if_neg (key_ne hy hj hney), hz.2.1]
    · rcases hcy with ⟨hyj, hpi⟩ | hdy2
      · subst hyj
        subst hpi
        rcases hdx2 with h1 | ⟨_, h2⟩
        · omega
        · have hz := hcolrec x (by omega) h2 hcxy
          have hnex : ¬ (p = p ∧ x = y) := by
            rintro ⟨_, rfl⟩
            omega
          refine ⟨?_, ?_, ?_⟩
          · rw [harnew, cmpState_ar_at, if_neg (key_ne hx hj hnex), hz.2.2]
          · rw [hrecnew, cmpState_recorded_at, if_neg (key_ne hx hj hnex), hz.1]
          · rw [hseeknew, cmpState_seekRec_at, if_neg (key_ne hx hj hnex), hz.2.1]
      · have hnex : ¬ (p = i ∧ x = j) := by
          rintro ⟨rfl, rfl⟩
          rcases hdx2 with h1 | ⟨_, h2⟩ <;> omega
        have hney : ¬ (p = i ∧ y = j) := by
          rintro ⟨rfl, rfl⟩
          rcases hdy2 with h1 | ⟨_, h2⟩ <;> omega
        have hold := hmid.ledger.symm p x y hpx hpy hx hy hdx2 hdy2 hcxy
        refine ⟨?_, ?_, ?_⟩
        · rw [cmpState_ar_at, if_neg (key_ne hx hj hnex),
            cmpState_ar_at, if_neg (key_ne hy hj hney)]
          exact hold.1
        · rw [cmpState_recorded_at, if_neg (key_ne hx hj hnex),
            cmpState_recorded_at, if_neg (key_ne hy hj hney)]
          exact hold.2.1
        · rw [cmpState_seekRec_at, if_neg (key_ne hx hj hnex),
            cmpState_seekRec_at, if_neg (key_ne hy hj hney)]
          exact hold.2.2
  · -- skipC
    intro p q hpq hq hsk
    rw [cmpState_skipped] at hsk
    obtain ⟨hcne, r, hr, hr1, hr2, hr3⟩ := hmid.ledger.skipC p q hpq hq hsk
    have hdone : p < i ∨ (p = i ∧ q < j) := by
      by_contra hnd
      exact absurd hsk ((hmid.ledger.notDone p q hpq hq hnd).2.2 ▸ (by simp))
    have hple : p ≤ i := by
      rcases hdone with h1 | ⟨h1, _⟩ <;> omega
    have hnerp : ¬ (r = i ∧ p = j) := by
      rintro ⟨rfl, _⟩
      omega
    have hnerq : ¬ (r = i ∧ q = j) := by
      rintro ⟨rfl, _⟩
      omega
    refine ⟨hcne, r, hr, ?_, ?_, ?_⟩
    · rw [cmpState_recorded_at]
      by_cases hk : key files.length r p = key files.length i j
      · rw [if_pos hk]
      · rw [if_neg hk]
        exact hr1
    · rw [cmpState_recorded_at]
      by_cases hk : key files.length r q = key files.length i j
      · rw [if_pos hk]
      · rw [if_neg hk]
        exact hr2
    · have hpcnt : p < files.length := by omega
      rw [cmpState_ar_at, if_neg (key_ne hpcnt hj hnerp),
        cmpState_ar_at, if_neg (key_ne hq hj hnerq)]
      exact hr3
  · -- recScan
    intro p q hpq hq hrec r hr
    by_cases hne : p = i ∧ q = j
    · obtain ⟨rfl, rfl⟩ := hne
      have hv := hall r (by omega) hr
      have hne1 : ¬ (r = p ∧ p = q) := by
        rintro ⟨h1, h2⟩
        omega
      have hne2 : ¬ (r = p ∧ q = q) := by
        rintro ⟨h1, _⟩
        omega
      rw [cmpState_ar_at, if_neg (key_ne hicnt hj hne1),
        cmpState_ar_at, if_neg (key_ne hj hj hne2)]
      exact hv
    · rw [cmpState_recorded_at, if_neg (key_ne hq hj hne)] at hrec
      have hple : p ≤ i := by
        have hdone : p < i ∨ (p = i ∧ q < j) := by
          by_contra hnd
          exact absurd hrec ((hmid.ledger.notDone p q hpq hq hnd).1 ▸ (by simp))
        rcases hdone with h1 | ⟨h1, _⟩ <;> omega
      have hv := hmid.ledger.recScan p q hpq hq hrec r hr
      have hne1 : ¬ (r = i ∧ p = j) := by
        rintro ⟨rfl, _⟩
        omega
      have hne2 : ¬ (r = i ∧ q = j) := by
        rintro ⟨rfl, _⟩
        omega
      have hpcnt : p < files.length := by omega
      rw [cmpState_ar_at, if_neg (key_ne hpcnt hj hne1),
        cmpState_ar_at, if_neg (key_ne hq hj hne2)]
      exact hv
  · -- recRow
    intro p q hpq hq hrec
    by_cases hne : p = i ∧ q = j
    · obtain ⟨rfl, rfl⟩ := hne
      exact hmid.rowUnflagged
    · rw [cmpState_recorded_at, if_neg (key_ne hq hj hne)] at hrec
      exact hmid.ledger.recRow p q hpq hq hrec
  · -- recCol
    intro p q hpq hq hrec
    by_cases hne : p = i ∧ q = j
    · obtain ⟨rfl, rfl⟩ := hne
      exact hgate
    · rw [cmpState_recorded_at, if_neg (key_ne hq hj hne)] at hrec
      exact hmid.ledger.recCol p q hpq hq hrec
  · -- recVal
    intro p q hpq hq hrec
    have hscan_same : maxToSkipLoop (cmpState fs B files files.length i j st).ar
          files.length p q 0 0
        = maxToSkipLoop st.ar files.length p q 0 0 := by
      by_cases hne : p = i ∧ q = j
      · obtain ⟨rfl, rfl⟩ := hne
        apply maxToSkipLoop_congr_ar
        intro r hr
        constructor
        · rw [cmpState_ar_at,
            if_neg (key_ne_raw files.length r p p q hicnt hj
              (by rintro ⟨h1, h2⟩; omega))]
        · rw [cmpState_ar_at,
            if_neg (key_ne_raw files.length r q p q hj hj
              (by rintro ⟨h1, h2⟩; omega))]
      · rw [cmpState_recorded_at, if_neg (key_ne hq hj hne)] at hrec
        have hple : p ≤ i := by
          have hdone : p < i ∨ (p = i ∧ q < j) := by
            by_contra hnd
            exact absurd hrec ((hmid.ledger.notDone p q hpq hq hnd).1 ▸ (by simp))
          rcases hdone with h1 | ⟨h1, _⟩ <;> omega
        apply maxToSkipLoop_congr_ar
        intro r hr
        constructor
        · rw [cmpState_ar_at,
            if_neg (key_ne_raw files.length r p i j (by omega) hj
              (by rintro ⟨h1, h2⟩; omega))]
        · rw [cmpState_ar_at,
            if_neg (key_ne_raw files.length r q i j hq hj
              (by rintro ⟨h1, h2⟩; omega))]
    by_cases hne : p = i ∧ q = j
    · obtain ⟨rfl, rfl⟩ := hne
      rw [hseeknew, harnew, hscan_same]
      exact ⟨rfl, rfl⟩
    · rw [cmpState_recorded_at, if_neg (key_ne hq hj hne)] at hrec
      obtain ⟨hv1, hv2⟩ := hmid.ledger.recVal p q hpq hq hrec
      rw [cmpState_seekRec_at, if_neg (key_ne hq hj hne),
        cmpState_ar_at, if_neg (key_ne hq hj hne), hscan_same]
      exact ⟨hv1, hv2⟩
  · -- procd
    intro p q hpq hq hdone hrec
    by_cases hne : p = i ∧ q = j
    · obtain ⟨rfl, rfl⟩ := hne
      rw [hrecnew] at hrec
      exact absurd hrec (by simp)
    · rw [cmpState_recorded_at, if_neg (key_ne hq hj hne)] at hrec
      have hdone2 : p < i ∨ (p = i ∧ q < j) := by
        rcases hdone with h1 | ⟨h1, h2⟩
        · exact Or.inl h1
        · right
          refine ⟨h1, ?_⟩
          rcases Nat.lt_or_ge q j with h3 | h3
          · exact h3
          · exact absurd ⟨h1, by omega⟩ hne
      rcases hmid.ledger.procd p q hpq hq hdone2 hrec with h1 | h1 | h1
      · exact Or.inl h1
      · exact Or.inr (Or.inl h1)
      · right
        right
        rw [cmpState_skipped]
        exact h1

theorem dupState_dn (fs : FSys) (B : Nat) (files : List Fe)
    (cnt size i j : Nat) (st : BSt) :
    (dupState fs B files cnt size i j st).dn =
      some (addDupNode size (files.getD j default)
        (if st.fflags i = false then
           some (addDupNode size (files.getD i default) st.dn) else st.dn)) := rfl

theorem dupState_fflags_at (fs : FSys) (B : Nat) (files : List Fe)
    (cnt size i j : Nat) (st : BSt) (k : Nat) :
    (dupState fs B files cnt size i j st).fflags k =
      if k = i then true else if k = j then true else st.fflags k := rfl

theorem dupState_out (fs : FSys) (B : Nat) (files : List Fe)
    (cnt size i j : Nat) (st : BSt) :
    (dupState fs B files cnt size i j st).out = st.out := rfl

/-- A compared pair that does not reach end of file: the contents differ
and the row invariant advances past column j. -/
theorem midInv_cmp_nodup (hyp : BucketHyp fs B files size)
    (hmid : MidInv fs B files size out0 i j st)
    (hj : j < files.length) (hgate : flagB fs files i j = false)
    (hm : ¬ maxToSkipLoop st.ar files.length i j 0 0 < 0)
    (hdup : (cmpLoop B (cAt fs files i) (cAt fs files j)
        (maxToSkipLoop st.ar files.length i j 0 0).toNat 0).2 = false) :
    MidInv fs B files size out0 i (j + 1)
      (cmpState fs B files files.length i j st) := by
  have hij := hmid.hij
  have hcne : cAt fs files i ≠ cAt fs files j := by
    intro hceq
    rw [hceq, cmpLoop_self B (cAt fs files j) _ 0 hyp.hB] at hdup
    simp at hdup
  have hcnei : cAt fs files j ≠ cAt fs files i := fun h => hcne h.symm
  have hrow : rowMembers fs files i (j + 1) = rowMembers fs files i j := by
    rw [rowMembers_succ]
    have hnm : ¬ (i < j ∧ j ∈ classList fs files i) := by
      rintro ⟨_, hmem⟩
      exact hcnei (mem_classList.mp hmem).2
    rw [if_neg hnm, List.append_nil]
  refine ⟨by omega, by omega, hmid.rowUnflagged,
    cmp_ledger hyp hmid hj hgate hm, ?_, ?_, ?_⟩
  · -- flags
    intro x
    rw [cmpState_fflags, hmid.flags x, hrow]
    by_cases hxj : x = j
    · subst hxj
      have hcd : decide (cAt fs files x = cAt fs files i) = false := by
        simp [hcnei]
      rw [hcd]
      simp
    · have hlt : decide (x < j) = decide (x < j + 1) := by
        simp only [decide_eq_decide]
        omega
      rw [hlt]
  · -- dn
    rw [cmpState_dn, hmid.dnEq, hrow]
  · -- out
    rw [cmpState_out]
    exact hmid.outEq

/-- A compared pair that reaches end of file: the contents are equal, the
pair joins the group of row i, and the row invariant advances past j. -/
theorem midInv_cmp_dup (hyp : BucketHyp fs B files size)
    (hmid : MidInv fs B files size out0 i j st)
    (hj : j < files.length) (hgate : flagB fs files i j = false)
    (hm : ¬ maxToSkipLoop st.ar files.length i j 0 0 < 0)
    (hdup : (cmpLoop B (cAt fs files i) (cAt fs files j)
        (maxToSkipLoop st.ar files.length i j 0 0).toNat 0).2 = true) :
    MidInv fs B files size out0 i (j + 1)
      (dupState fs B files files.length size i j st) := by
  have hij := hmid.hij
  have hicnt : i < files.length := by omega
  have hpos : 0 ≤ maxToSkipLoop st.ar files.length i j 0 0 := by omega
  obtain ⟨htake, hb1, hb2⟩ := seek_sound hmid hj hij hpos
  have hceq : cAt fs files i = cAt fs files j :=
    cmpLoop_dup_eq B (cAt fs files i) (cAt fs files j) _ 0 hyp.hB htake hdup
  have hceqr : cAt fs files j = cAt fs files i := hceq.symm
  have hjmem : j ∈ classList fs files i := mem_classList.mpr ⟨hj, hceqr⟩
  have hrow : rowMembers fs files i (j + 1) = rowMembers fs files i j ++ [j] := by
    rw [rowMembers_succ, if_pos ⟨hij, hjmem⟩]
  have hrmne : rowMembers fs files i (j + 1) ≠ [] := by
    rw [hrow]
    simp
  have hfi : st.fflags i = decide (rowMembers fs files i j ≠ []) := by
    rw [hmid.flags i]
    simp [hicnt, hmid.rowUnflagged]
  refine ⟨by omega, by omega, hmid.rowUnflagged, ?_, ?_, ?_, ?_⟩
  · exact @LedgerInv_congr fs B files _ (cmpState fs B files files.length i j st)
      (dupState fs B files files.length size i j st) rfl rfl rfl rfl
      (cmp_ledger hyp hmid hj hgate hm)
  · -- flags
    intro x
    rw [dupState_fflags_at]
    by_cases hxi : x = i
    · subst hxi
      rw [if_pos rfl]
      symm
      simp [hicnt, hmid.rowUnflagged, hrmne]
    · by_cases hxj : x = j
      · subst hxj
        rw [if_neg hxi, if_pos rfl]
        symm
        simp only [Bool.and_eq_true, Bool.or_eq_true, decide_eq_true_eq]
        simp [hj, hceqr, hij]
      · rw [if_neg hxi, if_neg hxj, hmid.flags x]
        have hxi2 : decide (x = i) = false := by simp [hxi]
        have hlt : decide (x < j) = decide (x < j + 1) := by
          simp only [decide_eq_decide]
          omega
        rw [hxi2, hlt]
        simp only [Bool.false_and]
  · -- dn
    rw [dupState_dn, hmid.dnEq]
    by_cases hrm : rowMembers fs files i j = []
    · have hfi2 : st.fflags i = false := by
        rw [hfi]
        simp [hrm]
      rw [hfi2, if_pos rfl, if_pos hrm, if_neg hrmne, hrow, hrm]
      simp [addDupNode]
    · have hfi2 : st.fflags i = true := by
        rw [hfi]
        simp [hrm]
      rw [hfi2, if_neg (by simp), if_neg hrm, if_neg hrmne, hrow]
      simp [addDupNode]
  · -- out
    rw [dupState_out]
    exact hmid.outEq

/-- One full step of the inner j loop on an unflagged column: the pair is
either skipped or compared, the invariant advances, and the event log grows
by at most the pair's name event. -/
theorem procPair_step (hyp : BucketHyp fs B files size)
    (hmid : MidInv fs B files size out0 i j st)
    (hj : j < files.length) (hgate : flagB fs files i j = false) :
    ∃ st1, procPair fs B files files.length size i j st = Except.ok st1 ∧
      MidInv fs B files size out0 i (j + 1) st1 ∧
      (st1.evs = st.evs ∨
        st1.evs = ((files.getD i default).name, (files.getD j default).name)
          :: st.evs) := by
  by_cases hm : maxToSkipLoop st.ar files.length i j 0 0 < 0
  · exact ⟨_, procPair_skip_eq fs B files files.length size i j st hm,
      midInv_skip hmid hj hgate hm, Or.inl rfl⟩
  · have hi : i < files.length := by
      have := hmid.hij
      omega
    have heq := procPair_cmp_eq fs B files files.length size i j st hm
      (hyp.hopen i hi) (hyp.hopen j hj) (hyp.hseek i hi) (hyp.hseek j hj)
      (hyp.hread i hi) (hyp.hread j hj)
    by_cases hdup : (cmpLoop B (cAt fs files i) (cAt fs files j)
        (maxToSkipLoop st.ar files.length i j 0 0).toNat 0).2 = true
    · rw [heq, if_pos hdup]
      exact ⟨_, rfl, midInv_cmp_dup hyp hmid hj hgate hm hdup, Or.inr rfl⟩
    · have hdup2 : (cmpLoop B (cAt fs files i) (cAt fs files j)
          (maxToSkipLoop st.ar files.length i j 0 0).toNat 0).2 = false := by
        cases h : (cmpLoop B (cAt fs files i) (cAt fs files j)
            (maxToSkipLoop st.ar files.length i j 0 0).toNat 0).2
        · rfl
        · exact absurd h hdup
      rw [heq, if_neg (by rw [hdup2]; simp)]
      exact ⟨_, rfl, midInv_cmp_nodup hyp hmid hj hgate hm hdup2, Or.inr rfl⟩

/-- A column already flagged as output is passed over; the window still
advances. -/
theorem midInv_gate (hmid : MidInv fs B files size out0 i j st)
    (hj : j < files.length) (hgate : st.fflags j = true) :
    MidInv fs B files size out0 i (j + 1) st := by
  have hij := hmid.hij
  have hfj : flagB fs files i j = true := by
    by_contra hc
    have hfB : flagB fs files i j = false := by
      cases hfb : flagB fs files i j
      · rfl
      · exact absurd hfb hc
    have h := hmid.flags j
    rw [hgate, hfB] at h
    have hji : decide (j = i) = false := by
      simp only [decide_eq_false_iff_not]
      omega
    have hjj : decide (j < j) = false := by simp
    rw [hji, hjj] at h
    simp at h
  have hcji : cAt fs files j ≠ cAt fs files i := by
    intro hc
    have h2 : flagB fs files i j = flagB fs files i i := flagB_congr hc
    rw [hfj, hmid.rowUnflagged] at h2
    simp at h2
  have hrow : rowMembers fs files i (j + 1) = rowMembers fs files i j := by
    rw [rowMembers_succ]
    have hnm : ¬ (i < j ∧ j ∈ classList fs files i) := by
      rintro ⟨_, hmem⟩
      exact hcji (mem_classList.mp hmem).2
    rw [if_neg hnm, List.append_nil]
  have hzj : st.recorded (key files.length i j) = false ∧
      st.ar (key files.length i j) = 0 ∧
      st.seekRec (key files.length i j) = 0 := by
    have h1 := hmid.ledger.notDone i j hij hj (by omega)
    exact ⟨h1.1, h1.2.1, (hmid.ledger.unrec i j hij hj h1.1).2⟩
  have hcolzero : ∀ z, i < z → z < j → cAt fs files z = cAt fs files j →
      st.recorded (key files.length i z) = false ∧
      st.ar (key files.length i z) = 0 ∧
      st.seekRec (key files.length i z) = 0 := by
    intro z h1 h2 h3
    have hr : st.recorded (key files.length i z) = false := by
      cases hrc : st.recorded (key files.length i z)
      · rfl
      · exfalso
        have hcol := hmid.ledger.recCol i z h1 (by omega) hrc
        rw [flagB_congr h3, hfj] at hcol
        simp at hcol
    exact ⟨hr, (hmid.ledger.unrec i z h1 (by omega) hr).1,
      (hmid.ledger.unrec i z h1 (by omega) hr).2⟩
  refine ⟨by omega, by omega, hmid.rowUnflagged,
    ⟨?_, hmid.ledger.sound, hmid.ledger.unrec, ?_, hmid.ledger.skipC,
      hmid.ledger.recScan, hmid.ledger.recRow, hmid.ledger.recCol,
      hmid.ledger.recVal, ?_⟩, ?_, ?_, ?_⟩
  · -- notDone
    intro p q hpq hq hnd
    exact hmid.ledger.notDone p q hpq hq (by
      intro hone
      rcases hone with h1 | ⟨h1, h2⟩
      · exact hnd (Or.inl h1)
      · exact hnd (Or.inr ⟨h1, by omega⟩))
  · -- symm
    intro p x y hpx hpy hx hy hdx hdy hcxy
    have hcx : (x = j ∧ p = i) ∨ (p < i ∨ (p = i ∧ x < j)) := by
      rcases hdx with h1 | ⟨h1, h2⟩
      · exact Or.inr (Or.inl h1)
      · by_cases hxj : x < j
        · exact Or.inr (Or.inr ⟨h1, hxj⟩)
        · exact Or.inl ⟨by omega, h1⟩
    have hcy : (y = j ∧ p = i) ∨ (p < i ∨ (p = i ∧ y < j)) := by
      rcases hdy with h1 | ⟨h1, h2⟩
      · exact Or.inr (Or.inl h1)
      · by_cases hyj : y < j
        · exact Or.inr (Or.inr ⟨h1, hyj⟩)
        · exact Or.inl ⟨by omega, h1⟩
    rcases hcx with ⟨hxj, hpi⟩ | hdx2
    · rcases hcy with ⟨hyj, _⟩ | hdy2
      · subst hxj
        subst hyj
        exact ⟨rfl, rfl, rfl⟩
      · subst hxj
        subst hpi
        rcases hdy2 with h1 | ⟨_, h2⟩
        · omega
        · have hz := hcolzero y (by omega) h2 hcxy.symm
          exact ⟨by rw [hzj.2.1, hz.2.1], by rw [hzj.1, hz.1],
            by rw [hzj.2.2, hz.2.2]⟩
    · rcases hcy with ⟨hyj, hpi⟩ | hdy2
      · subst hyj
        subst hpi
        rcases hdx2 with h1 | ⟨_, h2⟩
        · omega
        · have hz := hcolzero x (by omega) h2 hcxy
          exact ⟨by rw [hzj.2.1, hz.2.1], by rw [hzj.1, hz.1],
            by rw [hzj.2.2, hz.2.2]⟩
      · exact hmid.ledger.symm p x y hpx hpy hx hy hdx2 hdy2 hcxy
  · -- procd
    intro p q hpq hq hdone hrec
    by_cases hpij : p = i ∧ q = j
    · obtain ⟨rfl, rfl⟩ := hpij
      exact Or.inr (Or.inl hfj)
    · have hdone2 : p < i ∨ (p = i ∧ q < j) := by
        rcases hdone with h1 | ⟨h1, h2⟩
        · exact Or.inl h1
        · right
          refine ⟨h1, ?_⟩
          rcases Nat.lt_or_ge q j with h3 | h3
          · exact h3
          · exact absurd ⟨h1, by omega⟩ hpij
      exact hmid.ledger.procd p q hpq hq hdone2 hrec
  · -- flags
    intro x
    rw [hmid.flags x, hrow]
    by_cases hxj : x = j
    · subst hxj
      have hcd : decide (cAt fs files x = cAt fs files i) = false := by
        simp [hcji]
      rw [hcd, hfj]
      simp
    · have hlt : decide (x < j) = decide (x < j + 1) := by
        simp only [decide_eq_decide]
        omega
      rw [hlt]
  · -- dn
    rw [hmid.dnEq, hrow]
  · -- out
    exact hmid.outEq

end StepProof

/-- Weakening and strengthening of the visited-pair set under a pointwise
equivalence. -/
theorem LedgerInv_mono {fs : FSys} {B : Nat} {files : List Fe}
    {d1 d2 : Nat → Nat → Prop} {st : BSt}
    (h : ∀ p q, p < q → q < files.length → (d1 p q ↔ d2 p q))
    (hL : LedgerInv fs B files d1 st) : LedgerInv fs B files d2 st := by
  obtain ⟨l1, l2, l3, l4, l5, l6, l7, l8, l9, l10⟩ := hL
  refine ⟨?_, l2, l3, ?_, l5, l6, l7, l8, l9, ?_⟩
  · intro p q hpq hq hnd
    exact l1 p q hpq hq (fun hd => hnd ((h p q hpq hq).mp hd))
  · intro p x y hpx hpy hx hy hdx hdy hc
    exact l4 p x y hpx hpy hx hy ((h p x hpx hx).mpr hdx)
      ((h p y hpy hy).mpr hdy) hc
  · intro p q hpq hq hd hrec
    exact l10 p q hpq hq ((h p q hpq hq).mpr hd) hrec

theorem finishRow_none {st : BSt} (h : st.dn = none) : finishRow st = st := by
  unfold finishRow
  rw [h]

theorem finishRow_some {st : BSt} {d : DupNode} (h : st.dn = some d) :
    finishRow st = { st with dn := none, out := d :: st.out } := by
  unfold finishRow
  rw [h]

theorem rowMembers_start (fs : FSys) (files : List Fe) (i : Nat) :
    rowMembers fs files i (i + 1) = [] := by
  unfold rowMembers
  rw [List.filter_eq_nil_iff]
  intro y hy
  simp only [Bool.and_eq_true, decide_eq_true_eq]
  omega

/-- With i its own class minimum, company in the class is company in the
row window. -/
theorem two_le_classList_iff {fs : FSys} {files : List Fe} {i : Nat}
    (hi : i < files.length) (hmin : classMin fs files i = i) :
    2 ≤ (classList fs files i).length ↔ rowMembers fs files i files.length ≠ [] := by
  rw [classList_eq_cons hi hmin]
  cases rowMembers fs files i files.length with
  | nil => simp
  | cons a l => simp

section RowProof

variable {fs : FSys} {B : Nat} {files : List Fe} {size : Nat}
  {out0 : List DupNode} {i : Nat} {st : BSt}

/-- Two distinct members make a class of at least two. -/
theorem two_le_classList_of_mem {x : Nat} (hi : i < files.length)
    (hmin : classMin fs files i = i) (hx : x ∈ classList fs files i)
    (hxi : x ≠ i) : 2 ≤ (classList fs files i).length := by
  rw [classList_eq_cons hi hmin] at hx ⊢
  rcases List.mem_cons.mp hx with h | h
  · exact absurd h hxi
  · have hlp : 0 < (rowMembers fs files i files.length).length :=
      List.length_pos.mpr (List.ne_nil_of_mem h)
    simp only [List.length_cons]
    omega

/-- Entering an unflagged row from its boundary. -/
theorem rowInv_to_mid (hrow : RowInv fs B files size out0 i st)
    (hi : i < files.length) (hflag : flagB fs files i i = false) :
    MidInv fs B files size out0 i (i + 1) st := by
  have hrm := rowMembers_start fs files i
  refine ⟨Nat.lt_succ_self i, by omega, hflag, ?_, ?_, ?_, hrow.outEq⟩
  · refine LedgerInv_mono ?_ hrow.ledger
    intro p q hpq hq
    constructor
    · exact fun h => Or.inl h
    · rintro (h | ⟨h1, h2⟩)
      · exact h
      · omega
  · intro x
    rw [hrow.flags x, hrm]
    have h1 : decide (([] : List Nat) ≠ []) = false := by simp
    rw [h1]
    by_cases hix : i < x
    · have h2 : decide (x < i + 1) = false := by
        simp only [decide_eq_false_iff_not]
        omega
      rw [h2]
      simp
    · have h2 : decide (i < x) = false := by
        simp only [decide_eq_false_iff_not]
        omega
      rw [h2]
      simp
  · rw [hrow.dnEq, hrm, if_pos rfl]

/-- Skipping a row that was already flagged as output. -/
theorem rowInv_flagged (hrow : RowInv fs B files size out0 i st)
    (hi : i < files.length) (hflag : flagB fs files i i = true) :
    RowInv fs B files size out0 (i + 1) st := by
  have hmin_lt : classMin fs files i < i ∧ 2 ≤ (classList fs files i).length := by
    unfold flagB at hflag
    simp only [Bool.and_eq_true, decide_eq_true_eq] at hflag
    exact hflag
  have hnomin : ∀ x, x < files.length → classMin fs files x ≠ i := by
    intro x hx heq
    have hc := @classMin_content fs _ _ hx
    rw [heq] at hc
    have hmm : classMin fs files x = classMin fs files i := classMin_congr hc.symm
    omega
  refine ⟨⟨?_, hrow.ledger.sound, hrow.ledger.unrec, ?_, hrow.ledger.skipC,
    hrow.ledger.recScan, hrow.ledger.recRow, hrow.ledger.recCol,
    hrow.ledger.recVal, ?_⟩, ?_, hrow.dnEq, ?_⟩
  · intro p q hpq hq hnd
    exact hrow.ledger.notDone p q hpq hq (by omega)
  · intro p x y hpx hpy hx hy hdx hdy hcxy
    by_cases hpi : p < i
    · exact hrow.ledger.symm p x y hpx hpy hx hy hpi hpi hcxy
    · have hpe : p = i := by omega
      subst hpe
      have hzx := hrow.ledger.notDone p x hpx hx (by omega)
      have hzy := hrow.ledger.notDone p y hpy hy (by omega)
      have hsx := (hrow.ledger.unrec p x hpx hx hzx.1).2
      have hsy := (hrow.ledger.unrec p y hpy hy hzy.1).2
      exact ⟨by rw [hzx.2.1, hzy.2.1], by rw [hzx.1, hzy.1], by rw [hsx, hsy]⟩
  · intro p q hpq hq hdone hrec
    by_cases hpi : p < i
    · exact hrow.ledger.procd p q hpq hq hpi hrec
    · have hpe : p = i := by omega
      subst hpe
      exact Or.inl hflag
  · intro x
    rw [hrow.flags x]
    by_cases hx : x < files.length
    · have hfb : flagB fs files i x = flagB fs files (i + 1) x := by
        unfold flagB
        have hne := hnomin x hx
        have hiff : (classMin fs files x < i) ↔ (classMin fs files x < i + 1) := by
          omega
        rw [decide_eq_decide.mpr hiff]
      rw [hfb]
    · have h0 : decide (x < files.length) = false := by simp [hx]
      rw [h0]
      simp
  · rw [hrow.outEq, specOut_succ, if_neg (by rintro ⟨h1, _⟩; omega)]

/-- The calloc'ed initial state satisfies the boundary invariant at row 0. -/
theorem rowInv_init (fs : FSys) (B : Nat) (files : List Fe) (size : Nat)
    (out0 : List DupNode) (evs0 : List (Nat × Nat)) :
    RowInv fs B files size out0 0 (initBSt out0 evs0) := by
  refine ⟨⟨?_, ?_, ?_, ?_, ?_, ?_, ?_, ?_, ?_, ?_⟩, ?_, rfl, ?_⟩
  · intro p q h1 h2 h3
    exact ⟨rfl, rfl, rfl⟩
  · intro p q h1 h2 hrec
    exact absurd hrec (by simp [initBSt])
  · intro p q h1 h2 h3
    exact ⟨rfl, rfl⟩
  · intro p x y h1 h2 h3 h4 h5 h6 h7
    exact ⟨rfl, rfl, rfl⟩
  · intro p q h1 h2 hsk
    exact absurd hsk (by simp [initBSt])
  · intro p q h1 h2 hrec
    exact absurd hrec (by simp [initBSt])
  · intro p q h1 h2 hrec
    exact absurd hrec (by simp [initBSt])
  · intro p q h1 h2 hrec
    exact absurd hrec (by simp [initBSt])
  · intro p q h1 h2 hrec
    exact absurd hrec (by simp [initBSt])
  · intro p q h1 h2 h3 hrec
    exact absurd h3 (by omega)
  · intro x
    have h1 : flagB fs files 0 x = false := by
      unfold flagB
      have h2 : decide (classMin fs files x < 0) = false := by
        simp only [decide_eq_false_iff_not]
        omega
      rw [h2]
      simp
    rw [h1]
    simp [initBSt]
  · show out0 = specOut fs files size 0 out0
    unfold specOut specMins
    simp

theorem two_le_length_of_two_mem {l : List Nat} {x y : Nat}
    (hx : x ∈ l) (hy : y ∈ l) (hne : x ≠ y) : 2 ≤ l.length := by
  cases l with
  | nil => simp at hx
  | cons a t =>
      cases t with
      | nil =>
          simp at hx hy
          exact absurd (hx.trans hy.symm) hne
      | cons b u =>
          simp only [List.length_cons]
          omega

theorem finishRow_out_none {st : BSt} (h : st.dn = none) :
    (finishRow st).out = st.out := by
  rw [finishRow_none h]

theorem finishRow_out_some {st : BSt} {d : DupNode} (h : st.dn = some d) :
    (finishRow st).out = d :: st.out := by
  rw [finishRow_some h]

/-- Leaving a row at the right edge of the pair grid: the boundary
invariant of the next row holds after the group in progress is filed. -/
theorem mid_to_rowInv (hmid : MidInv fs B files size out0 i files.length st) :
    RowInv fs B files size out0 (i + 1) (finishRow st) := by
  have hij := hmid.hij
  have himem := @self_mem_classList fs _ _ hij
  have hminz : classMin fs files i = i := by
    have hle := @classMin_le_self fs _ _ hij
    rcases Nat.lt_or_ge (classMin fs files i) i with hlt | hge
    · exfalso
      have h2 : 2 ≤ (classList fs files i).length :=
        two_le_length_of_two_mem (@classMin_mem fs _ _ hij) himem (by omega)
      have hru := hmid.rowUnflagged
      unfold flagB at hru
      simp only [Bool.and_eq_false_iff, decide_eq_false_iff_not] at hru
      rcases hru with h | h
      · omega
      · omega
    · omega
  have hcons := classList_eq_cons hij hminz
  have hlen_iff := two_le_classList_iff hij hminz
  have hfields : (finishRow st).ar = st.ar ∧ (finishRow st).recorded = st.recorded ∧
      (finishRow st).seekRec = st.seekRec ∧ (finishRow st).skipped = st.skipped ∧
      (finishRow st).fflags = st.fflags := by
    cases hdn : st.dn with
    | none =>
        rw [finishRow_none hdn]
        exact ⟨rfl, rfl, rfl, rfl, rfl⟩
    | some d =>
        rw [finishRow_some hdn]
        exact ⟨rfl, rfl, rfl, rfl, rfl⟩
  refine ⟨?_, ?_, ?_, ?_⟩
  · refine LedgerInv_congr hfields.1.symm hfields.2.1.symm hfields.2.2.1.symm
      hfields.2.2.2.1.symm ?_
    refine LedgerInv_mono ?_ hmid.ledger
    intro p q hpq hq
    constructor
    · rintro (h | ⟨h1, h2⟩) <;> omega
    · intro h
      rcases Nat.lt_or_ge p i with h1 | h1
      · exact Or.inl h1
      · exact Or.inr ⟨by omega, hq⟩
  · intro x
    rw [hfields.2.2.2.2, hmid.flags x]
    by_cases hx : x < files.length
    · have hxd : decide (x < files.length) = true := by simp [hx]
      rw [hxd]
      simp only [Bool.true_and]
      by_cases hceq : cAt fs files x = cAt fs files i
      · have hminx : classMin fs files x = i := by
          rw [classMin_congr hceq, hminz]
        have hclx : classList fs files x = classList fs files i :=
          classList_congr hceq
        have hf1 : flagB fs files i x = false := by
          unfold flagB
          rw [hminx]
          simp
        have hf2 : flagB fs files (i + 1) x
            = decide (2 ≤ (classList fs files i).length) := by
          unfold flagB
          rw [hminx, hclx]
          simp
        rw [hf1, hf2]
        simp only [Bool.false_or]
        by_cases hxi : x = i
        · subst hxi
          have hd1 : decide (x = x) = true := by simp
          have hd2 : decide (x < x) = false := by simp
          have hd3 : decide (cAt fs files x = cAt fs files x) = true := by simp
          rw [hd1, hd2, hd3]
          have hdd : decide (rowMembers fs files x files.length ≠ [])
              = decide (2 ≤ (classList fs files x).length) :=
            decide_eq_decide.mpr (Iff.symm hlen_iff)
          rw [hdd]
          simp
        · have hmemx : x ∈ classList fs files i := mem_classList.mpr ⟨hx, hceq⟩
          have hgt : i < x := by
            have hle2 := @classMin_le fs _ _ _ hmemx
            omega
          have h2l : 2 ≤ (classList fs files i).length :=
            two_le_classList_of_mem hij hminz hmemx hxi
          simp [hxi, hceq, hgt, hx, h2l]
      · have hminx : classMin fs files x ≠ i := by
          intro h
          have hc := @classMin_content fs _ _ hx
          rw [h] at hc
          exact hceq hc.symm
        have hf : flagB fs files i x = flagB fs files (i + 1) x := by
          unfold flagB
          have hiff : (classMin fs files x < i) ↔ (classMin fs files x < i + 1) := by
            omega
          rw [decide_eq_decide.mpr hiff]
        have hd1 : decide (cAt fs files x = cAt fs files i) = false := by
          simp [hceq]
        have hd2 : decide (x = i) = false := by
          simp only [decide_eq_false_iff_not]
          intro h
          subst h
          exact hceq rfl
        rw [hd1, hd2, hf]
        simp
    · have h0 : decide (x < files.length) = false := by simp [hx]
      rw [h0]
      simp
  · cases hdn : st.dn with
    | none =>
        rw [finishRow_none hdn]
        exact hdn
    | some d => rw [finishRow_some hdn]
  · by_cases hrm : rowMembers fs files i files.length = []
    · have hdn : st.dn = none := by rw [hmid.dnEq, if_pos hrm]
      rw [finishRow_out_none hdn, hmid.outEq, specOut_succ,
        if_neg (by rintro ⟨h1, h2⟩; exact (hlen_iff.mp h2) hrm)]
    · have hdn : st.dn = some (DupNode.mk size (((files.getD i default) ::
          (rowMembers fs files i files.length).map
            (fun k => files.getD k default)).reverse)) := by
        rw [hmid.dnEq, if_neg hrm]
      rw [finishRow_out_some hdn, hmid.outEq, specOut_succ,
        if_pos ⟨hminz, hlen_iff.mpr hrm⟩]
      congr 1
      unfold specGroup
      rw [hcons]
      simp

end RowProof

/-- The event log grows only by events naming two bucket files. -/
def evsExt (files : List Fe) (e0 e1 : List (Nat × Nat)) : Prop :=
  ∃ d, e1 = d ++ e0 ∧ ∀ ev ∈ d, ∃ p q, p < files.length ∧ q < files.length ∧
    ev = ((files.getD p default).name, (files.getD q default).name)

theorem evsExt_refl (files : List Fe) (e : List (Nat × Nat)) : evsExt files e e :=
  ⟨[], rfl, by simp⟩

theorem evsExt_trans {files : List Fe} {e0 e1 e2 : List (Nat × Nat)}
    (h1 : evsExt files e0 e1) (h2 : evsExt files e1 e2) : evsExt files e0 e2 := by
  obtain ⟨d1, hd1, hp1⟩ := h1
  obtain ⟨d2, hd2, hp2⟩ := h2
  refine ⟨d2 ++ d1, by rw [hd2, hd1, List.append_assoc], ?_⟩
  intro ev hev
  rcases List.mem_append.mp hev with h | h
  · exact hp2 ev h
  · exact hp1 ev h

theorem finishRow_evs (st : BSt) : (finishRow st).evs = st.evs := by
  cases hdn : st.dn with
  | none => rw [finishRow_none hdn]
  | some d => rw [finishRow_some hdn]

/-- One unfolding step of the j loop. -/
theorem jLoop_step_eq (fs : FSys) (B : Nat) (files : List Fe)
    (cnt size i j : Nat) (st : BSt) :
    jLoop fs B files cnt size i j st =
      if j < cnt then
        if st.fflags j then jLoop fs B files cnt size i (j + 1) st
        else
          match procPair fs B files cnt size i j st with
          | .error e => .error e
          | .ok st1 => jLoop fs B files cnt size i (j + 1) st1
      else .ok st := by
  conv_lhs => rw [jLoop]

/-- One unfolding step of the i loop. -/
theorem iLoop_step_eq (fs : FSys) (B : Nat) (files : List Fe)
    (cnt size i : Nat) (st : BSt) :
    iLoop fs B files cnt size i st =
      if i < cnt - 1 then
        if st.fflags i then iLoop fs B files cnt size (i + 1) st
        else
          match jLoop fs B files cnt size i (i + 1) st with
          | .error e => .error e
          | .ok st1 => iLoop fs B files cnt size (i + 1) (finishRow st1)
      else .ok st := by
  conv_lhs => rw [iLoop]

section LoopProof

variable {fs : FSys} {B : Nat} {files : List Fe} {size : Nat}
  {out0 : List DupNode}

/-- The j loop of an unflagged row runs to the right edge, cannot fail
under the bucket hypotheses, and preserves the invariant. -/
theorem jLoop_inv (hyp : BucketHyp fs B files size) {i : Nat} :
    ∀ n j st, files.length - j ≤ n → MidInv fs B files size out0 i j st →
    ∃ st1, jLoop fs B files files.length size i j st = Except.ok st1 ∧
      MidInv fs B files size out0 i files.length st1 ∧
      evsExt files st.evs st1.evs := by
  intro n
  induction n with
  | zero =>
      intro j st hle hmid
      have hje : j = files.length := by
        have := hmid.hjc
        omega
      subst hje
      rw [jLoop_step_eq, if_neg (by omega)]
      exact ⟨st, rfl, hmid, evsExt_refl files st.evs⟩
  | succ n ih =>
      intro j st hle hmid
      by_cases hj : j < files.length
      · rw [jLoop_step_eq, if_pos hj]
        cases hfj : st.fflags j with
        | true =>
            rw [if_pos rfl]
            exact ih (j + 1) st (by omega) (midInv_gate hmid hj hfj)
        | false =>
            rw [if_neg (by simp)]
            have hgate : flagB fs files i j = false := by
              by_contra hc
              have hfb : flagB fs files i j = true := by
                cases hb : flagB fs files i j
                · exact absurd hb hc
                · rfl
              have h := hmid.flags j
              rw [hfj, hfb] at h
              have hjc2 : decide (j < files.length) = true := by simp [hj]
              rw [hjc2] at h
              simp at h
            obtain ⟨st2, he2, hm2, hev2⟩ := procPair_step hyp hmid hj hgate
            rw [he2]
            obtain ⟨st1, he1, hm1, hev1⟩ := ih (j + 1) st2 (by omega) hm2
            refine ⟨st1, he1, hm1, evsExt_trans ?_ hev1⟩
            rcases hev2 with h | h
            · rw [h]
              exact evsExt_refl files st.evs
            · have hii : i < files.length := by
                have := hmid.hij
                omega
              refine ⟨[((files.getD i default).name, (files.getD j default).name)],
                by rw [h, List.singleton_append], ?_⟩
              intro ev hev
              rw [List.mem_singleton] at hev
              subst hev
              exact ⟨i, j, hii, hj, rfl⟩
      · have hje : j = files.length := by
          have := hmid.hjc
          omega
        subst hje
        rw [jLoop_step_eq, if_neg (by omega)]
        exact ⟨st, rfl, hmid, evsExt_refl files st.evs⟩

/-- The i loop runs every row to the end under the bucket hypotheses. -/
theorem iLoop_inv (hyp : BucketHyp fs B files size) :
    ∀ n i st, files.length - 1 - i ≤ n → i ≤ files.length - 1 →
    RowInv fs B files size out0 i st →
    ∃ st1, iLoop fs B files files.length size i st = Except.ok st1 ∧
      RowInv fs B files size out0 (files.length - 1) st1 ∧
      evsExt files st.evs st1.evs := by
  intro n
  induction n with
  | zero =>
      intro i st hle hile hrow
      have hie : i = files.length - 1 := by omega
      subst hie
      rw [iLoop_step_eq, if_neg (by omega)]
      exact ⟨st, rfl, hrow, evsExt_refl files st.evs⟩
  | succ n ih =>
      intro i st hle hile hrow
      by_cases hi : i < files.length - 1
      · have hii : i < files.length := by omega
        rw [iLoop_step_eq, if_pos hi]
        cases hfi : st.fflags i with
        | true =>
            rw [if_pos rfl]
            have hfb : flagB fs files i i = true := by
              have h := hrow.flags i
              rw [hfi] at h
              have hd : decide (i < files.length) = true := by simp [hii]
              rw [hd] at h
              simpa using h.symm
            exact ih (i + 1) st (by omega) (by omega) (rowInv_flagged hrow hii hfb)
        | false =>
            rw [if_neg (by simp)]
            have hfb : flagB fs files i i = false := by
              have h := hrow.flags i
              rw [hfi] at h
              have hd : decide (i < files.length) = true := by simp [hii]
              rw [hd] at h
              simpa using h.symm
            have hmidE := rowInv_to_mid hrow hii hfb
            obtain ⟨st2, hej, hm2, hev2⟩ :=
              jLoop_inv hyp (files.length - (i + 1)) (i + 1) st le_rfl hmidE
            rw [hej]
            have hrow2 := mid_to_rowInv hm2
            obtain ⟨st1, he1, hr1, hev1⟩ :=
              ih (i + 1) (finishRow st2) (by omega) (by omega) hrow2
            refine ⟨st1, he1, hr1, ?_⟩
            refine evsExt_trans hev2 ?_
            rw [← finishRow_evs st2]
            exact hev1
      · have hie : i = files.length - 1 := by omega
        subst hie
        rw [iLoop_step_eq, if_neg (by omega)]
        exact ⟨st, rfl, hrow, evsExt_refl files st.evs⟩

/-- The last row never finalizes a group of its own. -/
theorem specOut_last (fs : FSys) (files : List Fe) (size : Nat)
    (out0 : List DupNode) (hcnt : 1 ≤ files.length) :
    specOut fs files size files.length out0
      = specOut fs files size (files.length - 1) out0 := by
  have he : files.length = (files.length - 1) + 1 := by omega
  rw [he, specOut_succ, if_neg ?_]
  · rw [← he]
  · rintro ⟨h1, h2⟩
    have hlt : files.length - 1 < files.length := by omega
    have hcons := @classList_eq_cons fs _ _ hlt h1
    have hrm : rowMembers fs files (files.length - 1) files.length = [] := by
      rw [List.eq_nil_iff_forall_not_mem]
      intro y hy
      have hmem : y ∈ classList fs files (files.length - 1) := by
        unfold rowMembers at hy
        exact List.mem_of_mem_filter hy
      have hbnd := (mem_classList.mp hmem).1
      unfold rowMembers at hy
      have := List.of_mem_filter hy
      simp only [Bool.and_eq_true, decide_eq_true_eq] at this
      omega
    rw [hcons, hrm] at h2
    simp at h2

/-- Full characterization of a nonzero bucket: processNode succeeds and
produces exactly the duplicate groups of the content classes, on top of
the chain passed in, reading only bucket files. -/
theorem processNode_nonzero (hyp : BucketHyp fs B files size)
    (hcnt : 2 ≤ files.length) (out0 : List DupNode) (evs0 : List (Nat × Nat)) :
    ∃ evs1, processNode fs B size files out0 evs0
        = Except.ok (specOut fs files size files.length out0, evs1) ∧
      evsExt files evs0 evs1 := by
  obtain ⟨st1, he, hrow, hev⟩ := iLoop_inv hyp (files.length - 1) 0
    (initBSt out0 evs0) (by omega) (by omega)
    (rowInv_init fs B files size out0 evs0)
  unfold processNode
  rw [if_neg (by omega), if_pos hyp.hsize, he]
  refine ⟨st1.evs, ?_, hev⟩
  have hout : st1.out = specOut fs files size files.length out0 := by
    rw [hrow.outEq, specOut_last fs files size out0 (by omega)]
  show Except.ok (st1.out, st1.evs) = _
  rw [hout]

end LoopProof

/-- Three two-byte files sharing only their first byte: the bucket of the
ledger counterexample trace. -/
def cexFs : FSys := fun n =>
  if n = 0 then okFile [0, 1] else if n = 1 then okFile [0, 2] else okFile [0, 3]

def cexFiles : List Fe := [⟨0, 0, 0⟩, ⟨1, 1, 1⟩, ⟨2, 2, 2⟩]

/-- The value a run of the pair loops leaves in a ledger cell (false/zero
when the run aborts). -/
def recordedAt (r : Except IOErr BSt) (k : Nat) : Bool :=
  match r with | .ok s => s.recorded k | .error _ => false

def arAt (r : Except IOErr BSt) (k : Nat) : Nat :=
  match r with | .ok s => s.ar k | .error _ => 0

def seekRecAt (r : Except IOErr BSt) (k : Nat) : Nat :=
  match r with | .ok s => s.seekRec k | .error _ => 0

/-- C3 counterexample: in the bucket of cexFs/cexFiles with chunk size 1,
the pair (1, 2) is actually compared (recorded) after a skip-ahead seek to
offset 1, and the first byte of files 1 and 2 is confirmed identical (it
was confirmed through row 0), yet the ledger entry ar[1][2] holds 0, not
the number of bytes confirmed identical so far: the ledger entry excludes
the prefix confirmed by the skip-ahead seek. -/
theorem ledger_excludes_skipped_prefix :
    recordedAt (iLoop cexFs 1 cexFiles 3 2 0 (initBSt [] [])) (key 3 1 2) = true ∧
    seekRecAt (iLoop cexFs 1 cexFiles 3 2 0 (initBSt [] [])) (key 3 1 2) = 1 ∧
    (cAt cexFs cexFiles 1).take 1 = (cAt cexFs cexFiles 2).take 1 ∧
    arAt (iLoop cexFs 1 cexFiles 3 2 0 (initBSt [] [])) (key 3 1 2) = 0 := by
  refine ⟨?_, ?_, ?_, ?_⟩ <;>
    simp [recordedAt, seekRecAt, arAt, iLoop_step_eq, jLoop_step_eq, procPair,
      maxToSkipLoop, cmpLoop, initBSt, cexFs, cexFiles, key, readChunk,
      finishRow, okFile, cAt]

section TreeLemmas

theorem toList_blacken (t : Tree) : toList (blacken t) = toList t := by
  cases t <;> simp [blacken, toList]

theorem toList_rotateLeft (t : Tree) : toList (rotateLeft t) = toList t := by
  cases t with
  | nil => rfl
  | node size c files l r color =>
      cases r with
      | nil => rfl
      | node rs rc rf rl rr rcol => simp [rotateLeft, toList]

theorem toList_rotateRight (t : Tree) : toList (rotateRight t) = toList t := by
  cases t with
  | nil => rfl
  | node size c files l r color =>
      cases l with
      | nil => rfl
      | node ls lc lf ll lr lcol => simp [rotateRight, toList]

theorem balance_node (size c : Nat) (files : List Fe) (l r : Tree)
    (color : Bool) :
    balance (.node size c files l r color)
      = (match (if isRed r && !isRed l
            then rotateLeft (.node size c files l r color)
            else .node size c files l r color) with
        | .nil => .nil
        | .node s1 c1 f1 l1 r1 col1 =>
          if isRed l1 && isRed (leftOf l1)
          then rotateRight (.node s1 c1 f1 l1 r1 col1)
          else .node s1 c1 f1 l1 r1 col1) := rfl

theorem toList_balance (t : Tree) : toList (balance t) = toList t := by
  cases t with
  | nil => rfl
  | node size c files l r color =>
      rw [balance_node]
      cases hrot : (if isRed r && !isRed l
          then rotateLeft (.node size c files l r color)
          else .node size c files l r color) with
      | nil =>
          exfalso
          by_cases hc : (isRed r && !isRed l) = true
          · rw [if_pos hc] at hrot
            have := toList_rotateLeft (.node size c files l r color)
            rw [hrot] at this
            simp [toList] at this
          · rw [if_neg hc] at hrot
            exact absurd hrot (by simp)
      | node s1 c1 f1 l1 r1 col1 =>
          have hl : toList (Tree.node s1 c1 f1 l1 r1 col1)
              = toList (Tree.node size c files l r color) := by
            by_cases hc : (isRed r && !isRed l) = true
            · rw [if_pos hc] at hrot
              rw [← hrot]
              exact toList_rotateLeft _
            · rw [if_neg hc] at hrot
              rw [hrot]
          show toList (if isRed l1 && isRed (leftOf l1)
              then rotateRight (.node s1 c1 f1 l1 r1 col1)
              else .node s1 c1 f1 l1 r1 col1)
            = toList (.node size c files l r color)
          by_cases hc2 : (isRed l1 && isRed (leftOf l1)) = true
          · rw [if_pos hc2, toList_rotateRight]
            exact hl
          · rw [if_neg hc2]
            exact hl

theorem sizes_nil : sizes .nil = [] := rfl

theorem sizes_node (size c : Nat) (files : List Fe) (l r : Tree) (col : Bool) :
    sizes (.node size c files l r col) = sizes l ++ size :: sizes r := by
  simp [sizes, toList]

theorem sizes_blacken (t : Tree) : sizes (blacken t) = sizes t := by
  unfold sizes
  rw [toList_blacken]

theorem sizes_balance (t : Tree) : sizes (balance t) = sizes t := by
  unfold sizes
  rw [toList_balance]

theorem isRed_blacken_and (l r : Tree) :
    (if isRed l && isRed r then blacken l else l) = l ∨
    ((if isRed l && isRed r then blacken l else l) = blacken l ∧
     (if isRed l && isRed r then blacken r else r) = blacken r) := by
  by_cases hc : (isRed l && isRed r) = true
  · right
    rw [if_pos hc, if_pos hc]
    exact ⟨rfl, rfl⟩
  · left
    rw [if_neg hc]

theorem nodeCount_balance (t : Tree) : nodeCount (balance t) = nodeCount t := by
  have h : ∀ u : Tree, nodeCount u = (toList u).length := by
    intro u
    induction u with
    | nil => rfl
    | node s c f l r col ihl ihr => simp [nodeCount, toList, ihl, ihr]; omega
  rw [h, h, toList_balance]

theorem insertR_nil (name : Nat) (st : StatRec) :
    insertR .nil name st
      = .node st.st_size 1 [newFileNode name st] .nil .nil true := by
  rw [insertR]

theorem insertR_found {size : Nat} {files : List Fe} {st : StatRec}
    (c : Nat) (l r : Tree) (color : Bool) (name : Nat)
    (hsz : st.st_size = size)
    (hdup : files.any (fun fp => fp.dev == st.st_dev && fp.inode == st.st_ino)
      = true) :
    insertR (.node size c files l r color) name st
      = .node size c files l r color := by
  rw [insertR, if_pos hsz, if_pos hdup]

theorem insertR_new {size : Nat} {files : List Fe} {st : StatRec}
    (c : Nat) (l r : Tree) (color : Bool) (name : Nat)
    (hsz : st.st_size = size)
    (hdup : files.any (fun fp => fp.dev == st.st_dev && fp.inode == st.st_ino)
      = false) :
    insertR (.node size c files l r color) name st
      = .node size c (newFileNode name st :: files) l r color := by
  rw [insertR, if_pos hsz, if_neg (by rw [hdup]; exact Bool.false_ne_true)]

theorem insertR_lt {size : Nat} {st : StatRec} (c : Nat) (files : List Fe)
    (l r : Tree) (color : Bool) (name : Nat)
    (hlt : st.st_size < size) :
    insertR (.node size c files l r color) name st
      = balance (.node size c files
          (insertR (if isRed l && isRed r then blacken l else l) name st)
          (if isRed l && isRed r then blacken r else r)
          (if isRed l && isRed r then true else color)) := by
  rw [insertR, if_neg (by omega), if_pos hlt]

theorem insertR_gt {size : Nat} {st : StatRec} (c : Nat) (files : List Fe)
    (l r : Tree) (color : Bool) (name : Nat)
    (hgt : size < st.st_size) :
    insertR (.node size c files l r color) name st
      = balance (.node size c files
          (if isRed l && isRed r then blacken l else l)
          (insertR (if isRed l && isRed r then blacken r else r) name st)
          (if isRed l && isRed r then true else color)) := by
  rw [insertR, if_neg (by omega), if_neg (by omega)]

theorem sizes_ite_blacken (p : Prop) [Decidable p] (u : Tree) :
    sizes (if p then blacken u else u) = sizes u := by
  split
  · exact sizes_blacken u
  · rfl

theorem nodeCount_ite_blacken (p : Prop) [Decidable p] (u : Tree) :
    nodeCount (if p then blacken u else u) = nodeCount u := by
  split
  · exact nodeCount_blacken u
  · rfl

theorem toList_ite_blacken (p : Prop) [Decidable p] (u : Tree) :
    toList (if p then blacken u else u) = toList u := by
  split
  · exact toList_blacken u
  · rfl

theorem BST_blacken {t : Tree} (h : BST t) : BST (blacken t) := by
  cases t with
  | nil => exact h
  | node size c files l r color => exact h

theorem BST_ite_blacken (p : Prop) [Decidable p] {u : Tree} (h : BST u) :
    BST (if p then blacken u else u) := by
  split
  · exact BST_blacken h
  · exact h

theorem BST_rotateLeft {t : Tree} (h : BST t) : BST (rotateLeft t) := by
  cases t with
  | nil => exact h
  | node size c files l r color =>
      cases r with
      | nil => exact h
      | node rs rc rf rl rr rcol =>
          obtain ⟨hl, ⟨hrl, hrr, hrlB, hrrB⟩, hlB, hrB⟩ := h
          simp only [sizes_node, List.mem_append, List.mem_cons] at hrB
          refine ⟨⟨hl, hrl, hlB, ?_⟩, hrr, ?_, hrrB⟩
          · intro s hs
            exact hrB s (Or.inl hs)
          · intro s hs
            simp only [sizes_node, List.mem_append, List.mem_cons] at hs
            rcases hs with hs | hs | hs
            · have h1 := hlB s hs
              have h2 := hrB rs (Or.inr (Or.inl rfl))
              omega
            · subst hs
              exact hrB rs (Or.inr (Or.inl rfl))
            · exact hrlB s hs

theorem BST_rotateRight {t : Tree} (h : BST t) : BST (rotateRight t) := by
  cases t with
  | nil => exact h
  | node size c files l r color =>
      cases l with
      | nil => exact h
      | node ls lc lf ll lr lcol =>
          obtain ⟨⟨hll, hlr, hllB, hlrB⟩, hr, hlB, hrB⟩ := h
          simp only [sizes_node, List.mem_append, List.mem_cons] at hlB
          refine ⟨hll, ⟨hlr, hr, ?_, hrB⟩, hllB, ?_⟩
          · intro s hs
            exact hlB s (Or.inr (Or.inr hs))
          · intro s hs
            simp only [sizes_node, List.mem_append, List.mem_cons] at hs
            rcases hs with hs | hs | hs
            · exact hlrB s hs
            · subst hs
              exact hlB ls (Or.inr (Or.inl rfl))
            · have h1 := hrB s hs
              have h2 := hlB ls (Or.inr (Or.inl rfl))
              omega

theorem BST_balance {t : Tree} (h : BST t) : BST (balance t) := by
  cases t with
  | nil => exact h
  | node size c files l r color =>
      rw [balance_node]
      cases hrot : (if isRed r && !isRed l
          then rotateLeft (.node size c files l r color)
          else .node size c files l r color) with
      | nil => exact trivial
      | node s1 c1 f1 l1 r1 col1 =>
          have h1 : BST (Tree.node s1 c1 f1 l1 r1 col1) := by
            by_cases hc : (isRed r && !isRed l) = true
            · rw [if_pos hc] at hrot
              rw [← hrot]
              exact BST_rotateLeft h
            · rw [if_neg hc] at hrot
              rw [← hrot]
              exact h
          show BST (if isRed l1 && isRed (leftOf l1)
              then rotateRight (.node s1 c1 f1 l1 r1 col1)
              else .node s1 c1 f1 l1 r1 col1)
          by_cases hc2 : (isRed l1 && isRed (leftOf l1)) = true
          · rw [if_pos hc2]
            exact BST_rotateRight h1
          · rw [if_neg hc2]
            exact h1

/-- Inserting can only add the inserted size to the sizes of the index. -/
theorem sizes_insertR : ∀ n (t : Tree), nodeCount t ≤ n → ∀ name st x,
    x ∈ sizes (insertR t name st) → x ∈ sizes t ∨ x = st.st_size := by
  intro n
  induction n with
  | zero =>
      intro t ht name st x hx
      cases t with
      | nil =>
          rw [insertR_nil] at hx
          simp only [sizes_node, sizes_nil, List.nil_append, List.mem_singleton] at hx
          exact Or.inr hx
      | node size c files l r color => simp [nodeCount] at ht
  | succ n ih =>
      intro t ht name st x hx
      cases t with
      | nil =>
          rw [insertR_nil] at hx
          simp only [sizes_node, sizes_nil, List.nil_append, List.mem_singleton] at hx
          exact Or.inr hx
      | node size c files l r color =>
          simp only [nodeCount] at ht
          rcases Nat.lt_trichotomy st.st_size size with hlt | heq | hgt
          · rw [insertR_lt c files l r color name hlt, sizes_balance,
              sizes_node] at hx
            rcases List.mem_append.mp hx with hx | hx
            · rcases ih _ (by rw [nodeCount_ite_blacken]; omega) name st x hx with
                hx2 | hx2
              · rw [sizes_ite_blacken] at hx2
                left
                rw [sizes_node]
                exact List.mem_append.mpr (Or.inl hx2)
              · exact Or.inr hx2
            · left
              rw [sizes_node]
              rcases List.mem_cons.mp hx with hx | hx
              · subst hx
                exact List.mem_append.mpr (Or.inr (List.mem_cons_self _ _))
              · rw [sizes_ite_blacken] at hx
                exact List.mem_append.mpr (Or.inr (List.mem_cons_of_mem _ hx))
          · cases hdup : files.any
                (fun fp => fp.dev == st.st_dev && fp.inode == st.st_ino) with
            | true =>
                rw [insertR_found c l r color name heq hdup] at hx
                exact Or.inl hx
            | false =>
                rw [insertR_new c l r color name heq hdup] at hx
                rw [sizes_node] at hx ⊢
                exact Or.inl hx
          · rw [insertR_gt c files l r color name hgt, sizes_balance,
              sizes_node] at hx
            rcases List.mem_append.mp hx with hx | hx
            · rw [sizes_ite_blacken] at hx
              left
              rw [sizes_node]
              exact List.mem_append.mpr (Or.inl hx)
            · rcases List.mem_cons.mp hx with hx | hx
              · subst hx
                left
                rw [sizes_node]
                exact List.mem_append.mpr (Or.inr (List.mem_cons_self _ _))
              · rcases ih _ (by rw [nodeCount_ite_blacken]; omega) name st x hx with
                  hx2 | hx2
                · rw [sizes_ite_blacken] at hx2
                  left
                  rw [sizes_node]
                  exact List.mem_append.mpr (Or.inr (List.mem_cons_of_mem _ hx2))
                · exact Or.inr hx2

/-- insertR preserves the search-tree ordering of the size index. -/
theorem BST_insertR : ∀ n (t : Tree), nodeCount t ≤ n → ∀ name st, BST t →
    BST (insertR t name st) := by
  intro n
  induction n with
  | zero =>
      intro t ht name st hb
      cases t with
      | nil =>
          rw [insertR_nil]
          exact ⟨trivial, trivial, by simp [sizes_nil], by simp [sizes_nil]⟩
      | node size c files l r color => simp [nodeCount] at ht
  | succ n ih =>
      intro t ht name st hb
      cases t with
      | nil =>
          rw [insertR_nil]
          exact ⟨trivial, trivial, by simp [sizes_nil], by simp [sizes_nil]⟩
      | node size c files l r color =>
          simp only [nodeCount] at ht
          obtain ⟨hl, hr, hlB, hrB⟩ := hb
          rcases Nat.lt_trichotomy st.st_size size with hlt | heq | hgt
          · rw [insertR_lt c files l r color name hlt]
            apply BST_balance
            refine ⟨ih _ (by rw [nodeCount_ite_blacken]; omega) name st
              (BST_ite_blacken _ hl), BST_ite_blacken _ hr, ?_, ?_⟩
            · intro s hs
              rcases sizes_insertR _ _ le_rfl name st s hs with hs2 | hs2
              · rw [sizes_ite_blacken] at hs2
                exact hlB s hs2
              · omega
            · intro s hs
              rw [sizes_ite_blacken] at hs
              exact hrB s hs
          · cases hdup : files.any
                (fun fp => fp.dev == st.st_dev && fp.inode == st.st_ino) with
            | true =>
                rw [insertR_found c l r color name heq hdup]
                exact ⟨hl, hr, hlB, hrB⟩
            | false =>
                rw [insertR_new c l r color name heq hdup]
                exact ⟨hl, hr, hlB, hrB⟩
          · rw [insertR_gt c files l r color name hgt]
            apply BST_balance
            refine ⟨BST_ite_blacken _ hl,
              ih _ (by rw [nodeCount_ite_blacken]; omega) name st
                (BST_ite_blacken _ hr), ?_, ?_⟩
            · intro s hs
              rw [sizes_ite_blacken] at hs
              exact hlB s hs
            · intro s hs
              rcases sizes_insertR _ _ le_rfl name st s hs with hs2 | hs2
              · rw [sizes_ite_blacken] at hs2
                exact hrB s hs2
              · omega

theorem BST_insert {t : Tree} (h : BST t) (name : Nat) (st : StatRec) :
    BST (insert t name st) :=
  BST_blacken (BST_insertR (nodeCount t) t le_rfl name st h)

theorem BST_foldl_insert : ∀ (calls : List (Nat × StatRec)) (t : Tree),
    BST t → BST (calls.foldl (fun a p => insert a p.1 p.2) t) := by
  intro calls
  induction calls with
  | nil => intro t h; exact h
  | cons c rest ih =>
      intro t h
      exact ih _ (BST_insert h c.1 c.2)

theorem BST_buildTree (calls : List (Nat × StatRec)) : BST (buildTree calls) :=
  BST_foldl_insert calls .nil trivial

theorem bucketOf_blacken (t : Tree) (sz : Nat) :
    bucketOf (blacken t) sz = bucketOf t sz := by
  cases t <;> rfl

theorem bucketOf_ite_blacken (p : Prop) [Decidable p] (u : Tree) (sz : Nat) :
    bucketOf (if p then blacken u else u) sz = bucketOf u sz := by
  split
  · exact bucketOf_blacken u sz
  · rfl

theorem bucketOf_rotateLeft {t : Tree} (h : BST t) (sz : Nat) :
    bucketOf (rotateLeft t) sz = bucketOf t sz := by
  cases t with
  | nil => rfl
  | node size c files l r color =>
      cases r with
      | nil => rfl
      | node rs rc rf rl rr rcol =>
          obtain ⟨hl, ⟨hrl, hrr, hrlB, hrrB⟩, hlB, hrB⟩ := h
          simp only [sizes_node, List.mem_append, List.mem_cons] at hrB
          have hsrs : size < rs := hrB rs (Or.inr (Or.inl rfl))
          show bucketOf (.node rs rc rf (.node size c files l rl true) rr rcol) sz
            = bucketOf (.node size c files l (.node rs rc rf rl rr rcol) color) sz
          simp only [bucketOf]
          split_ifs <;> first | rfl | omega

theorem bucketOf_rotateRight {t : Tree} (h : BST t) (sz : Nat) :
    bucketOf (rotateRight t) sz = bucketOf t sz := by
  cases t with
  | nil => rfl
  | node size c files l r color =>
      cases l with
      | nil => rfl
      | node ls lc lf ll lr lcol =>
          obtain ⟨⟨hll, hlr, hllB, hlrB⟩, hr, hlB, hrB⟩ := h
          simp only [sizes_node, List.mem_append, List.mem_cons] at hlB
          have hsls : ls < size := hlB ls (Or.inr (Or.inl rfl))
          show bucketOf (.node ls lc lf ll (.node size c files lr r true) lcol) sz
            = bucketOf (.node size c files (.node ls lc lf ll lr lcol) r color) sz
          simp only [bucketOf]
          split_ifs <;> first | rfl | omega

theorem bucketOf_balance {t : Tree} (h : BST t) (sz : Nat) :
    bucketOf (balance t) sz = bucketOf t sz := by
  cases t with
  | nil => rfl
  | node size c files l r color =>
      rw [balance_node]
      cases hrot : (if isRed r && !isRed l
          then rotateLeft (.node size c files l r color)
          else .node size c files l r color) with
      | nil =>
          exfalso
          by_cases hc : (isRed r && !isRed l) = true
          · rw [if_pos hc] at hrot
            have := toList_rotateLeft (.node size c files l r color)
            rw [hrot] at this
            simp [toList] at this
          · rw [if_neg hc] at hrot
            exact absurd hrot (by simp)
      | node s1 c1 f1 l1 r1 col1 =>
          have h1 : BST (Tree.node s1 c1 f1 l1 r1 col1) := by
            by_cases hc : (isRed r && !isRed l) = true
            · rw [if_pos hc] at hrot
              rw [← hrot]
              exact BST_rotateLeft h
            · rw [if_neg hc] at hrot
              rw [← hrot]
              exact h
          have h2 : bucketOf (Tree.node s1 c1 f1 l1 r1 col1) sz
              = bucketOf (Tree.node size c files l r color) sz := by
            by_cases hc : (isRed r && !isRed l) = true
            · rw [if_pos hc] at hrot
              rw [← hrot]
              exact bucketOf_rotateLeft h sz
            · rw [if_neg hc] at hrot
              rw [hrot]
          show bucketOf (if isRed l1 && isRed (leftOf l1)
              then rotateRight (.node s1 c1 f1 l1 r1 col1)
              else .node s1 c1 f1 l1 r1 col1) sz
            = bucketOf (.node size c files l r color) sz
          by_cases hc2 : (isRed l1 && isRed (leftOf l1)) = true
          · rw [if_pos hc2, bucketOf_rotateRight h1 sz]
            exact h2
          · rw [if_neg hc2]
            exact h2

/-- The bucket update performed by one insertR call, seen through the
binary search: the inserted size's bucket either keeps its files (a dev
and inode match: a hard link) or gets the new identity prepended, and
every other bucket is untouched. -/
theorem bucketOf_insertR : ∀ n (t : Tree), nodeCount t ≤ n → ∀ name st,
    BST t → ∀ sz,
    bucketOf (insertR t name st) sz
      = if sz = st.st_size then
          (if (bucketOf t st.st_size).any
              (fun fp => fp.dev == st.st_dev && fp.inode == st.st_ino)
           then bucketOf t st.st_size
           else newFileNode name st :: bucketOf t st.st_size)
        else bucketOf t sz := by
  intro n
  induction n with
  | zero =>
      intro t ht name st hb sz
      cases t with
      | nil =>
          rw [insertR_nil]
          by_cases hsz : sz = st.st_size <;> simp [bucketOf, hsz]
      | node size c files l r color => simp [nodeCount] at ht
  | succ n ih =>
      intro t ht name st hb sz
      cases t with
      | nil =>
          rw [insertR_nil]
          by_cases hsz : sz = st.st_size <;> simp [bucketOf, hsz]
      | node size c files l r color =>
          simp only [nodeCount] at ht
          obtain ⟨hl, hr, hlB, hrB⟩ := hb
          rcases Nat.lt_trichotomy st.st_size size with hlt | heq | hgt
          · have hbX : BST (Tree.node size c files
                (insertR (if isRed l && isRed r then blacken l else l) name st)
                (if isRed l && isRed r then blacken r else r)
                (if isRed l && isRed r then true else color)) := by
              refine ⟨BST_insertR (nodeCount l) _ (by rw [nodeCount_ite_blacken])
                name st (BST_ite_blacken _ hl), BST_ite_blacken _ hr, ?_, ?_⟩
              · intro s hs
                rcases sizes_insertR _ _ le_rfl name st s hs with hs2 | hs2
                · rw [sizes_ite_blacken] at hs2
                  exact hlB s hs2
                · omega
              · intro s hs
                rw [sizes_ite_blacken] at hs
                exact hrB s hs
            rw [insertR_lt c files l r color name hlt, bucketOf_balance hbX sz]
            have hbt : bucketOf (Tree.node size c files l r color) st.st_size
                = bucketOf l st.st_size := by
              simp only [bucketOf]
              rw [if_neg (by omega), if_pos hlt]
            have hihl := ih (if isRed l && isRed r then blacken l else l)
              (by rw [nodeCount_ite_blacken]; omega) name st
              (BST_ite_blacken _ hl)
            by_cases hsz : sz = st.st_size
            · subst hsz
              rw [if_pos (show st.st_size = st.st_size from rfl), hbt]
              have hX : bucketOf (Tree.node size c files
                  (insertR (if isRed l && isRed r then blacken l else l) name st)
                  (if isRed l && isRed r then blacken r else r)
                  (if isRed l && isRed r then true else color)) st.st_size
                  = bucketOf (insertR
                      (if isRed l && isRed r then blacken l else l) name st)
                      st.st_size := by
                simp only [bucketOf]
                rw [if_neg (by omega), if_pos hlt]
              rw [hX, hihl st.st_size,
                if_pos (show st.st_size = st.st_size from rfl),
                bucketOf_ite_blacken]
            · rw [if_neg hsz]
              simp only [bucketOf]
              by_cases h1 : sz = size
              · rw [if_pos h1, if_pos h1]
              · rw [if_neg h1, if_neg h1]
                by_cases h2 : sz < size
                · rw [if_pos h2, if_pos h2, hihl sz, if_neg hsz,
                    bucketOf_ite_blacken]
                · rw [if_neg h2, if_neg h2, bucketOf_ite_blacken]
          · have hbt : bucketOf (Tree.node size c files l r color) st.st_size
                = files := by
              simp only [bucketOf]
              rw [if_pos heq]
            cases hdup : files.any
                (fun fp => fp.dev == st.st_dev && fp.inode == st.st_ino) with
            | true =>
                rw [insertR_found c l r color name heq hdup]
                by_cases hsz : sz = st.st_size
                · subst hsz
                  rw [if_pos (show st.st_size = st.st_size from rfl), hbt, hdup,
                    if_pos rfl]
                · rw [if_neg hsz]
            | false =>
                rw [insertR_new c l r color name heq hdup]
                by_cases hsz : sz = st.st_size
                · subst hsz
                  rw [if_pos (show st.st_size = st.st_size from rfl), hbt, hdup,
                    if_neg (by simp)]
                  simp only [bucketOf]
                  rw [if_pos heq]
                · rw [if_neg hsz]
                  have hne : ¬ sz = size := by omega
                  simp only [bucketOf]
                  rw [if_neg hne, if_neg hne]
          · have hbX : BST (Tree.node size c files
                (if isRed l && isRed r then blacken l else l)
                (insertR (if isRed l && isRed r then blacken r else r) name st)
                (if isRed l && isRed r then true else color)) := by
              refine ⟨BST_ite_blacken _ hl,
                BST_insertR (nodeCount r) _ (by rw [nodeCount_ite_blacken]) name st
                  (BST_ite_blacken _ hr), ?_, ?_⟩
              · intro s hs
                rw [sizes_ite_blacken] at hs
                exact hlB s hs
              · intro s hs
                rcases sizes_insertR _ _ le_rfl name st s hs with hs2 | hs2
                · rw [sizes_ite_blacken] at hs2
                  exact hrB s hs2
                · omega
            rw [insertR_gt c files l r color name hgt, bucketOf_balance hbX sz]
            have hbt : bucketOf (Tree.node size c files l r color) st.st_size
                = bucketOf r st.st_size := by
              simp only [bucketOf]
              rw [if_neg (by omega), if_neg (by omega)]
            have hihr := ih (if isRed l && isRed r then blacken r else r)
              (by rw [nodeCount_ite_blacken]; omega) name st
              (BST_ite_blacken _ hr)
            by_cases hsz : sz = st.st_size
            · subst hsz
              rw [if_pos (show st.st_size = st.st_size from rfl), hbt]
              have hX : bucketOf (Tree.node size c files
                  (if isRed l && isRed r then blacken l else l)
                  (insertR (if isRed l && isRed r then blacken r else r) name st)
                  (if isRed l && isRed r then true else color)) st.st_size
                  = bucketOf (insertR
                      (if isRed l && isRed r then blacken r else r) name st)
                      st.st_size := by
                simp only [bucketOf]
                rw [if_neg (by omega), if_neg (by omega)]
              rw [hX, hihr st.st_size,
                if_pos (show st.st_size = st.st_size from rfl),
                bucketOf_ite_blacken]
            · rw [if_neg hsz]
              simp only [bucketOf]
              by_cases h1 : sz = size
              · rw [if_pos h1, if_pos h1]
              · rw [if_neg h1, if_neg h1]
                by_cases h2 : sz < size
                · rw [if_pos h2, if_pos h2, bucketOf_ite_blacken]
                · rw [if_neg h2, if_neg h2, hihr sz, if_neg hsz,
                    bucketOf_ite_blacken]

/-- Inserting an identity whose device and inode already occur in its size
bucket leaves every bucket of the index unchanged. -/
theorem toList_insertR_dup : ∀ n (t : Tree), nodeCount t ≤ n → ∀ name st,
    BST t →
    (bucketOf t st.st_size).any
      (fun fp => fp.dev == st.st_dev && fp.inode == st.st_ino) = true →
    toList (insertR t name st) = toList t := by
  intro n
  induction n with
  | zero =>
      intro t ht name st hb hdup
      cases t with
      | nil => simp [bucketOf] at hdup
      | node size c files l r color => simp [nodeCount] at ht
  | succ n ih =>
      intro t ht name st hb hdup
      cases t with
      | nil => simp [bucketOf] at hdup
      | node size c files l r color =>
          simp only [nodeCount] at ht
          obtain ⟨hl, hr, hlB, hrB⟩ := hb
          rcases Nat.lt_trichotomy st.st_size size with hlt | heq | hgt
          · have hdl : (bucketOf l st.st_size).any
                (fun fp => fp.dev == st.st_dev && fp.inode == st.st_ino)
                = true := by
              have : bucketOf (Tree.node size c files l r color) st.st_size
                  = bucketOf l st.st_size := by
                simp only [bucketOf]
                rw [if_neg (by omega), if_pos hlt]
              rw [← this]
              exact hdup
            rw [insertR_lt c files l r color name hlt, toList_balance]
            show toList (insertR _ name st) ++ (size, files) ::
                toList (if isRed l && isRed r then blacken r else r)
              = toList (Tree.node size c files l r color)
            rw [ih (if isRed l && isRed r then blacken l else l)
                (by rw [nodeCount_ite_blacken]; omega) name st
                (BST_ite_blacken _ hl)
                (by rw [bucketOf_ite_blacken]; exact hdl),
              toList_ite_blacken, toList_ite_blacken]
            rfl
          · have hdf : files.any
                (fun fp => fp.dev == st.st_dev && fp.inode == st.st_ino)
                = true := by
              have : bucketOf (Tree.node size c files l r color) st.st_size
                  = files := by
                simp only [bucketOf]
                rw [if_pos heq]
              rw [← this]
              exact hdup
            rw [insertR_found c l r color name heq hdf]
          · have hdr : (bucketOf r st.st_size).any
                (fun fp => fp.dev == st.st_dev && fp.inode == st.st_ino)
                = true := by
              have : bucketOf (Tree.node size c files l r color) st.st_size
                  = bucketOf r st.st_size := by
                simp only [bucketOf]
                rw [if_neg (by omega), if_neg (by omega)]
              rw [← this]
              exact hdup
            rw [insertR_gt c files l r color name hgt, toList_balance]
            show toList (if isRed l && isRed r then blacken l else l)
                ++ (size, files) :: toList (insertR _ name st)
              = toList (Tree.node size c files l r color)
            rw [ih (if isRed l && isRed r then blacken r else r)
                (by rw [nodeCount_ite_blacken]; omega) name st
                (BST_ite_blacken _ hr)
                (by rw [bucketOf_ite_blacken]; exact hdr),
              toList_ite_blacken, toList_ite_blacken]
            rfl

/-- Every bucket of the index after an insert is an old bucket, the
inserted size's bucket with the new identity prepended (when no device and
inode matched), or a fresh singleton bucket of the inserted size. -/
theorem toList_insertR_shape : ∀ n (t : Tree), nodeCount t ≤ n →
    ∀ name st p, p ∈ toList (insertR t name st) →
    p ∈ toList t ∨
    (∃ b, (st.st_size, b) ∈ toList t ∧
      b.any (fun fp => fp.dev == st.st_dev && fp.inode == st.st_ino) = false ∧
      p = (st.st_size, newFileNode name st :: b)) ∨
    p = (st.st_size, [newFileNode name st]) := by
  intro n
  induction n with
  | zero =>
      intro t ht name st p hp
      cases t with
      | nil =>
          rw [insertR_nil] at hp
          simp only [toList, List.nil_append, List.mem_singleton] at hp
          exact Or.inr (Or.inr hp)
      | node size c files l r color => simp [nodeCount] at ht
  | succ n ih =>
      intro t ht name st p hp
      cases t with
      | nil =>
          rw [insertR_nil] at hp
          simp only [toList, List.nil_append, List.mem_singleton] at hp
          exact Or.inr (Or.inr hp)
      | node size c files l r color =>
          simp only [nodeCount] at ht
          rcases Nat.lt_trichotomy st.st_size size with hlt | heq | hgt
          · rw [insertR_lt c files l r color name hlt, toList_balance] at hp
            have hp2 : p ∈ toList (insertR
                  (if isRed l && isRed r then blacken l else l) name st)
                ∨ p ∈ (size, files) :: toList r := by
              simp only [toList, toList_ite_blacken] at hp
              exact List.mem_append.mp hp
            rcases hp2 with hp2 | hp2
            · rcases ih _ (by rw [nodeCount_ite_blacken]; omega) name st p hp2
                with h1 | ⟨b, hb, hany, hpe⟩ | h1
              · rw [toList_ite_blacken] at h1
                left
                simp only [toList, List.mem_append]
                exact Or.inl h1
              · rw [toList_ite_blacken] at hb
                refine Or.inr (Or.inl ⟨b, ?_, hany, hpe⟩)
                simp only [toList, List.mem_append]
                exact Or.inl hb
              · exact Or.inr (Or.inr h1)
            · left
              simp only [toList, List.mem_append]
              exact Or.inr hp2
          · cases hdup : files.any
                (fun fp => fp.dev == st.st_dev && fp.inode == st.st_ino) with
            | true =>
                rw [insertR_found c l r color name heq hdup] at hp
                exact Or.inl hp
            | false =>
                rw [insertR_new c l r color name heq hdup] at hp
                simp only [toList, List.mem_append, List.mem_cons] at hp
                rcases hp with hp | hp | hp
                · left
                  simp only [toList, List.mem_append]
                  exact Or.inl hp
                · refine Or.inr (Or.inl ⟨files, ?_, hdup, by rw [hp, heq]⟩)
                  simp only [toList, List.mem_append, List.mem_cons]
                  rw [heq]
                  exact Or.inr (Or.inl rfl)
                · left
                  simp only [toList, List.mem_append, List.mem_cons]
                  exact Or.inr (Or.inr hp)
          · rw [insertR_gt c files l r color name hgt, toList_balance] at hp
            have hp2 : p ∈ toList l ∨ p = (size, files) ∨ p ∈ toList (insertR
                (if isRed l && isRed r then blacken r else r) name st) := by
              simp only [toList, toList_ite_blacken, List.mem_append,
                List.mem_cons] at hp
              tauto
            rcases hp2 with hp2 | hp2 | hp2
            · left
              simp only [toList, List.mem_append]
              exact Or.inl hp2
            · left
              simp only [toList, List.mem_append, List.mem_cons]
              exact Or.inr (Or.inl hp2)
            · rcases ih _ (by rw [nodeCount_ite_blacken]; omega) name st p hp2
                with h1 | ⟨b, hb, hany, hpe⟩ | h1
              · rw [toList_ite_blacken] at h1
                left
                simp only [toList, List.mem_append, List.mem_cons]
                exact Or.inr (Or.inr h1)
              · rw [toList_ite_blacken] at hb
                refine Or.inr (Or.inl ⟨b, ?_, hany, hpe⟩)
                simp only [toList, List.mem_append, List.mem_cons]
                exact Or.inr (Or.inr hb)
              · exact Or.inr (Or.inr h1)

/-- No two entries of any one size bucket share a device and inode pair. -/
def NodupDI (t : Tree) : Prop :=
  ∀ p ∈ toList t,
    p.2.Pairwise (fun a b => ¬ (a.dev = b.dev ∧ a.inode = b.inode))

theorem NodupDI_insert {t : Tree} (h : NodupDI t) (name : Nat)
    (st : StatRec) : NodupDI (insert t name st) := by
  intro p hp
  rw [insert, toList_blacken] at hp
  rcases toList_insertR_shape (nodeCount t) t le_rfl name st p hp with
    h1 | ⟨b, hb, hany, hpe⟩ | h1
  · exact h p h1
  · subst hpe
    refine List.Pairwise.cons ?_ (h (st.st_size, b) hb)
    intro a ha hcontra
    have hax := List.any_eq_false.mp hany a ha
    simp only [newFileNode] at hcontra
    simp only [Bool.and_eq_true, beq_iff_eq] at hax
    exact hax ⟨hcontra.1.symm, hcontra.2.symm⟩
  · subst h1
    simp

theorem NodupDI_buildTree (calls : List (Nat × StatRec)) :
    NodupDI (buildTree calls) := by
  have aux : ∀ (cs : List (Nat × StatRec)) (t : Tree), NodupDI t →
      NodupDI (cs.foldl (fun a p => insert a p.1 p.2) t) := by
    intro cs
    induction cs with
    | nil => intro t h; exact h
    | cons c rest ihc =>
        intro t h
        exact ihc _ (NodupDI_insert h c.1 c.2)
  refine aux calls .nil ?_
  intro p hp
  simp [toList] at hp

theorem bucketOf_insert {t : Tree} (h : BST t) (name : Nat) (st : StatRec)
    (sz : Nat) :
    bucketOf (insert t name st) sz
      = if sz = st.st_size then
          (if (bucketOf t st.st_size).any
              (fun fp => fp.dev == st.st_dev && fp.inode == st.st_ino)
           then bucketOf t st.st_size
           else newFileNode name st :: bucketOf t st.st_size)
        else bucketOf t sz := by
  rw [insert, bucketOf_blacken]
  exact bucketOf_insertR (nodeCount t) t le_rfl name st h sz

theorem toList_insert_dup {t : Tree} (h : BST t) (name : Nat) (st : StatRec)
    (hdup : (bucketOf t st.st_size).any
      (fun fp => fp.dev == st.st_dev && fp.inode == st.st_ino) = true) :
    toList (insert t name st) = toList t := by
  rw [insert, toList_blacken]
  exact toList_insertR_dup (nodeCount t) t le_rfl name st h hdup

end TreeLemmas

section SpecMembership

variable {fs : FSys} {files : List Fe} {size : Nat}

theorem mem_specMins {i m : Nat} :
    m ∈ specMins fs files i ↔
      m < i ∧ classMin fs files m = m ∧ 2 ≤ (classList fs files m).length := by
  unfold specMins
  rw [List.mem_filter, List.mem_range]
  simp [and_assoc]

theorem mem_specOut {i : Nat} {out0 : List DupNode} {g : DupNode} :
    g ∈ specOut fs files size i out0 ↔
      g ∈ out0 ∨ ∃ m, m ∈ specMins fs files i ∧ g = specGroup fs files size m := by
  unfold specOut
  rw [List.mem_append, List.mem_reverse, List.mem_map]
  constructor
  · rintro (⟨m, hm, rfl⟩ | hg)
    · exact Or.inr ⟨m, hm, rfl⟩
    · exact Or.inl hg
  · rintro (hg | ⟨m, hm, rfl⟩)
    · exact Or.inr hg
    · exact Or.inl ⟨m, hm, rfl⟩

theorem mem_specGroup_files {m : Nat} {fe : Fe} :
    fe ∈ (specGroup fs files size m).files ↔
      ∃ p, p ∈ classList fs files m ∧ fe = files.getD p default := by
  unfold specGroup
  simp only [List.mem_reverse, List.mem_map]
  constructor
  · rintro ⟨p, hp, rfl⟩
    exact ⟨p, hp, rfl⟩
  · rintro ⟨p, hp, rfl⟩
    exact ⟨p, hp, rfl⟩

theorem cAt_of_getD_eq {p q : Nat}
    (h : files.getD p default = files.getD q default) :
    cAt fs files p = cAt fs files q := by
  unfold cAt
  rw [h]

/-- Two files whose contents differ are never put into one output group. -/
theorem no_cogroup {n i j : Nat} {out0 : List DupNode} {g : DupNode}
    (hne : cAt fs files i ≠ cAt fs files j)
    (hg : g ∈ specOut fs files size n out0) (hg0 : g ∉ out0) :
    ¬ (files.getD i default ∈ g.files ∧ files.getD j default ∈ g.files) := by
  rintro ⟨hgi, hgj⟩
  rcases mem_specOut.mp hg with h | ⟨m, hm, rfl⟩
  · exact hg0 h
  · obtain ⟨p, hp, hpe⟩ := mem_specGroup_files.mp hgi
    obtain ⟨q, hq, hqe⟩ := mem_specGroup_files.mp hgj
    have h1 : cAt fs files i = cAt fs files m :=
      (cAt_of_getD_eq hpe).trans (mem_classList.mp hp).2
    have h2 : cAt fs files j = cAt fs files m :=
      (cAt_of_getD_eq hqe).trans (mem_classList.mp hq).2
    exact hne (h1.trans h2.symm)

/-- The output groups of one bucket are pairwise disjoint: a file entry
belongs to at most one emitted group. -/
theorem specOut_disjoint {n : Nat} {g1 g2 : DupNode} {fe : Fe}
    (h1 : g1 ∈ specOut fs files size n []) (h2 : g2 ∈ specOut fs files size n [])
    (hf1 : fe ∈ g1.files) (hf2 : fe ∈ g2.files) : g1 = g2 := by
  rcases mem_specOut.mp h1 with h | ⟨m1, hm1, he1⟩
  · simp at h
  rcases mem_specOut.mp h2 with h | ⟨m2, hm2, he2⟩
  · simp at h
  subst he1
  subst he2
  obtain ⟨p, hp, hpe⟩ := mem_specGroup_files.mp hf1
  obtain ⟨q, hq, hqe⟩ := mem_specGroup_files.mp hf2
  have hc : cAt fs files p = cAt fs files q :=
    cAt_of_getD_eq (hpe.symm.trans hqe)
  have hm : classMin fs files m1 = classMin fs files m2 := by
    have e1 := (mem_classList.mp hp).2
    have e2 := (mem_classList.mp hq).2
    exact classMin_congr ((e1.symm.trans hc).trans e2)
  have hmm1 := (mem_specMins.mp hm1).2.1
  have hmm2 := (mem_specMins.mp hm2).2.1
  have hmeq : m1 = m2 := by rw [← hmm1, ← hmm2, hm]
  rw [hmeq]

theorem classList_all_equal
    (hall : ∀ k, k < files.length → cAt fs files k = cAt fs files 0)
    (x : Nat) (hx : x < files.length) :
    classList fs files x = List.range files.length := by
  unfold classList
  rw [List.filter_eq_self]
  intro k hk
  rw [List.mem_range] at hk
  simp only [decide_eq_true_eq]
  rw [hall k hk, hall x hx]

theorem filter_range_eq_singleton_zero {n : Nat} {p : Nat → Bool}
    (hp0 : p 0 = true) (hpm : ∀ m, 0 < m → m < n → p m = false) (hn : 0 < n) :
    (List.range n).filter p = [0] := by
  obtain ⟨k, rfl⟩ : ∃ k, n = k + 1 := ⟨n - 1, by omega⟩
  rw [List.range_succ_eq_map, List.filter_cons_of_pos hp0]
  have hnil : (List.filter p ((List.range k).map Nat.succ)) = [] := by
    rw [List.filter_eq_nil_iff]
    intro a ha
    rw [List.mem_map] at ha
    obtain ⟨b, hb, rfl⟩ := ha
    rw [List.mem_range] at hb
    rw [hpm (b + 1) (by omega) (by omega)]
    simp
  rw [hnil]

theorem specMins_all_equal (hlen : 2 ≤ files.length)
    (hall : ∀ k, k < files.length → cAt fs files k = cAt fs files 0) :
    specMins fs files files.length = [0] := by
  have hcm : ∀ m, m < files.length → classMin fs files m = 0 := by
    intro m hm
    unfold classMin
    rw [classList_all_equal hall m hm]
    obtain ⟨k, hk⟩ : ∃ k, files.length = k + 1 := ⟨files.length - 1, by omega⟩
    rw [hk, List.range_succ_eq_map]
    rfl
  have hcl : ∀ m, m < files.length →
      (classList fs files m).length = files.length := by
    intro m hm
    rw [classList_all_equal hall m hm, List.length_range]
  unfold specMins
  refine filter_range_eq_singleton_zero ?_ ?_ (by omega)
  · simp only [Bool.and_eq_true, decide_eq_true_eq]
    exact ⟨hcm 0 (by omega), by rw [hcl 0 (by omega)]; omega⟩
  · intro m hm0 hmn
    have hne : ¬ (classMin fs files m = m) := by
      rw [hcm m hmn]
      omega
    simp [hne]

/-- When every file of the bucket has the same content, the bucket emits
exactly one group: the class of index 0. -/
theorem specOut_all_equal {out0 : List DupNode} (hlen : 2 ≤ files.length)
    (hall : ∀ k, k < files.length → cAt fs files k = cAt fs files 0) :
    specOut fs files size files.length out0
      = specGroup fs files size 0 :: out0 := by
  unfold specOut
  rw [specMins_all_equal hlen hall]
  rfl

end SpecMembership

section EventLemmas

variable {fs : FSys} {B : Nat} {files : List Fe} {size : Nat}

/-- A successful procPair call grows the event log by at most its own
comparison event. -/
theorem procPair_open_err_i {cnt i j : Nat} {st : BSt}
    (hm : ¬ maxToSkipLoop st.ar cnt i j 0 0 < 0)
    (h1 : (fs ((files.getD i default).name)).openOk = false) :
    procPair fs B files cnt size i j st
      = Except.error ⟨.fopen, (files.getD i default).name⟩ := by
  unfold procPair
  rw [if_neg hm, if_pos h1]

theorem procPair_open_err_j {cnt i j : Nat} {st : BSt}
    (hm : ¬ maxToSkipLoop st.ar cnt i j 0 0 < 0)
    (h1 : ¬ (fs ((files.getD i default).name)).openOk = false)
    (h2 : (fs ((files.getD j default).name)).openOk = false) :
    procPair fs B files cnt size i j st
      = Except.error ⟨.fopen, (files.getD j default).name⟩ := by
  unfold procPair
  rw [if_neg hm, if_neg h1, if_pos h2]

theorem procPair_seek_err_i {cnt i j : Nat} {st : BSt}
    (hm : ¬ maxToSkipLoop st.ar cnt i j 0 0 < 0)
    (h1 : ¬ (fs ((files.getD i default).name)).openOk = false)
    (h2 : ¬ (fs ((files.getD j default).name)).openOk = false)
    (h3 : 0 < maxToSkipLoop st.ar cnt i j 0 0 ∧
      (fs ((files.getD i default).name)).seekOk = false) :
    procPair fs B files cnt size i j st
      = Except.error ⟨.fseek, (files.getD i default).name⟩ := by
  unfold procPair
  rw [if_neg hm, if_neg h1, if_neg h2, if_pos h3]

theorem procPair_seek_err_j {cnt i j : Nat} {st : BSt}
    (hm : ¬ maxToSkipLoop st.ar cnt i j 0 0 < 0)
    (h1 : ¬ (fs ((files.getD i default).name)).openOk = false)
    (h2 : ¬ (fs ((files.getD j default).name)).openOk = false)
    (h3 : ¬ (0 < maxToSkipLoop st.ar cnt i j 0 0 ∧
      (fs ((files.getD i default).name)).seekOk = false))
    (h4 : 0 < maxToSkipLoop st.ar cnt i j 0 0 ∧
      (fs ((files.getD j default).name)).seekOk = false) :
    procPair fs B files cnt size i j st
      = Except.error ⟨.fseek, (files.getD j default).name⟩ := by
  unfold procPair
  rw [if_neg hm, if_neg h1, if_neg h2, if_neg h3, if_pos h4]

theorem procPair_read_err_i {cnt i j : Nat} {st : BSt}
    (hm : ¬ maxToSkipLoop st.ar cnt i j 0 0 < 0)
    (h1 : ¬ (fs ((files.getD i default).name)).openOk = false)
    (h2 : ¬ (fs ((files.getD j default).name)).openOk = false)
    (h3 : ¬ (0 < maxToSkipLoop st.ar cnt i j 0 0 ∧
      (fs ((files.getD i default).name)).seekOk = false))
    (h4 : ¬ (0 < maxToSkipLoop st.ar cnt i j 0 0 ∧
      (fs ((files.getD j default).name)).seekOk = false))
    (h5 : (fs ((files.getD i default).name)).readOk = false) :
    procPair fs B files cnt size i j st
      = Except.error ⟨.fread, (files.getD i default).name⟩ := by
  unfold procPair
  rw [if_neg hm, if_neg h1, if_neg h2, if_neg h3, if_neg h4, if_pos h5]

theorem procPair_read_err_j {cnt i j : Nat} {st : BSt}
    (hm : ¬ maxToSkipLoop st.ar cnt i j 0 0 < 0)
    (h1 : ¬ (fs ((files.getD i default).name)).openOk = false)
    (h2 : ¬ (fs ((files.getD j default).name)).openOk = false)
    (h3 : ¬ (0 < maxToSkipLoop st.ar cnt i j 0 0 ∧
      (fs ((files.getD i default).name)).seekOk = false))
    (h4 : ¬ (0 < maxToSkipLoop st.ar cnt i j 0 0 ∧
      (fs ((files.getD j default).name)).seekOk = false))
    (h5 : ¬ (fs ((files.getD i default).name)).readOk = false)
    (h6 : (fs ((files.getD j default).name)).readOk = false) :
    procPair fs B files cnt size i j st
      = Except.error ⟨.fread, (files.getD j default).name⟩ := by
  unfold procPair
  rw [if_neg hm, if_neg h1, if_neg h2, if_neg h3, if_neg h4, if_neg h5,
    if_pos h6]

theorem procPair_ok_eq {cnt size i j : Nat} {st : BSt}
    (hm : ¬ maxToSkipLoop st.ar cnt i j 0 0 < 0)
    (h1 : ¬ (fs ((files.getD i default).name)).openOk = false)
    (h2 : ¬ (fs ((files.getD j default).name)).openOk = false)
    (h3 : ¬ (0 < maxToSkipLoop st.ar cnt i j 0 0 ∧
      (fs ((files.getD i default).name)).seekOk = false))
    (h4 : ¬ (0 < maxToSkipLoop st.ar cnt i j 0 0 ∧
      (fs ((files.getD j default).name)).seekOk = false))
    (h5 : ¬ (fs ((files.getD i default).name)).readOk = false)
    (h6 : ¬ (fs ((files.getD j default).name)).readOk = false) :
    procPair fs B files cnt size i j st
      = (if (cmpLoop B (cAt fs files i) (cAt fs files j)
            (maxToSkipLoop st.ar cnt i j 0 0).toNat 0).2 then
          Except.ok (dupState fs B files cnt size i j st)
        else
          Except.ok (cmpState fs B files cnt i j st)) := by
  unfold procPair dupState cmpState cAt
  rw [if_neg hm, if_neg h1, if_neg h2, if_neg h3, if_neg h4, if_neg h5,
    if_neg h6]

theorem procPair_evs {cnt i j : Nat} {st st1 : BSt}
    (h : procPair fs B files cnt size i j st = Except.ok st1) :
    st1.evs = st.evs ∨
    st1.evs = ((files.getD i default).name, (files.getD j default).name)
      :: st.evs := by
  by_cases hm : maxToSkipLoop st.ar cnt i j 0 0 < 0
  · rw [procPair_skip_eq fs B files cnt size i j st hm] at h
    injection h with h
    left
    rw [← h]
  · by_cases h1 : (fs ((files.getD i default).name)).openOk = false
    · rw [procPair_open_err_i hm h1] at h
      exact absurd h (by simp)
    by_cases h2 : (fs ((files.getD j default).name)).openOk = false
    · rw [procPair_open_err_j hm h1 h2] at h
      exact absurd h (by simp)
    by_cases h3 : 0 < maxToSkipLoop st.ar cnt i j 0 0 ∧
      (fs ((files.getD i default).name)).seekOk = false
    · rw [procPair_seek_err_i hm h1 h2 h3] at h
      exact absurd h (by simp)
    by_cases h4 : 0 < maxToSkipLoop st.ar cnt i j 0 0 ∧
      (fs ((files.getD j default).name)).seekOk = false
    · rw [procPair_seek_err_j hm h1 h2 h3 h4] at h
      exact absurd h (by simp)
    by_cases h5 : (fs ((files.getD i default).name)).readOk = false
    · rw [procPair_read_err_i hm h1 h2 h3 h4 h5] at h
      exact absurd h (by simp)
    by_cases h6 : (fs ((files.getD j default).name)).readOk = false
    · rw [procPair_read_err_j hm h1 h2 h3 h4 h5 h6] at h
      exact absurd h (by simp)
    rw [procPair_ok_eq hm h1 h2 h3 h4 h5 h6] at h
    by_cases hres : (cmpLoop B (cAt fs files i) (cAt fs files j)
        (maxToSkipLoop st.ar cnt i j 0 0).toNat 0).2 = true
    · rw [if_pos hres] at h
      injection h with h
      right
      rw [← h]
      rfl
    · rw [if_neg hres] at h
      injection h with h
      right
      rw [← h]
      rfl

/-- A successful j loop extends the event log only with events naming two
bucket files. -/
theorem jLoop_evs {i : Nat} (hi : i < files.length) :
    ∀ n j st st1, files.length - j ≤ n →
    jLoop fs B files files.length size i j st = Except.ok st1 →
    evsExt files st.evs st1.evs := by
  intro n
  induction n with
  | zero =>
      intro j st st1 hle h
      rw [jLoop_step_eq, if_neg (by omega)] at h
      injection h with h
      rw [h]
      exact evsExt_refl files st1.evs
  | succ n ih =>
      intro j st st1 hle h
      by_cases hj : j < files.length
      · rw [jLoop_step_eq, if_pos hj] at h
        cases hfj : st.fflags j with
        | true =>
            rw [hfj, if_pos rfl] at h
            exact ih (j + 1) st st1 (by omega) h
        | false =>
            rw [hfj, if_neg (by simp)] at h
            cases hpp : procPair fs B files files.length size i j st with
            | error e => rw [hpp] at h; exact absurd h (by simp)
            | ok st2 =>
                rw [hpp] at h
                have h2 := ih (j + 1) st2 st1 (by omega) h
                refine evsExt_trans ?_ h2
                rcases procPair_evs hpp with he | he
                · rw [he]
                  exact evsExt_refl files st.evs
                · exact ⟨[((files.getD i default).name,
                      (files.getD j default).name)],
                    by rw [he, List.singleton_append],
                    by
                      intro ev hev
                      rw [List.mem_singleton] at hev
                      subst hev
                      exact ⟨i, j, hi, hj, rfl⟩⟩
      · rw [jLoop_step_eq, if_neg hj] at h
        injection h with h
        rw [h]
        exact evsExt_refl files st1.evs

/-- A successful i loop extends the event log only with events naming two
bucket files. -/
theorem iLoop_evs : ∀ n i st st1, files.length - 1 - i ≤ n →
    iLoop fs B files files.length size i st = Except.ok st1 →
    evsExt files st.evs st1.evs := by
  intro n
  induction n with
  | zero =>
      intro i st st1 hle h
      rw [iLoop_step_eq, if_neg (by omega)] at h
      injection h with h
      rw [h]
      exact evsExt_refl files st1.evs
  | succ n ih =>
      intro i st st1 hle h
      by_cases hi : i < files.length - 1
      · rw [iLoop_step_eq, if_pos hi] at h
        cases hfi : st.fflags i with
        | true =>
            rw [hfi, if_pos rfl] at h
            exact ih (i + 1) st st1 (by omega) h
        | false =>
            rw [hfi, if_neg (by simp)] at h
            cases hjl : jLoop fs B files files.length size i (i + 1) st with
            | error e => rw [hjl] at h; exact absurd h (by simp)
            | ok st2 =>
                rw [hjl] at h
                have h1 := jLoop_evs (by omega) (files.length - (i + 1)) (i + 1)
                  st st2 le_rfl hjl
                have h2 := ih (i + 1) (finishRow st2) st1 (by omega) h
                rw [finishRow_evs st2] at h2
                exact evsExt_trans h1 h2
      · rw [iLoop_step_eq, if_neg hi] at h
        injection h with h
        rw [h]
        exact evsExt_refl files st1.evs

/-- A successful processNode call extends the event log only with events
naming two files of its bucket. -/
theorem processNode_evs {out0 : List DupNode} {evs0 : List (Nat × Nat)}
    {out1 : List DupNode} {evs1 : List (Nat × Nat)}
    (h : processNode fs B size files out0 evs0 = Except.ok (out1, evs1)) :
    evsExt files evs0 evs1 := by
  unfold processNode at h
  split at h
  · injection h with h
    injection h with h1 h2
    rw [← h2]
    exact evsExt_refl files evs0
  · split at h
    · cases hil : iLoop fs B files files.length size 0 (initBSt out0 evs0) with
      | error e => rw [hil] at h; exact absurd h (by simp)
      | ok st =>
          rw [hil] at h
          injection h with h
          injection h with h1 h2
          rw [← h2]
          exact iLoop_evs (files.length - 1) 0 (initBSt out0 evs0) st
            le_rfl hil
    · injection h with h
      injection h with h1 h2
      rw [← h2]
      exact evsExt_refl files evs0

/-- An event two of whose file entries live in one bucket of the tree. -/
def treeEv (t : Tree) (ev : Nat × Nat) : Prop :=
  ∃ sz b, (sz, b) ∈ toList t ∧ ∃ p q, p < b.length ∧ q < b.length ∧
    ev = ((b.getD p default).name, (b.getD q default).name)

/-- Every comparison event of a successful chkForDups run either predates
the run or names two files of a single size bucket of the tree. -/
theorem chkForDups_evs : ∀ (t : Tree) (acc : List DupNode × List (Nat × Nat))
    (out1 : List DupNode) (evs1 : List (Nat × Nat)),
    chkForDups fs B t acc = Except.ok (out1, evs1) →
    ∀ ev ∈ evs1, ev ∈ acc.2 ∨ treeEv t ev := by
  intro t
  induction t with
  | nil =>
      intro acc out1 evs1 h ev hev
      unfold chkForDups at h
      injection h with h
      left
      rw [h]
      exact hev
  | node size c files l r col ihl ihr =>
      intro acc out1 evs1 h ev hev
      unfold chkForDups at h
      cases hcl : chkForDups fs B l acc with
      | error e => rw [hcl] at h; exact absurd h (by simp)
      | ok acc1 =>
          rw [hcl] at h
          have h2 : (match processNode fs B size files acc1.1 acc1.2 with
              | Except.error e => Except.error e
              | Except.ok acc2 => chkForDups fs B r acc2)
              = Except.ok (out1, evs1) := h
          cases hpn : processNode fs B size files acc1.1 acc1.2 with
          | error e => rw [hpn] at h2; exact absurd h2 (by simp)
          | ok acc2 =>
              rw [hpn] at h2
              have h3 : chkForDups fs B r acc2 = Except.ok (out1, evs1) := h2
              rcases ihr acc2 out1 evs1 h3 ev hev with hev2 | htr
              · have hpe : processNode fs B size files acc1.1 acc1.2
                    = Except.ok (acc2.1, acc2.2) := by
                  rw [hpn]
                have hext := processNode_evs hpe
                obtain ⟨d, hd, hdm⟩ := hext
                rw [hd] at hev2
                rcases List.mem_append.mp hev2 with hnew | hold
                · obtain ⟨p, q, hp, hq, hpe2⟩ := hdm ev hnew
                  right
                  refine ⟨size, files, ?_, p, q, hp, hq, hpe2⟩
                  simp [toList]
                · rcases ihl acc acc1.1 acc1.2 (by rw [hcl]) ev hold with h3 | h3
                  · exact Or.inl h3
                  · right
                    obtain ⟨sz, b, hb, hrest⟩ := h3
                    refine ⟨sz, b, ?_, hrest⟩
                    simp only [toList, List.mem_append, List.mem_cons]
                    exact Or.inl hb
              · right
                obtain ⟨sz, b, hb, hrest⟩ := htr
                refine ⟨sz, b, ?_, hrest⟩
                simp only [toList, List.mem_append, List.mem_cons]
                exact Or.inr (Or.inr hb)

end EventLemmas

section Origin

/-- Every file entry of every bucket of the index is an old entry or the
just-inserted identity, filed under its own stat size. -/
theorem toList_insertR_origin (t : Tree) (name : Nat) (st : StatRec)
    (p : Nat × List Fe) (hp : p ∈ toList (insertR t name st)) (fe : Fe)
    (hfe : fe ∈ p.2) :
    (∃ b0, (p.1, b0) ∈ toList t ∧ fe ∈ b0) ∨
    (fe = newFileNode name st ∧ p.1 = st.st_size) := by
  rcases toList_insertR_shape (nodeCount t) t le_rfl name st p hp with
    h1 | ⟨b, hb, hany, hpe⟩ | h1
  · exact Or.inl ⟨p.2, h1, hfe⟩
  · subst hpe
    rcases List.mem_cons.mp hfe with hfe | hfe
    · exact Or.inr ⟨hfe, rfl⟩
    · exact Or.inl ⟨b, hb, hfe⟩
  · subst h1
    rcases List.mem_singleton.mp hfe with rfl
    exact Or.inr ⟨rfl, rfl⟩

/-- Every file entry of the built size index comes from one of the insert
calls, and is filed in the bucket of its own stat size. -/
theorem mem_buildTree_origin (calls : List (Nat × StatRec))
    (p : Nat × List Fe) (hp : p ∈ toList (buildTree calls)) (fe : Fe)
    (hfe : fe ∈ p.2) :
    ∃ c ∈ calls, fe = newFileNode c.1 c.2 ∧ p.1 = c.2.st_size := by
  have aux : ∀ (cs : List (Nat × StatRec)) (t : Tree)
      (p : Nat × List Fe), p ∈ toList (cs.foldl (fun a c => insert a c.1 c.2) t) →
      ∀ fe ∈ p.2,
      (∃ b0, (p.1, b0) ∈ toList t ∧ fe ∈ b0) ∨
      ∃ c ∈ cs, fe = newFileNode c.1 c.2 ∧ p.1 = c.2.st_size := by
    intro cs
    induction cs with
    | nil =>
        intro t p hp fe hfe
        exact Or.inl ⟨p.2, by exact ⟨hp, hfe⟩⟩
    | cons c rest ihc =>
        intro t p hp fe hfe
        rcases ihc (insert t c.1 c.2) p hp fe hfe with ⟨b0, hb0, hfe0⟩ | h2
        · rw [insert, toList_blacken] at hb0
          rcases toList_insertR_origin t c.1 c.2 (p.1, b0) hb0 fe hfe0 with
            ⟨b1, hb1, hfe1⟩ | ⟨hfe1, hsz1⟩
          · exact Or.inl ⟨b1, hb1, hfe1⟩
          · exact Or.inr ⟨c, List.mem_cons_self c rest, hfe1, hsz1⟩
        · obtain ⟨c2, hc2, hrest⟩ := h2
          exact Or.inr ⟨c2, List.mem_cons_of_mem c hc2, hrest⟩
  rcases aux calls .nil p hp fe hfe with ⟨b0, hb0, _⟩ | h2
  · simp [toList] at hb0
  · exact h2

end Origin

section MainModel

/-- One nftw directory argument of main: the FTW_F visits its traversal
performed, together with whether nftw returned -1 for it (main only
checks the return value for a debug print, so the flag is otherwise
ignored and the files visited before a traversal failure stay indexed). -/
structure DirArg where
  visits : List (Nat × StatRec)
  failed : Bool

/-- All insert calls performed by main's nftw loop, in order. -/
def argCalls (args : List DirArg) : List (Nat × StatRec) :=
  (args.map (fun a => a.visits)).flatten

/-- The observable outcome of a run of main: the process exit code, the
duplicate groups printed to stdout, and the error_exit diagnostic (the
failed operation and path it syslogs), if any. -/
structure RunOutcome where
  exitCode : Nat
  printed : List DupNode
  diag : Option IOErr
  deriving Repr

/-- Model of main: index every visited file, resolve duplicates over the
whole index, then print every group and exit 0; a failed file operation
during resolution reaches error_exit instead, which syslogs the operation
and path and exits with status 1 before anything is printed. -/
def runMain (fs : FSys) (B : Nat) (args : List DirArg) : RunOutcome :=
  match chkForDups fs B (buildTree (argCalls args)) ([], []) with
  | .error e => { exitCode := 1, printed := [], diag := some e }
  | .ok (out, _) => { exitCode := 0, printed := out, diag := none }

end MainModel

section Claims

/-- The bucket hypotheses for the three-file counterexample bucket. -/
theorem cexHyp : BucketHyp cexFs 1 cexFiles 2 := by
  refine ⟨by omega, by omega, ?_, ?_, ?_, ?_⟩ <;>
    · intro k hk
      have hk3 : k < 3 := hk
      interval_cases k <;> rfl

/-- A filesystem on which every file holds the single byte 7. -/
def allFs : FSys := fun _ => okFile [7]

theorem allHyp : BucketHyp allFs 1 cexFiles 1 := by
  refine ⟨by omega, by omega, ?_, ?_, ?_, ?_⟩ <;>
    · intro k hk
      have hk3 : k < 3 := hk
      interval_cases k <;> rfl

/-- Two one-byte files that differ in their only byte. -/
def pairFs : FSys := fun n => if n = 0 then okFile [0] else okFile [1]

def pairFiles : List Fe := [⟨0, 0, 0⟩, ⟨1, 1, 1⟩]

theorem pairHyp : BucketHyp pairFs 1 pairFiles 1 := by
  refine ⟨by omega, by omega, ?_, ?_, ?_, ?_⟩ <;>
    · intro k hk
      have hk2 : k < 2 := hk
      interval_cases k <;> rfl

/-- C1: for a bucket of three or more same-size files, whenever the
skip-ahead inference skips the comparison of a pair (i, j), the pair's
contents really differ (so the skip agrees with a byte-by-byte full
comparison: no true duplicate is suppressed), the inference is justified
by a previous row whose ledger entries are recorded for both columns i
and j and differ, and no emitted group of the run contains both files (no
false duplicate is reported). -/
theorem skip_inference_agrees_with_full_comparison
    {fs : FSys} {B : Nat} {files : List Fe} {size : Nat}
    (hyp : BucketHyp fs B files size) (hcnt : 3 ≤ files.length)
    (out0 : List DupNode) (evs0 : List (Nat × Nat)) :
    ∃ st1, iLoop fs B files files.length size 0 (initBSt out0 evs0)
        = Except.ok st1 ∧
      ∀ i j, i < j → j < files.length →
        st1.skipped (key files.length i j) = true →
          cAt fs files i ≠ cAt fs files j ∧
          (∃ r, r < i ∧ st1.recorded (key files.length r i) = true ∧
            st1.recorded (key files.length r j) = true ∧
            st1.ar (key files.length r i) ≠ st1.ar (key files.length r j)) ∧
          ∀ g ∈ st1.out, g ∉ out0 →
            ¬ (files.getD i default ∈ g.files ∧
               files.getD j default ∈ g.files) := by
  obtain ⟨st1, he, hrow, _⟩ := iLoop_inv hyp (files.length - 1) 0
    (initBSt out0 evs0) le_rfl (by omega)
    (rowInv_init fs B files size out0 evs0)
  refine ⟨st1, he, ?_⟩
  intro i j hij hj hskip
  obtain ⟨hne, hcause⟩ := hrow.ledger.skipC i j hij hj hskip
  refine ⟨hne, hcause, ?_⟩
  intro g hg hg0
  rw [hrow.outEq, ← specOut_last fs files size out0 (by omega)] at hg
  exact no_cogroup hne hg hg0

theorem skip_inference_agrees_witness :
    ∃ st1, iLoop cexFs 1 cexFiles cexFiles.length 2 0 (initBSt [] [])
        = Except.ok st1 ∧
      ∀ i j, i < j → j < cexFiles.length →
        st1.skipped (key cexFiles.length i j) = true →
          cAt cexFs cexFiles i ≠ cAt cexFs cexFiles j ∧
          (∃ r, r < i ∧ st1.recorded (key cexFiles.length r i) = true ∧
            st1.recorded (key cexFiles.length r j) = true ∧
            st1.ar (key cexFiles.length r i)
              ≠ st1.ar (key cexFiles.length r j)) ∧
          ∀ g ∈ st1.out, g ∉ ([] : List DupNode) →
            ¬ (cexFiles.getD i default ∈ g.files ∧
               cexFiles.getD j default ∈ g.files) :=
  skip_inference_agrees_with_full_comparison cexHyp le_rfl [] []

/-- C3 (amended): while a nonzero-size bucket is resolved, a recorded
ledger entry ar[i][j] counts exactly the bytes confirmed identical beyond
the skip-ahead seek offset: the files agree on the first
seekRec[i][j] + ar[i][j] bytes (a prefix of at most the bucket size), and
ar[i][j] is the count the chunked read loop confirms from the seek
offset; an entry of a pair never actually compared stays zero. -/
theorem ledger_counts_bytes_beyond_seek
    {fs : FSys} {B : Nat} {files : List Fe} {size : Nat}
    (hyp : BucketHyp fs B files size)
    (out0 : List DupNode) (evs0 : List (Nat × Nat)) :
    ∃ st1, iLoop fs B files files.length size 0 (initBSt out0 evs0)
        = Except.ok st1 ∧
      ∀ i j, i < j → j < files.length →
        (st1.recorded (key files.length i j) = true →
          (cAt fs files i).take (st1.seekRec (key files.length i j)
              + st1.ar (key files.length i j))
            = (cAt fs files j).take (st1.seekRec (key files.length i j)
              + st1.ar (key files.length i j)) ∧
          st1.seekRec (key files.length i j) + st1.ar (key files.length i j)
            ≤ size ∧
          st1.ar (key files.length i j)
            = (cmpLoop B (cAt fs files i) (cAt fs files j)
                (st1.seekRec (key files.length i j)) 0).1) ∧
        (st1.recorded (key files.length i j) = false →
          st1.ar (key files.length i j) = 0 ∧
          st1.seekRec (key files.length i j) = 0) := by
  obtain ⟨st1, he, hrow, _⟩ := iLoop_inv hyp (files.length - 1) 0
    (initBSt out0 evs0) le_rfl (by omega)
    (rowInv_init fs B files size out0 evs0)
  refine ⟨st1, he, ?_⟩
  intro i j hij hj
  constructor
  · intro hrec
    obtain ⟨hagree, hb1, hb2⟩ := hrow.ledger.sound i j hij hj hrec
    obtain ⟨hseek, har⟩ := hrow.ledger.recVal i j hij hj hrec
    refine ⟨hagree, ?_, har⟩
    rw [← hyp.hlen i (by omega)]
    exact hb1
  · intro hrec
    exact hrow.ledger.unrec i j hij hj hrec

theorem ledger_counts_witness :
    ∃ st1, iLoop cexFs 1 cexFiles cexFiles.length 2 0 (initBSt [] [])
        = Except.ok st1 ∧
      ∀ i j, i < j → j < cexFiles.length →
        (st1.recorded (key cexFiles.length i j) = true →
          (cAt cexFs cexFiles i).take (st1.seekRec (key cexFiles.length i j)
              + st1.ar (key cexFiles.length i j))
            = (cAt cexFs cexFiles j).take (st1.seekRec (key cexFiles.length i j)
              + st1.ar (key cexFiles.length i j)) ∧
          st1.seekRec (key cexFiles.length i j)
              + st1.ar (key cexFiles.length i j) ≤ 2 ∧
          st1.ar (key cexFiles.length i j)
            = (cmpLoop 1 (cAt cexFs cexFiles i) (cAt cexFs cexFiles j)
                (st1.seekRec (key cexFiles.length i j)) 0).1) ∧
        (st1.recorded (key cexFiles.length i j) = false →
          st1.ar (key cexFiles.length i j) = 0 ∧
          st1.seekRec (key cexFiles.length i j) = 0) :=
  ledger_counts_bytes_beyond_seek cexHyp [] []

/-- C4: three same-size nonzero files of identical content in one bucket
are emitted as exactly one duplicate group holding all three (in
descending index order, since groups are built by prepending), and a file
entry never belongs to two distinct groups emitted for a bucket. -/
theorem identical_triple_single_group
    {fs : FSys} {B : Nat} {files : List Fe} {size : Nat}
    (hyp : BucketHyp fs B files size) (hlen3 : files.length = 3)
    (h1 : cAt fs files 1 = cAt fs files 0)
    (h2 : cAt fs files 2 = cAt fs files 0)
    (out0 : List DupNode) (evs0 : List (Nat × Nat)) :
    ∃ evs1, processNode fs B size files out0 evs0
        = Except.ok (specGroup fs files size 0 :: out0, evs1) ∧
      (specGroup fs files size 0).files
        = [files.getD 2 default, files.getD 1 default, files.getD 0 default] ∧
      ∀ n g1 g2 fe, g1 ∈ specOut fs files size n [] →
        g2 ∈ specOut fs files size n [] →
        fe ∈ g1.files → fe ∈ g2.files → g1 = g2 := by
  have hall : ∀ k, k < files.length → cAt fs files k = cAt fs files 0 := by
    intro k hk
    rw [hlen3] at hk
    interval_cases k
    · rfl
    · exact h1
    · exact h2
  obtain ⟨evs1, hrun, hext⟩ := processNode_nonzero hyp (by omega) out0 evs0
  rw [specOut_all_equal (by omega) hall] at hrun
  refine ⟨evs1, hrun, ?_, ?_⟩
  · unfold specGroup
    rw [classList_all_equal hall 0 (by omega), hlen3]
    rfl
  · intro n g1 g2 fe hg1 hg2 hf1 hf2
    exact specOut_disjoint hg1 hg2 hf1 hf2

theorem identical_triple_witness :
    ∃ evs1, processNode allFs 1 1 cexFiles [] []
        = Except.ok (specGroup allFs cexFiles 1 0 :: [], evs1) ∧
      (specGroup allFs cexFiles 1 0).files
        = [cexFiles.getD 2 default, cexFiles.getD 1 default,
           cexFiles.getD 0 default] ∧
      ∀ n g1 g2 fe, g1 ∈ specOut allFs cexFiles 1 n [] →
        g2 ∈ specOut allFs cexFiles 1 n [] →
        fe ∈ g1.files → fe ∈ g2.files → g1 = g2 :=
  identical_triple_single_group allHyp rfl rfl rfl [] []

/-- C5: two same-size nonzero files whose contents differ are never put
into one emitted duplicate group: the chunked comparison of the pair
reports no duplicate, the bucket run completes, and no group added by the
bucket holds both file entries. -/
theorem differing_pair_never_grouped
    {fs : FSys} {B : Nat} {files : List Fe} {size : Nat} {i j : Nat}
    (hyp : BucketHyp fs B files size)
    (hij : i < j) (hj : j < files.length)
    (hne : cAt fs files i ≠ cAt fs files j)
    (out0 : List DupNode) (evs0 : List (Nat × Nat)) :
    (cmpLoop B (cAt fs files i) (cAt fs files j) 0 0).2 = false ∧
    ∃ evs1, processNode fs B size files out0 evs0
        = Except.ok (specOut fs files size files.length out0, evs1) ∧
      ∀ g ∈ specOut fs files size files.length out0, g ∉ out0 →
        ¬ (files.getD i default ∈ g.files ∧
           files.getD j default ∈ g.files) := by
  constructor
  · cases hres : (cmpLoop B (cAt fs files i) (cAt fs files j) 0 0).2 with
    | false => rfl
    | true =>
        exact absurd (cmpLoop_dup_eq B _ _ 0 0 hyp.hB (by simp) hres) hne
  · obtain ⟨evs1, hrun, hext⟩ := processNode_nonzero hyp (by omega) out0 evs0
    refine ⟨evs1, hrun, ?_⟩
    intro g hg hg0
    exact no_cogroup hne hg hg0

theorem differing_pair_witness :
    (cmpLoop 1 (cAt pairFs pairFiles 0) (cAt pairFs pairFiles 1) 0 0).2
      = false ∧
    ∃ evs1, processNode pairFs 1 1 pairFiles [] []
        = Except.ok (specOut pairFs pairFiles 1 pairFiles.length [], evs1) ∧
      ∀ g ∈ specOut pairFs pairFiles 1 pairFiles.length [],
        g ∉ ([] : List DupNode) →
        ¬ (pairFiles.getD 0 default ∈ g.files ∧
           pairFiles.getD 1 default ∈ g.files) :=
  differing_pair_never_grouped pairHyp (by omega) (by decide) (by decide) [] []

/-- C2 counterexample: inserting two distinct same-size identities leaves
the size-5 bucket in REVERSED arrival order: the second insert is
prepended, not appended, so the bucket does not keep arrival order. -/
theorem insert_appends_counterexample :
    bucketOf (buildTree [(0, ⟨5, 0, 0⟩), (1, ⟨5, 1, 1⟩)]) 5
      = [newFileNode 1 ⟨5, 1, 1⟩, newFileNode 0 ⟨5, 0, 0⟩] ∧
    bucketOf (buildTree [(0, ⟨5, 0, 0⟩), (1, ⟨5, 1, 1⟩)]) 5
      ≠ [newFileNode 0 ⟨5, 0, 0⟩, newFileNode 1 ⟨5, 1, 1⟩] := by
  have h : bucketOf (buildTree [(0, ⟨5, 0, 0⟩), (1, ⟨5, 1, 1⟩)]) 5
      = [newFileNode 1 ⟨5, 1, 1⟩, newFileNode 0 ⟨5, 0, 0⟩] := by
    simp [buildTree, insert, insertR, blacken, bucketOf, newFileNode, balance,
      rotateLeft, rotateRight, isRed, leftOf]
  refine ⟨h, ?_⟩
  rw [h]
  simp [newFileNode]

/-- C2 (amended): insert keeps every other size bucket unchanged and
prepends a new non-hard-link identity at the head of its size bucket, so
a bucket holds its files in reversed arrival order and the resolver's
stable indices 0..cnt-1 enumerate most-recently-inserted first. -/
theorem insert_prepends_within_bucket {t : Tree} (hbst : BST t)
    (name : Nat) (st : StatRec) :
    (∀ sz, sz ≠ st.st_size → bucketOf (insert t name st) sz = bucketOf t sz) ∧
    ((bucketOf t st.st_size).any
        (fun fp => fp.dev == st.st_dev && fp.inode == st.st_ino) = false →
      bucketOf (insert t name st) st.st_size
        = newFileNode name st :: bucketOf t st.st_size) := by
  constructor
  · intro sz hsz
    rw [bucketOf_insert hbst name st sz, if_neg hsz]
  · intro hdup
    rw [bucketOf_insert hbst name st st.st_size,
      if_pos (show st.st_size = st.st_size from rfl), hdup, if_neg (by simp)]

theorem insert_prepends_witness :
    (∀ sz, sz ≠ (⟨5, 0, 0⟩ : StatRec).st_size →
      bucketOf (insert .nil 0 ⟨5, 0, 0⟩) sz = bucketOf .nil sz) ∧
    ((bucketOf .nil (⟨5, 0, 0⟩ : StatRec).st_size).any
        (fun fp => fp.dev == (⟨5, 0, 0⟩ : StatRec).st_dev &&
          fp.inode == (⟨5, 0, 0⟩ : StatRec).st_ino) = false →
      bucketOf (insert .nil 0 ⟨5, 0, 0⟩) (⟨5, 0, 0⟩ : StatRec).st_size
        = newFileNode 0 ⟨5, 0, 0⟩
          :: bucketOf .nil (⟨5, 0, 0⟩ : StatRec).st_size) :=
  @insert_prepends_within_bucket Tree.nil True.intro 0 ⟨5, 0, 0⟩

/-- C6: a zero-size bucket with at least two files is emitted as exactly
one duplicate group of size 0 holding all of its files; the zero-size
path never touches the filesystem (the result is identical on every
filesystem and the comparison event log stays untouched); fewer than two
files emit nothing. -/
theorem zero_size_bucket_group (fs : FSys) (B : Nat) (files : List Fe)
    (out0 : List DupNode) (evs0 : List (Nat × Nat)) :
    (2 ≤ files.length →
      processNode fs B 0 files out0 evs0
        = Except.ok (DupNode.mk 0 files :: out0, evs0) ∧
      ∀ fe ∈ files, fe ∈ (DupNode.mk 0 files).files) ∧
    (∀ fs', processNode fs' B 0 files out0 evs0
      = processNode fs B 0 files out0 evs0) ∧
    (files.length < 2 →
      processNode fs B 0 files out0 evs0 = Except.ok (out0, evs0)) := by
  refine ⟨?_, ?_, ?_⟩
  · intro h2
    constructor
    · unfold processNode
      rw [if_neg (by omega), if_neg (by simp)]
    · intro fe hfe
      exact hfe
  · intro fs'
    unfold processNode
    by_cases hl : files.length < 2
    · rw [if_pos hl, if_pos hl]
    · rw [if_neg hl, if_neg hl, if_neg (by simp), if_neg (by simp)]
  · intro h2
    unfold processNode
    rw [if_pos h2]

theorem zero_size_bucket_witness :
    (2 ≤ pairFiles.length →
      processNode pairFs 1 0 pairFiles [] []
        = Except.ok (DupNode.mk 0 pairFiles :: [], []) ∧
      ∀ fe ∈ pairFiles, fe ∈ (DupNode.mk 0 pairFiles).files) ∧
    (∀ fs', processNode fs' 1 0 pairFiles [] []
      = processNode pairFs 1 0 pairFiles [] []) ∧
    (pairFiles.length < 2 →
      processNode pairFs 1 0 pairFiles [] [] = Except.ok ([], [])) :=
  zero_size_bucket_group pairFs 1 pairFiles [] []

/-- C7: after any sequence of inserts, no size bucket holds two entries
sharing a device and inode pair; inserting an identity whose device and
inode already occur in its size bucket leaves every bucket of the index
unchanged (the redundant hard link is discarded). -/
theorem no_duplicate_dev_inode (calls : List (Nat × StatRec))
    {t : Tree} (hbst : BST t) (name : Nat) (st : StatRec)
    (hdup : (bucketOf t st.st_size).any
      (fun fp => fp.dev == st.st_dev && fp.inode == st.st_ino) = true) :
    (∀ p ∈ toList (buildTree calls),
      p.2.Pairwise (fun a b => ¬ (a.dev = b.dev ∧ a.inode = b.inode))) ∧
    toList (insert t name st) = toList t :=
  ⟨NodupDI_buildTree calls, toList_insert_dup hbst name st hdup⟩

theorem no_duplicate_witness :
    (∀ p ∈ toList (buildTree [(0, ⟨1, 2, 3⟩), (4, ⟨1, 2, 3⟩)]),
      p.2.Pairwise (fun a b => ¬ (a.dev = b.dev ∧ a.inode = b.inode))) ∧
    toList (insert (Tree.node 1 1 [⟨9, 2, 3⟩] .nil .nil false) 0 ⟨1, 2, 3⟩)
      = toList (Tree.node 1 1 [⟨9, 2, 3⟩] .nil .nil false) :=
  @no_duplicate_dev_inode [(0, ⟨1, 2, 3⟩), (4, ⟨1, 2, 3⟩)]
    (Tree.node 1 1 [⟨9, 2, 3⟩] .nil .nil false)
    ⟨True.intro, True.intro,
      by intro s hs; simp [sizes, toList] at hs,
      by intro s hs; simp [sizes, toList] at hs⟩
    0 ⟨1, 2, 3⟩ rfl

/-- C8: every comparison event of a successful run names two files of one
size bucket of the index, and every file of that bucket was inserted with
a stat size equal to the bucket's size: two files inserted with different
sizes are never compared. -/
theorem compares_only_same_size_files {fs : FSys} {B : Nat}
    {calls : List (Nat × StatRec)} {out1 : List DupNode}
    {evs1 : List (Nat × Nat)} {ev : Nat × Nat}
    (hrun : chkForDups fs B (buildTree calls) ([], []) = Except.ok (out1, evs1))
    (hev : ev ∈ evs1) :
    ∃ sz b, (sz, b) ∈ toList (buildTree calls) ∧
      (∃ p q, p < b.length ∧ q < b.length ∧
        ev = ((b.getD p default).name, (b.getD q default).name)) ∧
      ∀ fe ∈ b, ∃ c ∈ calls, fe = newFileNode c.1 c.2 ∧ c.2.st_size = sz := by
  rcases chkForDups_evs (buildTree calls) ([], []) out1 evs1 hrun ev hev with
    h | ⟨sz, b, hb, p, q, hp, hq, hpe⟩
  · simp at h
  · refine ⟨sz, b, hb, ⟨p, q, hp, hq, hpe⟩, ?_⟩
    intro fe hfe
    obtain ⟨c, hc, hfe2, hsz⟩ := mem_buildTree_origin calls (sz, b) hb fe hfe
    exact ⟨c, hc, hfe2, hsz.symm⟩

/-- The two insert calls of the C8 witness run. -/
def wcalls : List (Nat × StatRec) := [(0, ⟨1, 0, 0⟩), (1, ⟨1, 1, 1⟩)]

theorem compares_only_witness :
    ∃ sz b, (sz, b) ∈ toList (buildTree wcalls) ∧
      (∃ p q, p < b.length ∧ q < b.length ∧
        ((1 : Nat), (0 : Nat))
          = ((b.getD p default).name, (b.getD q default).name)) ∧
      ∀ fe ∈ b, ∃ c ∈ wcalls, fe = newFileNode c.1 c.2 ∧ c.2.st_size = sz :=
  @compares_only_same_size_files pairFs 1 wcalls [] [(1, 0)] (1, 0)
    (by simp [wcalls, buildTree, insert, insertR, blacken, balance,
      rotateLeft, rotateRight, isRed, leftOf, chkForDups, processNode,
      iLoop_step_eq, jLoop_step_eq, procPair, maxToSkipLoop, cmpLoop,
      initBSt, finishRow, pairFs, key, readChunk, okFile, cAt, newFileNode])
    (by simp)

/-- C9: an I/O failure during comparison aborts the whole run: a bucket
whose first compared file cannot be opened makes the resolution pass fail
with a diagnostic naming the operation and the path, and any failed
resolution pass makes main syslog exactly that diagnostic, print no
duplicate groups, and exit with status 1. -/
theorem io_failure_aborts_run {fs : FSys} {B size c : Nat}
    {files : List Fe} {col : Bool}
    (hlen2 : files.length = 2) (hsz : size ≠ 0)
    (hopen : (fs ((files.getD 0 default).name)).openOk = false) :
    chkForDups fs B (.node size c files .nil .nil col) ([], [])
      = Except.error ⟨FileOp.fopen, (files.getD 0 default).name⟩ ∧
    ∀ args e, chkForDups fs B (buildTree (argCalls args)) ([], [])
        = Except.error e →
      (runMain fs B args).exitCode = 1 ∧ (runMain fs B args).printed = [] ∧
      (runMain fs B args).diag = some e := by
  constructor
  · have hm : ¬ maxToSkipLoop (initBSt ([] : List DupNode) []).ar
        files.length 0 1 0 0 < 0 := by
      rw [maxToSkipLoop_step, if_neg (by omega)]
      decide
    have hpp : procPair fs B files files.length size 0 1 (initBSt [] [])
        = Except.error ⟨FileOp.fopen, (files.getD 0 default).name⟩ :=
      procPair_open_err_i hm hopen
    have hjl : jLoop fs B files files.length size 0 1 (initBSt [] [])
        = Except.error ⟨FileOp.fopen, (files.getD 0 default).name⟩ := by
      rw [jLoop_step_eq, if_pos (by omega), if_neg (by simp [initBSt]), hpp]
    have hil : iLoop fs B files files.length size 0 (initBSt [] [])
        = Except.error ⟨FileOp.fopen, (files.getD 0 default).name⟩ := by
      rw [iLoop_step_eq, if_pos (by omega), if_neg (by simp [initBSt]), hjl]
    have hpn : processNode fs B size files [] []
        = Except.error ⟨FileOp.fopen, (files.getD 0 default).name⟩ := by
      unfold processNode
      rw [if_neg (by omega), if_pos hsz, hil]
    have hstep : chkForDups fs B (.node size c files .nil .nil col) ([], [])
        = (match processNode fs B size files [] [] with
           | .error e =>
              (.error e : Except IOErr (List DupNode × List (Nat × Nat)))
           | .ok acc2 => chkForDups fs B .nil acc2) := rfl
    rw [hstep, hpn]
  · intro args e h
    unfold runMain
    rw [h]
    exact ⟨rfl, rfl, rfl⟩

/-- A filesystem on which every open fails. -/
def failFs : FSys :=
  fun _ => { content := [0], openOk := false, seekOk := true, readOk := true }

theorem io_failure_witness :
    chkForDups failFs 1 (.node 1 1 pairFiles .nil .nil false) ([], [])
      = Except.error ⟨FileOp.fopen, (pairFiles.getD 0 default).name⟩ ∧
    ∀ args e, chkForDups failFs 1 (buildTree (argCalls args)) ([], [])
        = Except.error e →
      (runMain failFs 1 args).exitCode = 1 ∧
      (runMain failFs 1 args).printed = [] ∧
      (runMain failFs 1 args).diag = some e :=
  io_failure_aborts_run rfl (by omega) rfl

/-- C10: an nftw failure for one directory argument is not fatal: main's
outcome is identical whether or not that traversal reported -1 (the
remaining directories are still indexed), and when the resolution pass
succeeds the program prints exactly the resolved groups, exits with
status 0, and emits no diagnostic. -/
theorem nftw_failure_nonfatal (fs : FSys) (B : Nat)
    (args1 args2 : List DirArg) (v : List (Nat × StatRec)) :
    runMain fs B (args1 ++ ⟨v, true⟩ :: args2)
      = runMain fs B (args1 ++ ⟨v, false⟩ :: args2) ∧
    ∀ out evs, chkForDups fs B
        (buildTree (argCalls (args1 ++ ⟨v, true⟩ :: args2))) ([], [])
        = Except.ok (out, evs) →
      (runMain fs B (args1 ++ ⟨v, true⟩ :: args2)).exitCode = 0 ∧
      (runMain fs B (args1 ++ ⟨v, true⟩ :: args2)).printed = out ∧
      (runMain fs B (args1 ++ ⟨v, true⟩ :: args2)).diag = none := by
  have hcalls : argCalls (args1 ++ ⟨v, true⟩ :: args2)
      = argCalls (args1 ++ ⟨v, false⟩ :: args2) := by
    unfold argCalls
    simp
  constructor
  · unfold runMain
    rw [hcalls]
  · intro out evs h
    unfold runMain
    rw [h]
    exact ⟨rfl, rfl, rfl⟩

theorem nftw_failure_witness :
    runMain pairFs 1 ([] ++ ⟨[], true⟩ :: [])
      = runMain pairFs 1 ([] ++ ⟨[], false⟩ :: []) ∧
    ∀ out evs, chkForDups pairFs 1
        (buildTree (argCalls ([] ++ ⟨[], true⟩ :: []))) ([], [])
        = Except.ok (out, evs) →
      (runMain pairFs 1 ([] ++ ⟨[], true⟩ :: [])).exitCode = 0 ∧
      (runMain pairFs 1 ([] ++ ⟨[], true⟩ :: [])).printed = out ∧
      (runMain pairFs 1 ([] ++ ⟨[], true⟩ :: [])).diag = none :=
  nftw_failure_nonfatal pairFs 1 [] [] []

end Claims

end Finddups
